import Mathlib

/-!
nginx-vod-module: MP4 (AVCC) to Annex-B rewrite filter and CENC decrypt source

A shallow embedding of `vod/mp4_to_annexb_filter.c` and `vod/mp4/mp4_decrypt.c`.

Bytes are natural numbers (a well-formed byte is `< 256`).  Buffers handed to a
function as `(pointer, size)` are lists of bytes.  Stateful C functions become
functions that take the state and return the status together with the new state.
-/

namespace Vod

/-! ## Common definitions -/

/-- Status codes (`vod_status_t`).  `OTHER` stands for any status of an external
collaborator that this code only passes through. -/
inductive Status where
  | OK
  | BAD_DATA
  | ALLOC_FAILED
  | UNEXPECTED
  | OTHER (code : Nat)
deriving DecidableEq, Repr

/-- The fields of `output_frame_t` that the filter reads or updates. -/
structure OutputFrame where
  original_size : Nat
  key : Bool
deriving DecidableEq, Repr

/-- Modelled from the spec: the downstream Media Filter (`next_filter`, an external
collaborator, section 6 of the spec) as a recording double.  It answers every
`start_frame`, `write` and `flush_frame` call with a fixed status, and when it accepts
a call it records the argument: `written` is the concatenation of all accepted write
buffers. -/
structure NextFilter where
  start_rc : Status
  write_rc : Status
  flush_rc : Status
  started : List OutputFrame
  written : List Nat
  flushed : List Int
  simulated : List OutputFrame
deriving DecidableEq, Repr

/-- The call `next_filter->start_frame(ctx, frame)`. -/
def NextFilter.start_frame (nf : NextFilter) (frame : OutputFrame) : Status × NextFilter :=
  if nf.start_rc = Status.OK then
    (Status.OK, { nf with started := nf.started ++ [frame] })
  else
    (nf.start_rc, nf)

/-- The call `next_filter->write(ctx, buffer, size)`. -/
def NextFilter.write (nf : NextFilter) (buffer : List Nat) : Status × NextFilter :=
  if nf.write_rc = Status.OK then
    (Status.OK, { nf with written := nf.written ++ buffer })
  else
    (nf.write_rc, nf)

/-- The call `next_filter->flush_frame(ctx, margin_size)`. -/
def NextFilter.flush_frame (nf : NextFilter) (margin_size : Int) : Status × NextFilter :=
  if nf.flush_rc = Status.OK then
    (Status.OK, { nf with flushed := nf.flushed ++ [margin_size] })
  else
    (nf.flush_rc, nf)

/-- The call `next_filter->simulated_write(ctx, frame)`. -/
def NextFilter.simulated_write (nf : NextFilter) (frame : OutputFrame) : NextFilter :=
  { nf with simulated := nf.simulated ++ [frame] }

/-! ## The Annex-B rewrite filter (`mp4_to_annexb_filter.c`) -/

def NAL_SLICE : Nat := 1
def NAL_IDR_SLICE : Nat := 5
def NAL_SPS : Nat := 7
def NAL_PPS : Nat := 8
def NAL_AUD : Nat := 9

/-- The states of the write state machine, in the order of the C enum. -/
inductive CurState where
  | STATE_PACKET_SIZE
  | STATE_NAL_TYPE
  | STATE_COPY_PACKET
  | STATE_SKIP_PACKET
deriving DecidableEq, Repr

/-- The effect of `state->cur_state++` on the enum. -/
def CurState.incr : CurState → CurState
  | CurState.STATE_PACKET_SIZE => CurState.STATE_NAL_TYPE
  | CurState.STATE_NAL_TYPE => CurState.STATE_COPY_PACKET
  | CurState.STATE_COPY_PACKET => CurState.STATE_SKIP_PACKET
  | CurState.STATE_SKIP_PACKET => CurState.STATE_SKIP_PACKET

def aud_nal_packet : List Nat := [0x00, 0x00, 0x00, 0x01, 0x09, 0xf0]

def nal_marker : List Nat := [0x00, 0x00, 0x00, 0x01]

/-- Modelled from the spec: `mp4_to_annexb_state_t`, whose declaration lives in the
header `mp4_to_annexb_filter.h` (section 3, "AnnexB state").  The unsigned 32-bit
`packet_size_left` is reduced modulo `2^32` where it is shifted; the signed budget
`frame_size_left` is an integer. -/
structure AnnexbState where
  nal_packet_size_length : Nat
  sps_pps : List Nat
  sps_pps_size : Nat
  cur_state : CurState
  first_frame_packet : Bool
  first_idr : Bool
  key_frame : Bool
  length_bytes_left : Nat
  packet_size_left : Nat
  frame_size_left : Int
deriving DecidableEq, Repr

/-- The buffer `(state->sps_pps, state->sps_pps_size)` passed to the next filter. -/
def AnnexbState.blob (st : AnnexbState) : List Nat :=
  st.sps_pps.take st.sps_pps_size

/-- `mp4_to_annexb_simulation_supported`. -/
def mp4_to_annexb_simulation_supported (st : AnnexbState) : Bool :=
  st.nal_packet_size_length == 4

/-- `mp4_to_annexb_start_frame`. -/
def mp4_to_annexb_start_frame (st : AnnexbState) (nf : NextFilter) (frame : OutputFrame) :
    Status × AnnexbState × NextFilter :=
  match nf.start_frame frame with
  | (Status.OK, nf1) =>
    let st1 : AnnexbState :=
      { st with
        first_frame_packet := true
        cur_state := CurState.STATE_PACKET_SIZE
        length_bytes_left := st.nal_packet_size_length
        packet_size_left := 0
        key_frame := frame.key
        frame_size_left := (frame.original_size : Int) }
    let st2 : AnnexbState :=
      if frame.key then
        { st1 with frame_size_left := st1.frame_size_left + (st1.sps_pps_size : Int) }
      else st1
    let r := nf1.write aud_nal_packet
    (r.1, st2, r.2)
  | (rc, nf1) => (rc, st, nf1)

/-- The outcome of one pass through the body of the `while` loop of
`mp4_to_annexb_write`: either the function returns, or the loop goes on with the
rest of the buffer. -/
inductive Iter where
  | ret (rc : Status) (st : AnnexbState) (nf : NextFilter)
  | cont (st : AnnexbState) (nf : NextFilter) (buffer : List Nat)
deriving DecidableEq, Repr

/-- The `for` loop of `case STATE_PACKET_SIZE`: accumulate length bytes while some are
missing and the buffer is not exhausted. -/
def read_length (st : AnnexbState) : List Nat → AnnexbState × List Nat
  | [] => (st, [])
  | b :: bs =>
    if st.length_bytes_left = 0 then (st, b :: bs)
    else
      read_length
        { st with
          packet_size_left := ((st.packet_size_left <<< 8) ||| b) % 2 ^ 32
          length_bytes_left := st.length_bytes_left - 1 } bs

/-- The cases `STATE_COPY_PACKET` / `STATE_SKIP_PACKET` up to the `break`. -/
def case_copy_skip (st : AnnexbState) (nf : NextFilter) (buffer : List Nat) : Iter :=
  let write_size := min st.packet_size_left buffer.length
  let finish : AnnexbState → NextFilter → Iter := fun s n =>
    if s.packet_size_left - write_size ≤ 0 then
      Iter.cont
        { s with
          cur_state := CurState.STATE_PACKET_SIZE
          length_bytes_left := s.nal_packet_size_length
          packet_size_left := 0 } n (buffer.drop write_size)
    else
      Iter.cont { s with packet_size_left := s.packet_size_left - write_size } n
        (buffer.drop write_size)
  if st.cur_state = CurState.STATE_COPY_PACKET then
    let st1 : AnnexbState := { st with frame_size_left := st.frame_size_left - (write_size : Int) }
    match nf.write (buffer.take write_size) with
    | (Status.OK, nf1) => finish st1 nf1
    | (rc, nf1) => Iter.ret rc st1 nf1
  else
    finish st nf

/-- The inner `switch (unit_type)` of `case STATE_NAL_TYPE`: a regular slice arms the
flag, the first IDR/SPS/PPS unit of a key frame gets the SPS/PPS buffer written
before it. -/
def nal_type_switch (st : AnnexbState) (nf : NextFilter) (unit_type : Nat) :
    Status × AnnexbState × NextFilter :=
  if unit_type = NAL_SLICE then
    (Status.OK, { st with first_idr := true }, nf)
  else if unit_type = NAL_IDR_SLICE ∨ unit_type = NAL_SPS ∨ unit_type = NAL_PPS then
    if st.key_frame && st.first_idr then
      let st1 : AnnexbState :=
        { st with frame_size_left := st.frame_size_left - (st.sps_pps_size : Int) }
      match nf.write st.blob with
      | (Status.OK, nf1) => (Status.OK, { st1 with first_idr := false }, nf1)
      | (rc, nf1) => (rc, st1, nf1)
    else (Status.OK, st, nf)
  else (Status.OK, st, nf)

/-- The start marker of `case STATE_NAL_TYPE`: the whole `nal_marker` for the first packet
of the frame, `nal_marker + 1` (three bytes) afterwards. -/
def write_marker (st : AnnexbState) (nf : NextFilter) : Status × AnnexbState × NextFilter :=
  if st.first_frame_packet then
    let r := nf.write nal_marker
    (r.1, { st with
            first_frame_packet := false
            frame_size_left := st.frame_size_left - (nal_marker.length : Int) }, r.2)
  else
    let r := nf.write (nal_marker.drop 1)
    (r.1, { st with frame_size_left := st.frame_size_left - ((nal_marker.length : Int) - 1) }, r.2)

/-- The case `STATE_NAL_TYPE`, falling through into the copy case.  The buffer is not
empty here; the type is read from its first byte, which is not consumed. -/
def case_nal_type (st : AnnexbState) (nf : NextFilter) (buffer : List Nat) : Iter :=
  let unit_type := buffer.headD 0 &&& 0x1f
  if unit_type = NAL_AUD then
    Iter.cont { st with cur_state := CurState.STATE_SKIP_PACKET } nf buffer
  else
    match nal_type_switch st nf unit_type with
    | (Status.OK, st1, nf1) =>
      match write_marker st1 nf1 with
      | (Status.OK, st2, nf2) =>
        case_copy_skip { st2 with cur_state := st2.cur_state.incr } nf2 buffer
      | (rc, st2, nf2) => Iter.ret rc st2 nf2
    | (rc, st1, nf1) => Iter.ret rc st1 nf1

/-- One pass through the `switch (state->cur_state)` of the loop body, for a
buffer that is not empty. -/
def write_iter (st : AnnexbState) (nf : NextFilter) (buffer : List Nat) : Iter :=
  match st.cur_state with
  | CurState.STATE_PACKET_SIZE =>
    let r := read_length st buffer
    if r.2 = [] then Iter.cont r.1 nf []
    else case_nal_type { r.1 with cur_state := r.1.cur_state.incr } nf r.2
  | CurState.STATE_NAL_TYPE => case_nal_type st nf buffer
  | CurState.STATE_COPY_PACKET => case_copy_skip st nf buffer
  | CurState.STATE_SKIP_PACKET => case_copy_skip st nf buffer

/-- The loop `while (buffer < buffer_end)` of `mp4_to_annexb_write`, with a bound on
the number of passes; `none` when the bound is reached before the loop ends. -/
def write_loop : Nat → AnnexbState → NextFilter → List Nat → Option (Status × AnnexbState × NextFilter)
  | _, st, nf, [] => some (Status.OK, st, nf)
  | 0, _, _, _ :: _ => none
  | fuel + 1, st, nf, b :: bs =>
    match write_iter st nf (b :: bs) with
    | Iter.ret rc st1 nf1 => some (rc, st1, nf1)
    | Iter.cont st1 nf1 rest => write_loop fuel st1 nf1 rest

/-- `mp4_to_annexb_write`: three passes per input byte, and three more, are enough
whenever the length-field width is at least one (`write_loop_total`). -/
def mp4_to_annexb_write (st : AnnexbState) (nf : NextFilter) (buffer : List Nat) :
    Option (Status × AnnexbState × NextFilter) :=
  write_loop (3 * buffer.length + 3) st nf buffer

/-- `mp4_to_annexb_flush_frame`. -/
def mp4_to_annexb_flush_frame (st : AnnexbState) (nf : NextFilter) (margin_size : Int) :
    Status × NextFilter :=
  if st.nal_packet_size_length = 4 then
    if st.frame_size_left < 0 then (Status.UNEXPECTED, nf)
    else nf.flush_frame (margin_size + st.frame_size_left)
  else nf.flush_frame margin_size

/-- `mp4_to_annexb_simulated_write`: returns the updated frame and the next filter. -/
def mp4_to_annexb_simulated_write (st : AnnexbState) (nf : NextFilter) (frame : OutputFrame) :
    OutputFrame × NextFilter :=
  let f1 : OutputFrame := { frame with original_size := frame.original_size + aud_nal_packet.length }
  let f2 : OutputFrame :=
    if f1.key then { f1 with original_size := f1.original_size + st.sps_pps_size } else f1
  (f2, nf.simulated_write f2)

/-! ### Closed forms of the cases of the write loop -/

/-- The state left by the copy/skip case when `n` bytes are passed. -/
def copy_state (st : AnnexbState) (n : Nat) : AnnexbState :=
  let fsl : Int :=
    if st.cur_state = CurState.STATE_COPY_PACKET then st.frame_size_left - (n : Int)
    else st.frame_size_left
  if st.packet_size_left ≤ n then
    { st with
      cur_state := CurState.STATE_PACKET_SIZE
      length_bytes_left := st.nal_packet_size_length
      packet_size_left := 0
      frame_size_left := fsl }
  else
    { st with packet_size_left := st.packet_size_left - n, frame_size_left := fsl }

/-- The next filter after the copy/skip case has passed the bytes `bs`. -/
def copy_out (st : AnnexbState) (nf : NextFilter) (bs : List Nat) : NextFilter :=
  if st.cur_state = CurState.STATE_COPY_PACKET then { nf with written := nf.written ++ bs }
  else nf

/-- Whether the unit type gets the SPS/PPS buffer written before it in state `st`. -/
def injects (st : AnnexbState) (unit_type : Nat) : Bool :=
  (unit_type != NAL_SLICE) &&
    (unit_type == NAL_IDR_SLICE || unit_type == NAL_SPS || unit_type == NAL_PPS) &&
    st.key_frame && st.first_idr

/-- The injection flag after the inner switch on the unit type. -/
def next_first_idr (st : AnnexbState) (unit_type : Nat) : Bool :=
  if unit_type = NAL_SLICE then true
  else if injects st unit_type then false
  else st.first_idr

/-- The bytes written in front of the payload of a kept unit: the SPS/PPS buffer when
it is injected, then the start marker. -/
def unit_lead (st : AnnexbState) (unit_type : Nat) : List Nat :=
  (if injects st unit_type then st.blob else []) ++
    (if st.first_frame_packet then nal_marker else nal_marker.drop 1)

/-- The state in which the copy case is entered for a kept unit. -/
def nal_state (st : AnnexbState) (unit_type : Nat) : AnnexbState :=
  { st with
    first_idr := next_first_idr st unit_type
    first_frame_packet := false
    cur_state := st.cur_state.incr
    frame_size_left :=
      st.frame_size_left - (if injects st unit_type then (st.sps_pps_size : Int) else 0) -
        (if st.first_frame_packet then 4 else 3) }

/-- How one pass over `b1 ++ b2` relates to the pass over `b1` alone: either it
is the same pass and leaves `b2` untouched behind the rest, or the pass over `b1`
used up `b1` and the pass over the whole is the pass over `b2` from the state reached. -/
def AppendStep (it it2 : Iter) (b2 : List Nat) : Prop :=
  ∃ st1 nf1 r1, it = Iter.cont st1 nf1 r1 ∧ nf1.write_rc = Status.OK ∧
    (it2 = Iter.cont st1 nf1 (r1 ++ b2) ∨ (r1 = [] ∧ it2 = write_iter st1 nf1 b2))

/-- The number of passes of the write loop that a state can spend without consuming
input: the measure `3 * buffer.length + rank st` decreases with every pass. -/
def rank (st : AnnexbState) : Nat :=
  match st.cur_state with
  | CurState.STATE_PACKET_SIZE => if st.length_bytes_left = 0 then 2 else 0
  | CurState.STATE_NAL_TYPE => 2
  | CurState.STATE_COPY_PACKET => if st.packet_size_left = 0 then 1 else 0
  | CurState.STATE_SKIP_PACKET => if st.packet_size_left = 0 then 1 else 0

/-! ### Frames as sequences of NAL units (reference side) -/

/-- A length-prefixed NAL unit of the input: the bytes of the length field and the
payload bytes. -/
structure NalUnit where
  len_field : List Nat
  payload : List Nat
deriving DecidableEq, Repr

/-- The input bytes of a unit. -/
def NalUnit.bytes (u : NalUnit) : List Nat := u.len_field ++ u.payload

/-- The NAL unit type: the low five bits of the first payload byte. -/
def NalUnit.type (u : NalUnit) : Nat := u.payload.headD 0 &&& 0x1f

/-- The value of a big-endian byte string. -/
def be_value (bs : List Nat) : Nat := bs.foldl (fun a b => a * 256 + b) 0

/-- A unit is well formed for width `w`: a `w`-byte big-endian length field that
holds the payload length, and at least one payload byte. -/
def NalUnit.wf (w : Nat) (u : NalUnit) : Prop :=
  u.len_field.length = w ∧ (∀ b ∈ u.len_field, b < 256) ∧
    be_value u.len_field = u.payload.length ∧ u.payload ≠ []

instance (w : Nat) (u : NalUnit) : Decidable (u.wf w) :=
  inferInstanceAs (Decidable (u.len_field.length = w ∧ (∀ b ∈ u.len_field, b < 256) ∧
    be_value u.len_field = u.payload.length ∧ u.payload ≠ []))

/-- The bytes of a frame made of the given units. -/
def frame_bytes : List NalUnit → List Nat
  | [] => []
  | u :: us => u.bytes ++ frame_bytes us

/-- The reference rendering of the units of a frame, as the specification words it:
units of type 9 are left out; a kept unit is preceded by the SPS/PPS blob when its type
is 5, 7 or 8, the frame is a key frame and the injection flag is armed, then by the
four-byte marker when it is the first kept unit and the three-byte marker otherwise.
The flag is armed by a unit of type 1 and disarmed by an injection. -/
def render (key : Bool) (blob : List Nat) : Bool → Bool → List NalUnit → List Nat
  | _, _, [] => []
  | armed, first, u :: us =>
    if u.type = 9 then render key blob armed first us
    else
      let inject : Bool := (u.type == 5 || u.type == 7 || u.type == 8) && key && armed
      let armed1 : Bool := if u.type = 1 then true else if inject then false else armed
      (if inject then blob else []) ++ (if first then [0, 0, 0, 1] else [0, 0, 1]) ++ u.payload ++
        render key blob armed1 false us

/-- A state between two units: the length field of the next unit is awaited. -/
def AnnexbState.boundary (st : AnnexbState) : Prop :=
  st.cur_state = CurState.STATE_PACKET_SIZE ∧ st.length_bytes_left = st.nal_packet_size_length ∧
    st.packet_size_left = 0

instance (st : AnnexbState) : Decidable st.boundary :=
  inferInstanceAs (Decidable (st.cur_state = CurState.STATE_PACKET_SIZE ∧
    st.length_bytes_left = st.nal_packet_size_length ∧ st.packet_size_left = 0))

/-- The state after a whole unit has been written in a boundary state. -/
def unit_state (st : AnnexbState) (u : NalUnit) : AnnexbState :=
  if u.type = NAL_AUD then st
  else
    { st with
      first_idr := next_first_idr st u.type
      first_frame_packet := false
      frame_size_left :=
        st.frame_size_left - (if injects st u.type then (st.sps_pps_size : Int) else 0) -
          (if st.first_frame_packet then 4 else 3) - (u.payload.length : Int) }

/-- The bytes forwarded for a whole unit written in a boundary state. -/
def unit_out (st : AnnexbState) (u : NalUnit) : List Nat :=
  if u.type = NAL_AUD then [] else unit_lead st u.type ++ u.payload

/-- The state after a sequence of whole units. -/
def units_state (st : AnnexbState) : List NalUnit → AnnexbState
  | [] => st
  | u :: us => units_state (unit_state st u) us

/-- The bytes forwarded for a sequence of whole units. -/
def units_out (st : AnnexbState) : List NalUnit → List Nat
  | [] => []
  | u :: us => unit_out st u ++ units_out (unit_state st u) us

/-- The state set up by a successful `start_frame`. -/
def started_state (st : AnnexbState) (frame : OutputFrame) : AnnexbState :=
  { st with
    first_frame_packet := true
    cur_state := CurState.STATE_PACKET_SIZE
    length_bytes_left := st.nal_packet_size_length
    packet_size_left := 0
    key_frame := frame.key
    frame_size_left := (frame.original_size : Int) + (if frame.key then (st.sps_pps_size : Int) else 0) }

/-- Writing the chunks of a list one after the other, stopping at the first status
that is not OK. -/
def write_chunks (st : AnnexbState) (nf : NextFilter) :
    List (List Nat) → Option (Status × AnnexbState × NextFilter)
  | [] => some (Status.OK, st, nf)
  | c :: cs =>
    match mp4_to_annexb_write st nf c with
    | some (Status.OK, st1, nf1) => write_chunks st1 nf1 cs
    | r => r

/-- The concatenation of a list of chunks. -/
def concat_chunks : List (List Nat) → List Nat
  | [] => []
  | c :: cs => c ++ concat_chunks cs

/-! ### `mp4_to_annexb_init` -/

/-- `PARSE_BE16` at offset `pos` of the extra data, stored in the 16-bit `unit_size`. -/
def parse_be16 (data : List Nat) (pos : Nat) : Nat :=
  ((data.getD pos 0 <<< 8) ||| data.getD (pos + 1) 0) % 2 ^ 16

/-- The inner loop of the first pass of `mp4_to_annexb_init` over `unit_count` units:
the status, the position reached and the running `sps_pps_size`.  Positions are offsets
from `extra_data`, and `extra_data_size` is the offset of `extra_data_end`.  The size is a
sum of at most 62 terms below `2^16 + 4`, so the 32-bit field does not overflow. -/
def init_scan_units (extra_data : List Nat) (extra_data_size : Nat) :
    Nat → Nat → Nat → Status × Nat × Nat
  | 0, cur_pos, size => (Status.OK, cur_pos, size)
  | unit_count + 1, cur_pos, size =>
    if cur_pos + 2 > extra_data_size then (Status.BAD_DATA, cur_pos, size)
    else
      let unit_size := parse_be16 extra_data cur_pos
      if cur_pos + 2 + unit_size > extra_data_size then (Status.BAD_DATA, cur_pos + 2, size)
      else
        init_scan_units extra_data extra_data_size unit_count (cur_pos + 2 + unit_size)
          (size + (4 + unit_size))

/-- The outer loop of the first pass (`i` passes left: once for SPS, once for PPS). -/
def init_scan (extra_data : List Nat) (extra_data_size : Nat) :
    Nat → Nat → Nat → Status × Nat × Nat
  | 0, cur_pos, size => (Status.OK, cur_pos, size)
  | i + 1, cur_pos, size =>
    if cur_pos ≥ extra_data_size then (Status.BAD_DATA, cur_pos, size)
    else
      match init_scan_units extra_data extra_data_size (extra_data.getD cur_pos 0 &&& 0x1f)
          (cur_pos + 1) size with
      | (Status.OK, p, s) => init_scan extra_data extra_data_size i p s
      | r => r

/-- The inner loop of the second pass: every unit is copied behind a start code.  The
store `*((uint32_t*)sps_pps_pos) = 0x01000000` gives the bytes `00 00 00 01` on a
little-endian machine, which is what is modelled. -/
def init_copy_units (extra_data : List Nat) : Nat → Nat → List Nat → Nat × List Nat
  | 0, cur_pos, out => (cur_pos, out)
  | unit_count + 1, cur_pos, out =>
    let unit_size := parse_be16 extra_data cur_pos
    init_copy_units extra_data unit_count (cur_pos + 2 + unit_size)
      (out ++ [0, 0, 0, 1] ++ (extra_data.drop (cur_pos + 2)).take unit_size)

/-- The outer loop of the second pass. -/
def init_copy (extra_data : List Nat) : Nat → Nat → List Nat → Nat × List Nat
  | 0, cur_pos, out => (cur_pos, out)
  | i + 1, cur_pos, out =>
    let r := init_copy_units extra_data (extra_data.getD cur_pos 0 &&& 0x1f) (cur_pos + 1) out
    init_copy extra_data i r.1 r.2

/-- `mp4_to_annexb_init`.  The state passed in stands for the memory of the state
structure before the call; `extra_data` is the memory from the pointer `extra_data` on, of
which the first `extra_data_size` bytes are the buffer; `simulation_only` is the flag of
the request context and `alloc_ok` tells whether `vod_alloc` succeeds (a failed allocation
leaves `sps_pps` `NULL`, the empty buffer here). -/
def mp4_to_annexb_init (st : AnnexbState) (simulation_only alloc_ok : Bool)
    (extra_data : List Nat) (extra_data_size : Nat) : Status × AnnexbState :=
  let st1 : AnnexbState := { st with first_idr := true }
  if extra_data_size < 5 then (Status.BAD_DATA, st1)
  else
    let st2 : AnnexbState :=
      { st1 with nal_packet_size_length := (extra_data.getD 4 0 &&& 0x3) + 1 }
    match init_scan extra_data extra_data_size 2 5 0 with
    | (Status.OK, _, size) =>
      let st3 : AnnexbState := { st2 with sps_pps_size := size }
      if simulation_only then (Status.OK, st3)
      else if !alloc_ok then (Status.ALLOC_FAILED, { st3 with sps_pps := [] })
      else (Status.OK, { st3 with sps_pps := (init_copy extra_data 2 5 []).2 })
    | (rc, _, size) => (rc, { st2 with sps_pps_size := size })

/-! ### Sample inputs -/

/-- A next filter that accepts every call and has received nothing yet. -/
def sample_next : NextFilter :=
  { start_rc := Status.OK, write_rc := Status.OK, flush_rc := Status.OK,
    started := [], written := [], flushed := [], simulated := [] }

/-- The memory of a state structure before `mp4_to_annexb_init`. -/
def blank_state : AnnexbState :=
  { nal_packet_size_length := 0, sps_pps := [], sps_pps_size := 0,
    cur_state := CurState.STATE_PACKET_SIZE, first_frame_packet := false, first_idr := false,
    key_frame := false, length_bytes_left := 0, packet_size_left := 0, frame_size_left := 0 }

/-- An AVCC record with four-byte length fields, one SPS (`67 01`) and one PPS (`68`). -/
def sample_extra_data : List Nat :=
  [0x01, 0x64, 0x00, 0x1f, 0xff, 0xe1, 0x00, 0x02, 0x67, 0x01, 0x01, 0x00, 0x01, 0x68]

/-- The filter state after `mp4_to_annexb_init` on the sample record (14 bytes). -/
def sample_state : AnnexbState :=
  (mp4_to_annexb_init blank_state false true sample_extra_data sample_extra_data.length).2

/-- An IDR slice unit, a regular slice unit and an access unit delimiter unit, with
four-byte length fields. -/
def sample_idr : NalUnit := { len_field := [0, 0, 0, 2], payload := [0x65, 0xaa] }

def sample_slice : NalUnit := { len_field := [0, 0, 0, 3], payload := [0x41, 0x01, 0x02] }

def sample_aud : NalUnit := { len_field := [0, 0, 0, 2], payload := [0x09, 0xf0] }

/-- The rendering of units behind the first one when nothing is injected: every unit
that is not of type 9 gets the three-byte marker and its payload. -/
def plain_units : List NalUnit → List Nat
  | [] => []
  | v :: vs => (if v.type = 9 then [] else [0, 0, 1] ++ v.payload) ++ plain_units vs

/-- A whole frame pushed through the filter: `start_frame`, the writes of the chunks
and `flush_frame`, stopping at the first status that is not OK. -/
def run_frame (st : AnnexbState) (nf : NextFilter) (frame : OutputFrame)
    (chunks : List (List Nat)) (margin_size : Int) : Option (Status × AnnexbState × NextFilter) :=
  match mp4_to_annexb_start_frame st nf frame with
  | (Status.OK, st1, nf1) =>
    match write_chunks st1 nf1 chunks with
    | some (Status.OK, st2, nf2) =>
      let r := mp4_to_annexb_flush_frame st2 nf2 margin_size
      some (r.1, st2, r.2)
    | r => r
  | r => some r

/-- The bytes that the filter forwards for a frame written in one piece (`start_frame`
and one write), when both return OK. -/
def frame_output (st : AnnexbState) (nf : NextFilter) (frame : OutputFrame)
    (buffer : List Nat) : Option (List Nat) :=
  match mp4_to_annexb_start_frame st nf frame with
  | (Status.OK, st1, nf1) =>
    match mp4_to_annexb_write st1 nf1 buffer with
    | some (Status.OK, _, nf2) => some (nf2.written.drop nf.written.length)
    | _ => none
  | _ => none

/-- The number of times the SPS/PPS buffer is written while the units are written
from the boundary state `st`. -/
def injections (st : AnnexbState) : List NalUnit → Nat
  | [] => 0
  | u :: us =>
    (if u.type ≠ NAL_AUD ∧ injects st u.type = true then 1 else 0) + injections (unit_state st u) us

/-- Whether the unit type is 5, 7 or 8. -/
def is_param_or_idr (ut : Nat) : Bool := ut == 5 || ut == 7 || ut == 8

/-- No unit of type 5, 7 or 8 comes behind a unit of type 1. -/
def no_rearm : List NalUnit → Bool
  | [] => true
  | u :: us => (u.type != 1 || us.all (fun v => !is_param_or_idr v.type)) && no_rearm us

/-! ## The CENC decrypt source (`mp4/mp4_decrypt.c`) -/

def BUFFER_SIZE : Nat := 65536

def MIN_BUFFER_SIZE : Nat := 16

def MP4_AES_CTR_IV_SIZE : Nat := 16

def UINT_MAX : Nat := 4294967295

/-- Modelled from the spec: `sizeof(cenc_sample_auxiliary_data_subsample_t)`, declared in
the external `mp4_parser.h`: a 16-bit count of clear bytes and a 32-bit count of encrypted
bytes (section 6, "CENC auxiliary info"). -/
def SUBSAMPLE_SIZE : Nat := 6

/-- Modelled from the spec: the keystream of the external AES-CTR cipher engine, a byte
for every key, IV and number of bytes processed since the IV was set (section 2,
"Cipher Engine").  It is a parameter of the development. -/
abbrev Keystream := List Nat → List Nat → Nat → Nat

/-- Modelled from the spec: the state of the external cipher engine
(`mp4_aes_ctr_state_t`): key, IV and the number of bytes processed since the IV was set.
`fed` records every byte handed to `mp4_aes_ctr_process`, and `process_rc` is the
status with which the engine answers every call. -/
structure Cipher where
  key : List Nat
  iv : List Nat
  pos : Nat
  fed : List Nat
  process_rc : Status
deriving DecidableEq, Repr

/-- `mp4_aes_ctr_set_iv`: the keystream restarts. -/
def Cipher.set_iv (c : Cipher) (iv : List Nat) : Cipher :=
  { c with iv := iv, pos := 0 }

/-- The bytes of `src` combined by exclusive or with the keystream from position `p`. -/
def keystream_xor (ks : Keystream) (key iv : List Nat) : Nat → List Nat → List Nat
  | _, [] => []
  | p, b :: bs => (b ^^^ ks key iv p) :: keystream_xor ks key iv (p + 1) bs

/-- `mp4_aes_ctr_process(cipher, dest, src, size)`: the status, the cipher afterwards
and the bytes written to `dest`. -/
def Cipher.process (ks : Keystream) (c : Cipher) (src : List Nat) : Status × Cipher × List Nat :=
  if c.process_rc = Status.OK then
    (Status.OK, { c with pos := c.pos + src.length, fed := c.fed ++ src },
      keystream_xor ks c.key c.iv c.pos src)
  else (c.process_rc, c, [])

/-- Modelled from the spec: the underlying Frame Source (an external collaborator,
section 6) as a double: it answers `start_frame` and `read` with fixed statuses, and
`read` delivers the pending chunks one by one, each with its frame-done flag. -/
structure FramesSource where
  start_rc : Status
  read_rc : Status
  pending : List (List Nat × Bool)
  cache_slot_id : Int
  reuse_disabled : Bool
deriving DecidableEq, Repr

/-- The call `frames_source->read(ctx, &input_pos, &input_size, &frame_done)`. -/
def FramesSource.read (s : FramesSource) : Status × FramesSource × List Nat × Bool :=
  if s.read_rc = Status.OK then
    match s.pending with
    | [] => (Status.OK, s, [], true)
    | (chunk, done) :: rest => (Status.OK, { s with pending := rest }, chunk, done)
  else (s.read_rc, s, [], false)

/-- `mp4_decrypt_state_t`.  The auxiliary info is the byte buffer with the offsets of the
cursor and of the end; `input` holds the bytes from `input_pos` on; `output_pos` and
`output_end` are offsets from `output_start`, which is `NULL` until a buffer has been
allocated; `allocations` counts the output buffers obtained from `vod_alloc`. -/
structure DecryptState where
  frames_source : FramesSource
  reuse_buffers : Bool
  use_subsamples : Bool
  key : List Nat
  cipher : Cipher
  auxiliary_info : List Nat
  auxiliary_info_pos : Nat
  auxiliary_info_end : Nat
  subsample_count : Nat
  clear_bytes : Nat
  encrypted_bytes : Nat
  input : List Nat
  input_size : Nat
  frame_done : Bool
  output_allocated : Bool
  output_end : Nat
  output_pos : Nat
  allocations : Nat
deriving DecidableEq, Repr

/-- `read_be16` at offset `pos` (two bytes into a 16-bit field). -/
def read_be16 (data : List Nat) (pos : Nat) : Nat :=
  ((data.getD pos 0 <<< 8) ||| data.getD (pos + 1) 0) % 2 ^ 16

/-- `read_be32` at offset `pos` (four bytes into a 32-bit field). -/
def read_be32 (data : List Nat) (pos : Nat) : Nat :=
  ((data.getD pos 0 <<< 24) ||| (data.getD (pos + 1) 0 <<< 16) |||
    (data.getD (pos + 2) 0 <<< 8) ||| data.getD (pos + 3) 0) % 2 ^ 32

/-- `mp4_decrypt_init`, with `alloc_ok` telling whether `vod_alloc` succeeds and
`cipher_rc` the status of `mp4_aes_ctr_init` and of the later cipher calls. -/
def mp4_decrypt_init (alloc_ok : Bool) (cipher_rc : Status) (frames_source : FramesSource)
    (key : List Nat) (auxiliary_info : List Nat) (use_subsamples : Bool) :
    Status × Option DecryptState :=
  if !alloc_ok then (Status.ALLOC_FAILED, none)
  else if cipher_rc ≠ Status.OK then (cipher_rc, none)
  else
    (Status.OK, some
      { frames_source := frames_source
        reuse_buffers := true
        use_subsamples := use_subsamples
        key := key
        cipher := { key := key, iv := [], pos := 0, fed := [], process_rc := cipher_rc }
        auxiliary_info := auxiliary_info
        auxiliary_info_pos := 0
        auxiliary_info_end := auxiliary_info.length
        subsample_count := 0
        clear_bytes := 0
        encrypted_bytes := 0
        input := []
        input_size := 0
        frame_done := false
        output_allocated := false
        output_end := 0
        output_pos := 0
        allocations := 0 })

/-- `mp4_decrypt_start_frame`. -/
def mp4_decrypt_start_frame (st : DecryptState) : Status × DecryptState :=
  if st.frames_source.start_rc ≠ Status.OK then (st.frames_source.start_rc, st)
  else if st.auxiliary_info_pos + MP4_AES_CTR_IV_SIZE > st.auxiliary_info_end then
    (Status.BAD_DATA, st)
  else
    let st1 : DecryptState :=
      { st with
        cipher := st.cipher.set_iv
          ((st.auxiliary_info.drop st.auxiliary_info_pos).take MP4_AES_CTR_IV_SIZE)
        auxiliary_info_pos := st.auxiliary_info_pos + MP4_AES_CTR_IV_SIZE }
    if !st1.use_subsamples then
      (Status.OK, { st1 with encrypted_bytes := UINT_MAX })
    else if st1.auxiliary_info_pos + 2 + SUBSAMPLE_SIZE > st1.auxiliary_info_end then
      (Status.BAD_DATA, st1)
    else
      let st2 : DecryptState :=
        { st1 with
          subsample_count := read_be16 st1.auxiliary_info st1.auxiliary_info_pos
          auxiliary_info_pos := st1.auxiliary_info_pos + 2 }
      if st2.subsample_count ≤ 0 then (Status.BAD_DATA, st2)
      else
        (Status.OK,
          { st2 with
            clear_bytes := read_be16 st2.auxiliary_info st2.auxiliary_info_pos
            encrypted_bytes := read_be32 st2.auxiliary_info (st2.auxiliary_info_pos + 2)
            auxiliary_info_pos := st2.auxiliary_info_pos + 2 + 4
            subsample_count := st2.subsample_count - 1 })

/-- The head of the loop body of `mp4_decrypt_process`: when a subsample is finished, the
next entry is read from the auxiliary info. -/
def next_subsample (st : DecryptState) : Status × DecryptState :=
  if st.clear_bytes ≤ 0 ∧ st.encrypted_bytes ≤ 0 then
    if st.subsample_count ≤ 0 then (Status.BAD_DATA, st)
    else if st.auxiliary_info_pos + SUBSAMPLE_SIZE > st.auxiliary_info_end then
      (Status.BAD_DATA, st)
    else
      (Status.OK,
        { st with
          clear_bytes := read_be16 st.auxiliary_info st.auxiliary_info_pos
          encrypted_bytes := read_be32 st.auxiliary_info (st.auxiliary_info_pos + 2)
          auxiliary_info_pos := st.auxiliary_info_pos + 2 + 4
          subsample_count := st.subsample_count - 1 })
  else (Status.OK, st)

/-- The loop `while (size > 0)` of `mp4_decrypt_process`, with a bound on the number of
passes (`none` when the bound is reached first).  `src` holds the bytes from the local
pointer `src` on, `dest` the bytes written through the local pointer `dest` so far.  The
result gives the status, the state, and both again. -/
def process_loop (ks : Keystream) :
    Nat → DecryptState → Nat → List Nat → List Nat →
      Option (Status × DecryptState × List Nat × List Nat)
  | _, st, 0, src, dest => some (Status.OK, st, src, dest)
  | 0, _, _ + 1, _, _ => none
  | fuel + 1, st, size + 1, src, dest =>
    match next_subsample st with
    | (Status.OK, st1) =>
      let clear_size := if st1.clear_bytes > 0 then min st1.clear_bytes (size + 1) else 0
      let dest1 := dest ++ src.take clear_size
      let src1 := src.drop clear_size
      let size1 := size + 1 - clear_size
      let st2 : DecryptState := { st1 with clear_bytes := st1.clear_bytes - clear_size }
      let cur_size := min st2.encrypted_bytes size1
      match st2.cipher.process ks (src1.take cur_size) with
      | (Status.OK, cipher1, out) =>
        process_loop ks fuel
          { st2 with cipher := cipher1, encrypted_bytes := st2.encrypted_bytes - cur_size }
          (size1 - cur_size) (src1.drop cur_size) (dest1 ++ out)
      | (rc, cipher1, _) => some (rc, { st2 with cipher := cipher1 }, src1, dest1)
    | (rc, st1) => some (rc, st1, src, dest)

/-- `mp4_decrypt_process(state, size)`: the status, the state and the bytes written to the
output buffer from `output_pos` on.  The cursors `output_pos` and `input_pos` are stored
back only when the loop ends with OK.  A pass of the loop either consumes a byte or a
subsample entry, so `size + subsample_count` passes are enough (`process_loop_total`). -/
def mp4_decrypt_process (ks : Keystream) (st : DecryptState) (size : Nat) :
    Option (Status × DecryptState × List Nat) :=
  match process_loop ks (size + st.subsample_count) st size st.input [] with
  | some (Status.OK, st1, src, dest) =>
    some (Status.OK, { st1 with input := src, output_pos := st1.output_pos + size }, dest)
  | some (rc, st1, _, dest) => some (rc, st1, dest)
  | none => none

/-- The outcome of `mp4_decrypt_read`: the status, the state, and the out-parameters
`*buffer` (as the bytes it points to), `*size` and `*frame_done`. -/
structure ReadResult where
  rc : Status
  st : DecryptState
  buffer : List Nat
  size : Nat
  frame_done : Bool
deriving DecidableEq, Repr

/-- `mp4_decrypt_read`, with `alloc_ok` telling whether `vod_alloc` succeeds. -/
def mp4_decrypt_read (ks : Keystream) (st : DecryptState) (alloc_ok : Bool) : Option ReadResult :=
  -- make sure there is some output space
  let space : Status × DecryptState :=
    if st.output_pos + MIN_BUFFER_SIZE ≥ st.output_end then
      if !st.reuse_buffers || !st.output_allocated then
        if !alloc_ok then (Status.ALLOC_FAILED, { st with output_allocated := false })
        else
          (Status.OK,
            { st with
              output_allocated := true
              output_end := BUFFER_SIZE
              output_pos := 0
              allocations := st.allocations + 1 })
      else (Status.OK, { st with output_pos := 0 })
    else (Status.OK, st)
  match space with
  | (Status.OK, st1) =>
    -- make sure there is some input buffer
    let pulled : Status × DecryptState :=
      if st1.input_size ≤ 0 then
        match st1.frames_source.read with
        | (Status.OK, src, chunk, done) =>
          (Status.OK,
            { st1 with
              frames_source := src
              input := chunk
              input_size := chunk.length % 2 ^ 32
              frame_done := done })
        | (rc, src, _, _) => (rc, { st1 with frames_source := src })
      else (Status.OK, st1)
    match pulled with
    | (Status.OK, st2) =>
      let cur_size := min ((st2.output_end - st2.output_pos) % 2 ^ 32) st2.input_size
      let st3 : DecryptState := { st2 with input_size := st2.input_size - cur_size }
      let done := if st3.input_size ≤ 0 then st3.frame_done else false
      match mp4_decrypt_process ks st3 cur_size with
      | some (rc, st4, written) => some ⟨rc, st4, written, cur_size, done⟩
      | none => none
    | (rc, st2) => some ⟨rc, st2, [], 0, false⟩
  | (rc, st1) => some ⟨rc, st1, [], 0, false⟩

/-- `mp4_decrypt_disable_buffer_reuse`. -/
def mp4_decrypt_disable_buffer_reuse (st : DecryptState) : DecryptState :=
  { st with reuse_buffers := false }

/-- `mp4_decrypt_set_cache_slot_id`. -/
def mp4_decrypt_set_cache_slot_id (st : DecryptState) (cache_slot_id : Int) : DecryptState :=
  { st with frames_source := { st.frames_source with cache_slot_id := cache_slot_id } }

/-- `mp4_decrypt_get_key`. -/
def mp4_decrypt_get_key (st : DecryptState) : List Nat := st.key

/-- One pass of the loop of `mp4_decrypt_process` behind the reading of the subsample
entry, with a cipher that succeeds: the state, the size left, and the local `src` and
`dest` after the clear bytes have been copied and the encrypted bytes processed. -/
def pass_result (ks : Keystream) (st : DecryptState) (size : Nat) (src dest : List Nat) :
    DecryptState × Nat × List Nat × List Nat :=
  let c := min st.clear_bytes size
  let e := min st.encrypted_bytes (size - c)
  ({ st with
      clear_bytes := st.clear_bytes - c
      cipher := (st.cipher.process ks ((src.drop c).take e)).2.1
      encrypted_bytes := st.encrypted_bytes - e },
    size - c - e, (src.drop c).drop e,
    dest ++ src.take c ++ (st.cipher.process ks ((src.drop c).take e)).2.2)

/-- The state with the cursors `input_pos` and `output_pos` replaced. -/
def with_io (st : DecryptState) (input : List Nat) (output_pos : Nat) : DecryptState :=
  { st with input := input, output_pos := output_pos }

/-- `mp4_decrypt_process` over `a` bytes and then, when that returned OK, over `b` more
bytes; the bytes written by both calls are concatenated. -/
def process_twice (ks : Keystream) (st : DecryptState) (a b : Nat) :
    Option (Status × DecryptState × List Nat) :=
  match mp4_decrypt_process ks st a with
  | some (Status.OK, st1, w1) =>
    match mp4_decrypt_process ks st1 b with
    | some (rc, st2, w2) => some (rc, st2, w1 ++ w2)
    | none => none
  | r => r

/-- The state with the record of the bytes handed to the cipher replaced. -/
def with_fed (st : DecryptState) (fed : List Nat) : DecryptState :=
  { st with cipher := { st.cipher with fed := fed } }

/-! ### Sample inputs for the decrypt source -/

/-- A sample keystream. -/
def sample_keystream : Keystream := fun key iv i => (key.sum + 3 * iv.sum + 7 * i + 1) % 256

/-- A frame source with two pending chunks. -/
def sample_source : FramesSource :=
  { start_rc := Status.OK, read_rc := Status.OK,
    pending := [([1, 2, 3, 4, 5], false), ([6, 7, 8, 9, 10, 11, 12], true)],
    cache_slot_id := 0, reuse_disabled := false }

/-- Auxiliary info of one sample: a 16-byte IV, a subsample count of 3 and the entries
(2 clear, 3 encrypted), (0, 0) and (4 clear, 3 encrypted). -/
def sample_aux : List Nat :=
  [0, 1, 2, 3, 4, 5, 6, 7, 8, 9, 10, 11, 12, 13, 14, 15, 0, 3, 0, 2, 0, 0, 0, 3, 0, 0, 0, 0, 0, 0,
    0, 4, 0, 0, 0, 3]

/-- The decrypt state after `mp4_decrypt_init` on the sample inputs, with the given
frame bytes as the input buffer. -/
def sample_decrypt (input : List Nat) : DecryptState :=
  { frames_source := sample_source
    reuse_buffers := true
    use_subsamples := true
    key := [1, 2, 3]
    cipher := { key := [1, 2, 3], iv := [], pos := 0, fed := [], process_rc := Status.OK }
    auxiliary_info := sample_aux
    auxiliary_info_pos := 0
    auxiliary_info_end := sample_aux.length
    subsample_count := 0
    clear_bytes := 0
    encrypted_bytes := 0
    input := input
    input_size := input.length
    frame_done := false
    output_allocated := false
    output_end := 0
    output_pos := 0
    allocations := 0 }

/-! ### Declared spans (reference side) -/

/-- The subsample entries still to be read from the auxiliary info: `count` entries from
offset `pos`, as far as they lie before the end. -/
def parse_spans (aux : List Nat) (aux_end : Nat) : Nat → Nat → List (Nat × Nat)
  | 0, _ => []
  | count + 1, pos =>
    if pos + SUBSAMPLE_SIZE > aux_end then []
    else (read_be16 aux pos, read_be32 aux (pos + 2)) :: parse_spans aux aux_end count (pos + 6)

/-- The spans declared for the bytes still to come: what is left of the current
subsample (clear bytes, then encrypted bytes), then the entries still to be read. -/
def spans (st : DecryptState) : List (Nat × Nat) :=
  (st.clear_bytes, st.encrypted_bytes) ::
    parse_spans st.auxiliary_info st.auxiliary_info_end st.subsample_count st.auxiliary_info_pos

/-- Whether position `i` falls in a clear span. -/
def in_clear_span : List (Nat × Nat) → Nat → Bool
  | [], _ => false
  | (c, e) :: rest, i =>
    if i < c then true else if i < c + e then false else in_clear_span rest (i - (c + e))

/-- The bytes of the encrypted spans of `input`, in order. -/
def encrypted_bytes_of : List (Nat × Nat) → List Nat → List Nat
  | [], _ => []
  | (c, e) :: rest, input =>
    (input.drop c).take e ++ encrypted_bytes_of rest ((input.drop c).drop e)

/-! ### Successive reads (reference side) -/

/-- The state that has the decryption fields of `st` (cipher, auxiliary info and its
cursor, subsample counters) and all other fields of `env`. -/
def graft (env st : DecryptState) : DecryptState :=
  { env with
    cipher := st.cipher
    auxiliary_info := st.auxiliary_info
    auxiliary_info_pos := st.auxiliary_info_pos
    auxiliary_info_end := st.auxiliary_info_end
    subsample_count := st.subsample_count
    clear_bytes := st.clear_bytes
    encrypted_bytes := st.encrypted_bytes }

/-- The bytes of the chunks that the source still has to deliver. -/
def pending_bytes : List (List Nat × Bool) → List Nat
  | [] => []
  | (chunk, _) :: rest => chunk ++ pending_bytes rest

/-- The bytes of the frame still to come: the buffered input, then the pending chunks. -/
def upcoming (st : DecryptState) : List Nat :=
  st.input ++ pending_bytes st.frames_source.pending

/-- `k` successive calls of `mp4_decrypt_read` with a successful allocator, stopping at
the first status that is not OK: the last status, the state, the concatenation of the
bytes returned and the sum of the sizes returned. -/
def read_times (ks : Keystream) : Nat → DecryptState → Option (Status × DecryptState × List Nat × Nat)
  | 0, st => some (Status.OK, st, [], 0)
  | k + 1, st =>
    match mp4_decrypt_read ks st true with
    | none => none
    | some r =>
      if r.rc = Status.OK then
        match read_times ks k r.st with
        | some (rc, st2, out, m) => some (rc, st2, r.buffer ++ out, r.size + m)
        | none => none
      else some (r.rc, r.st, r.buffer, r.size)

/-- The state after the first step of `mp4_decrypt_read` (output space) when the
allocator succeeds. -/
def read_space (st : DecryptState) : DecryptState :=
  if st.output_pos + MIN_BUFFER_SIZE ≥ st.output_end then
    if !st.reuse_buffers || !st.output_allocated then
      { st with
        output_allocated := true
        output_end := BUFFER_SIZE
        output_pos := 0
        allocations := st.allocations + 1 }
    else { st with output_pos := 0 }
  else st

/-- The state after the second step of `mp4_decrypt_read` (input) when the underlying
source succeeds. -/
def read_pull (st : DecryptState) : DecryptState :=
  if st.input_size ≤ 0 then
    match st.frames_source.pending with
    | [] => { st with input := [], input_size := 0, frame_done := true }
    | (chunk, done) :: rest =>
      { st with
        frames_source := { st.frames_source with pending := rest }
        input := chunk
        input_size := chunk.length % 2 ^ 32
        frame_done := done }
  else st

/-- The size that `mp4_decrypt_read` transfers from a state that has output space and
input. -/
def read_size (st : DecryptState) : Nat :=
  min ((st.output_end - st.output_pos) % 2 ^ 32) st.input_size

/-- The conditions under which the reads of a frame are followed: cipher and source
succeed, the input size is the number of buffered bytes, and buffer sizes fit 32 bits. -/
def ReadReady (st : DecryptState) : Prop :=
  st.cipher.process_rc = Status.OK ∧ st.frames_source.read_rc = Status.OK ∧
    st.input_size = st.input.length ∧ st.input.length < 2 ^ 32 ∧
    ∀ c ∈ st.frames_source.pending, c.1.length < 2 ^ 32

/-- The output buffer is either not allocated yet or has `BUFFER_SIZE` bytes. -/
def OutputOk (st : DecryptState) : Prop :=
  (st.output_allocated = true → st.output_end = BUFFER_SIZE) ∧ st.output_end ≤ BUFFER_SIZE

/-- The bytes and the chunks of the frame that the reads have not transferred yet. -/
def backlog (st : DecryptState) : Nat :=
  (upcoming st).length + st.frames_source.pending.length

/-- The sample decrypt state after `mp4_decrypt_start_frame`, with twelve bytes of input
buffered. -/
def sample_started : DecryptState :=
  (mp4_decrypt_start_frame (sample_decrypt [1, 2, 3, 4, 5, 6, 7, 8, 9, 10, 11, 12])).2

/-- The sample state at the end of a subsample: the next entry of the auxiliary info, to
be read by the next pass, has no clear and no encrypted bytes. -/
def sample_entry_done : DecryptState :=
  { sample_started with clear_bytes := 0, encrypted_bytes := 0 }

/-! ### The steps of a read and sequences of calls (reference side) -/

/-- What the transform and `start_frame` keep of a state: every field outside the
decryption state and the two buffer cursors, the auxiliary-info buffer and its end; the
auxiliary-info cursor does not move backwards, and stays within the buffer when it was. -/
def Keeps (st st1 : DecryptState) : Prop :=
  st1.frames_source = st.frames_source ∧ st1.reuse_buffers = st.reuse_buffers ∧
  st1.use_subsamples = st.use_subsamples ∧ st1.key = st.key ∧
  st1.auxiliary_info = st.auxiliary_info ∧ st1.auxiliary_info_end = st.auxiliary_info_end ∧
  st1.input_size = st.input_size ∧ st1.frame_done = st.frame_done ∧
  st1.output_allocated = st.output_allocated ∧ st1.output_end = st.output_end ∧
  st1.allocations = st.allocations ∧ st1.cipher.process_rc = st.cipher.process_rc ∧
  st.auxiliary_info_pos ≤ st1.auxiliary_info_pos ∧
  (st.auxiliary_info_pos ≤ st.auxiliary_info_end →
    st1.auxiliary_info_pos ≤ st1.auxiliary_info_end)

/-- The first step of `mp4_decrypt_read`: make sure there is some output space. -/
def read_space_step (st : DecryptState) (alloc_ok : Bool) : Status × DecryptState :=
  if st.output_pos + MIN_BUFFER_SIZE ≥ st.output_end then
    if !st.reuse_buffers || !st.output_allocated then
      if !alloc_ok then (Status.ALLOC_FAILED, { st with output_allocated := false })
      else
        (Status.OK,
          { st with
            output_allocated := true
            output_end := BUFFER_SIZE
            output_pos := 0
            allocations := st.allocations + 1 })
    else (Status.OK, { st with output_pos := 0 })
  else (Status.OK, st)

/-- The second step of `mp4_decrypt_read`: make sure there is some input buffer. -/
def read_pull_step (st1 : DecryptState) : Status × DecryptState :=
  if st1.input_size ≤ 0 then
    match st1.frames_source.read with
    | (Status.OK, src, chunk, done) =>
      (Status.OK,
        { st1 with
          frames_source := src
          input := chunk
          input_size := chunk.length % 2 ^ 32
          frame_done := done })
    | (rc, src, _, _) => (rc, { st1 with frames_source := src })
  else (Status.OK, st1)

/-- The state with another auxiliary-info buffer. -/
def with_aux (st : DecryptState) (aux : List Nat) : DecryptState :=
  { st with auxiliary_info := aux }

/-- A call of the frame-source interface of the decrypt source. -/
inductive DecryptCall where
  | start_frame
  | read (alloc_ok : Bool)
deriving DecidableEq, Repr

/-- One call: the status, the state afterwards and the bytes returned. -/
def decrypt_call (ks : Keystream) (st : DecryptState) :
    DecryptCall → Option (Status × DecryptState × List Nat)
  | DecryptCall.start_frame =>
    some ((mp4_decrypt_start_frame st).1, (mp4_decrypt_start_frame st).2, [])
  | DecryptCall.read alloc_ok =>
    (mp4_decrypt_read ks st alloc_ok).map (fun r => (r.rc, r.st, r.buffer))

/-- A sequence of calls, each made whatever the status of the one before: the state
afterwards and the statuses and bytes returned, in order. -/
def decrypt_calls (ks : Keystream) :
    DecryptState → List DecryptCall → Option (DecryptState × List (Status × List Nat))
  | st, [] => some (st, [])
  | st, c :: cs =>
    match decrypt_call ks st c with
    | none => none
    | some (rc, st1, out) =>
      match decrypt_calls ks st1 cs with
      | none => none
      | some (st2, log) => some (st2, (rc, out) :: log)

/-- What every call keeps of a state: the buffer-reuse switch, the auxiliary-info buffer
and its end; the auxiliary-info cursor does not move backwards, and stays within the
buffer when it was. -/
def CursorKeeps (st st1 : DecryptState) : Prop :=
  st1.reuse_buffers = st.reuse_buffers ∧ st1.auxiliary_info = st.auxiliary_info ∧
  st1.auxiliary_info_end = st.auxiliary_info_end ∧
  st.auxiliary_info_pos ≤ st1.auxiliary_info_pos ∧
  (st.auxiliary_info_pos ≤ st.auxiliary_info_end →
    st1.auxiliary_info_pos ≤ st1.auxiliary_info_end)

/-! ### The AVCC record (reference side) -/

/-- The units of an AVCC record as the specification words it: every unit is a 16-bit
big-endian length followed by that many bytes. -/
def avcc_units : List (List Nat) → List Nat
  | [] => []
  | u :: us => [u.length / 256, u.length % 256] ++ u ++ avcc_units us

/-- An AVCC record: four header bytes, the byte `b` whose low two bits give the
length-field width, the SPS count byte and the SPS units, the PPS count byte and the PPS
units, and any trailing bytes. -/
def avcc_record (header : List Nat) (b sps_count : Nat) (sps : List (List Nat))
    (pps_count : Nat) (pps : List (List Nat)) (trailing : List Nat) : List Nat :=
  header ++ [b, sps_count] ++ avcc_units sps ++ [pps_count] ++ avcc_units pps ++ trailing

/-- The Annex-B rendering of units: each behind the start code `00 00 00 01`. -/
def annexb_units : List (List Nat) → List Nat
  | [] => []
  | u :: us => [0, 0, 0, 1] ++ u ++ annexb_units us

/-- The sum over the units of `4 + length`. -/
def units_size : List (List Nat) → Nat
  | [] => 0
  | u :: us => (4 + u.length) + units_size us

/-! ### Malformed records (reference side) -/

/-- Walking `count` length-prefixed units from offset `pos` of a buffer of `size` bytes,
as the specification words it: the offset behind the last unit, or `none` when the
two-byte length field of some unit, or the bytes it declares, extend past the end. -/
def units_end (data : List Nat) (size : Nat) : Nat → Nat → Option Nat
  | 0, pos => some pos
  | count + 1, pos =>
    if pos + 2 ≤ size ∧
        pos + 2 + (256 * data.getD pos 0 + data.getD (pos + 1) 0) ≤ size then
      units_end data size count (pos + 2 + (256 * data.getD pos 0 + data.getD (pos + 1) 0))
    else none

/-- A record is malformed when it is shorter than 5 bytes, or the SPS or the PPS count
byte lies at or past the end, or a unit does not fit. -/
def avcc_malformed (data : List Nat) (size : Nat) : Bool :=
  if size < 5 then true
  else if size ≤ 5 then true
  else
    match units_end data size (data.getD 5 0 &&& 0x1f) 6 with
    | none => true
    | some p =>
      if size ≤ p then true
      else
        match units_end data size (data.getD p 0 &&& 0x1f) (p + 1) with
        | none => true
        | some _ => false

/-- The number of bytes that a list of spans declares. -/
def spans_total : List (Nat × Nat) → Nat
  | [] => 0
  | (c, e) :: rest => c + e + spans_total rest

/-! ## Lemmas on the write loop -/

theorem read_length_append_rest (b1 b2 : List Nat) :
    ∀ st : AnnexbState, (read_length st b1).2 ≠ [] →
      read_length st (b1 ++ b2) = ((read_length st b1).1, (read_length st b1).2 ++ b2) := by
  induction b1 with
  | nil => intro st h; simp [read_length] at h
  | cons b bs ih =>
    intro st h
    by_cases h0 : st.length_bytes_left = 0
    · simp [read_length, h0]
    · simp only [read_length, h0, if_false, List.cons_append] at h ⊢
      exact ih _ h

theorem read_length_append_done (b1 b2 : List Nat) :
    ∀ st : AnnexbState, (read_length st b1).2 = [] →
      read_length st (b1 ++ b2) = read_length (read_length st b1).1 b2 := by
  induction b1 with
  | nil => intro st _; simp [read_length]
  | cons b bs ih =>
    intro st h
    by_cases h0 : st.length_bytes_left = 0
    · simp [read_length, h0] at h
    · simp only [read_length, h0, if_false, List.cons_append] at h ⊢
      exact ih _ h

theorem case_copy_skip_eq (st : AnnexbState) (nf : NextFilter) (r : List Nat)
    (hw : nf.write_rc = Status.OK) :
    case_copy_skip st nf r =
      Iter.cont (copy_state st (min st.packet_size_left r.length))
        (copy_out st nf (r.take (min st.packet_size_left r.length)))
        (r.drop (min st.packet_size_left r.length)) := by
  by_cases hc : st.cur_state = CurState.STATE_COPY_PACKET
  · by_cases hle : st.packet_size_left ≤ r.length
    · simp [case_copy_skip, copy_state, copy_out, hc, NextFilter.write, hw, hle,
        min_eq_left hle]
    · have hlt : r.length < st.packet_size_left := Nat.lt_of_not_le hle
      have h1 : min st.packet_size_left r.length = r.length := min_eq_right (Nat.le_of_lt hlt)
      have h2 : ¬ st.packet_size_left - r.length = 0 := by omega
      simp [case_copy_skip, copy_state, copy_out, hc, NextFilter.write, hw, hle, h1, h2]
  · by_cases hle : st.packet_size_left ≤ r.length
    · simp [case_copy_skip, copy_state, copy_out, hc, hle, min_eq_left hle]
    · have hlt : r.length < st.packet_size_left := Nat.lt_of_not_le hle
      have h1 : min st.packet_size_left r.length = r.length := min_eq_right (Nat.le_of_lt hlt)
      have h2 : ¬ st.packet_size_left - r.length = 0 := by omega
      simp [case_copy_skip, copy_state, copy_out, hc, hle, h1, h2]

theorem nal_type_switch_eq (st : AnnexbState) (nf : NextFilter) (ut : Nat)
    (hw : nf.write_rc = Status.OK) :
    nal_type_switch st nf ut =
      (Status.OK,
        { st with
          first_idr := next_first_idr st ut
          frame_size_left :=
            st.frame_size_left - (if injects st ut then (st.sps_pps_size : Int) else 0) },
        { nf with written := nf.written ++ (if injects st ut then st.blob else []) }) := by
  by_cases h1 : ut = NAL_SLICE
  · subst h1
    simp [nal_type_switch, injects, next_first_idr]
  · by_cases h2 : ut = NAL_IDR_SLICE ∨ ut = NAL_SPS ∨ ut = NAL_PPS
    · by_cases hk : st.key_frame = true ∧ st.first_idr = true
      · have hi : injects st ut = true := by
          simp [injects, h1, hk.1, hk.2]; simpa [or_assoc] using h2
        simp [nal_type_switch, next_first_idr, h1, h2, hk, hi, NextFilter.write, hw]
      · have hi : injects st ut = false := by
          simp only [injects, Bool.and_eq_false_iff, Bool.and_eq_true] at *
          by_cases hkf : st.key_frame = true
          · right; simpa using fun h => hk ⟨hkf, h⟩
          · left; right; simpa using hkf
        have hk2 : ¬ (st.key_frame && st.first_idr) = true := by simpa using hk
        simp [nal_type_switch, next_first_idr, h1, h2, hk2, hi]
    · have hi : injects st ut = false := by
        simp only [injects, Bool.and_eq_false_iff]
        left; left; right
        simpa [and_assoc] using h2
      simp [nal_type_switch, next_first_idr, h1, h2, hi]

theorem write_marker_eq (st : AnnexbState) (nf : NextFilter) (hw : nf.write_rc = Status.OK) :
    write_marker st nf =
      (Status.OK,
        { st with
          first_frame_packet := false
          frame_size_left := st.frame_size_left - (if st.first_frame_packet then 4 else 3) },
        { nf with
          written := nf.written ++ (if st.first_frame_packet then nal_marker else nal_marker.drop 1) }) := by
  by_cases hf : st.first_frame_packet = true
  · simp [write_marker, hf, NextFilter.write, hw, nal_marker]
  · simp [write_marker, hf, NextFilter.write, hw, nal_marker]

theorem case_nal_type_aud (st : AnnexbState) (nf : NextFilter) (r : List Nat)
    (h : r.headD 0 &&& 0x1f = NAL_AUD) :
    case_nal_type st nf r = Iter.cont { st with cur_state := CurState.STATE_SKIP_PACKET } nf r := by
  unfold case_nal_type
  simp only [h, if_true]

theorem case_nal_type_kept (st : AnnexbState) (nf : NextFilter) (r : List Nat)
    (hw : nf.write_rc = Status.OK) (h : r.headD 0 &&& 0x1f ≠ NAL_AUD) :
    case_nal_type st nf r =
      case_copy_skip (nal_state st (r.headD 0 &&& 0x1f))
        { nf with written := nf.written ++ unit_lead st (r.headD 0 &&& 0x1f) } r := by
  unfold case_nal_type
  simp only [h, if_false]
  rw [nal_type_switch_eq st nf _ hw]
  simp only []
  rw [write_marker_eq]
  · simp only [nal_state, unit_lead, List.append_assoc]
  · exact hw

theorem copy_out_write_rc (st : AnnexbState) (nf : NextFilter) (bs : List Nat) :
    (copy_out st nf bs).write_rc = nf.write_rc := by
  unfold copy_out; split <;> rfl

theorem copy_state_cur_state_of_lt (st : AnnexbState) (n : Nat) (h : n < st.packet_size_left) :
    (copy_state st n).cur_state = st.cur_state := by
  have : ¬ st.packet_size_left ≤ n := by omega
  simp [copy_state, this]

theorem case_copy_skip_append_le (st : AnnexbState) (nf : NextFilter) (r b2 : List Nat)
    (hw : nf.write_rc = Status.OK) (hle : st.packet_size_left ≤ r.length) :
    case_copy_skip st nf (r ++ b2) =
      Iter.cont (copy_state st (min st.packet_size_left r.length))
        (copy_out st nf (r.take (min st.packet_size_left r.length)))
        (r.drop (min st.packet_size_left r.length) ++ b2) := by
  rw [case_copy_skip_eq st nf _ hw]
  have h1 : min st.packet_size_left r.length = st.packet_size_left := min_eq_left hle
  have h2 : min st.packet_size_left (r ++ b2).length = st.packet_size_left := by
    apply min_eq_left; simp; omega
  rw [h1, h2, List.take_append_of_le_length hle, List.drop_append_of_le_length hle]

theorem case_copy_skip_append_gt (st : AnnexbState) (nf : NextFilter) (r b2 : List Nat)
    (hw : nf.write_rc = Status.OK) (hlt : r.length < st.packet_size_left) :
    case_copy_skip st nf (r ++ b2) =
      case_copy_skip (copy_state st (min st.packet_size_left r.length))
        (copy_out st nf (r.take (min st.packet_size_left r.length))) b2 := by
  have h1 : min st.packet_size_left r.length = r.length := min_eq_right (Nat.le_of_lt hlt)
  rw [case_copy_skip_eq st nf _ hw, case_copy_skip_eq _ _ b2 (by rw [copy_out_write_rc]; exact hw)]
  rw [h1, List.take_length]
  have hn : ¬ st.packet_size_left ≤ r.length := by omega
  have hps : (copy_state st r.length).packet_size_left = st.packet_size_left - r.length := by
    simp [copy_state, hn]
  rw [hps]
  by_cases hle2 : st.packet_size_left ≤ r.length + b2.length
  · have e1 : min st.packet_size_left (r ++ b2).length = st.packet_size_left := by
      apply min_eq_left; simp; omega
    have e2 : min (st.packet_size_left - r.length) b2.length = st.packet_size_left - r.length := by
      apply min_eq_left; omega
    rw [e1, e2]
    have e3 : st.packet_size_left = r.length + (st.packet_size_left - r.length) := by omega
    congr 1
    · by_cases hc : st.cur_state = CurState.STATE_COPY_PACKET
      · simp [copy_state, hc, hn]; omega
      · simp [copy_state, hc, hn]
    · by_cases hc : st.cur_state = CurState.STATE_COPY_PACKET
      · simp only [copy_out, hc, if_true, copy_state_cur_state_of_lt st _ hlt]
        conv_lhs => rw [e3]
        simp [List.take_append]
      · simp [copy_out, hc, copy_state_cur_state_of_lt st _ hlt]
    · conv_lhs => rw [e3]
      simp [List.drop_append]
  · have hlt2 : r.length + b2.length < st.packet_size_left := by omega
    have e1 : min st.packet_size_left (r ++ b2).length = r.length + b2.length := by
      simp; omega
    have e2 : min (st.packet_size_left - r.length) b2.length = b2.length := by
      apply min_eq_right; omega
    rw [e1, e2]
    congr 1
    · by_cases hc : st.cur_state = CurState.STATE_COPY_PACKET
      · have h3 : ¬ st.packet_size_left - r.length ≤ b2.length := by omega
        simp [copy_state, hc, hn, hle2, h3]; constructor <;> omega
      · have h3 : ¬ st.packet_size_left - r.length ≤ b2.length := by omega
        simp [copy_state, hc, hn, hle2, h3]; omega
    · by_cases hc : st.cur_state = CurState.STATE_COPY_PACKET
      · simp [copy_out, hc, copy_state_cur_state_of_lt st _ hlt]
      · simp [copy_out, hc, copy_state_cur_state_of_lt st _ hlt]
    · simp

theorem read_length_cur_state (b : List Nat) :
    ∀ st : AnnexbState, (read_length st b).1.cur_state = st.cur_state := by
  induction b with
  | nil => intro st; rfl
  | cons x xs ih =>
    intro st
    by_cases h0 : st.length_bytes_left = 0
    · simp [read_length, h0]
    · simp only [read_length, h0, if_false]
      rw [ih]

theorem read_length_width (b : List Nat) :
    ∀ st : AnnexbState,
      (read_length st b).1.nal_packet_size_length = st.nal_packet_size_length := by
  induction b with
  | nil => intro st; rfl
  | cons x xs ih =>
    intro st
    by_cases h0 : st.length_bytes_left = 0
    · simp [read_length, h0]
    · simp only [read_length, h0, if_false]
      rw [ih]

theorem write_iter_copy (st : AnnexbState) (nf : NextFilter) (b : List Nat)
    (h : st.cur_state = CurState.STATE_COPY_PACKET ∨ st.cur_state = CurState.STATE_SKIP_PACKET) :
    write_iter st nf b = case_copy_skip st nf b := by
  rcases h with h | h <;> simp [write_iter, h]

theorem case_copy_skip_append (st : AnnexbState) (nf : NextFilter) (r b2 : List Nat)
    (hw : nf.write_rc = Status.OK)
    (hc : st.cur_state = CurState.STATE_COPY_PACKET ∨ st.cur_state = CurState.STATE_SKIP_PACKET) :
    AppendStep (case_copy_skip st nf r) (case_copy_skip st nf (r ++ b2)) b2 := by
  refine ⟨_, _, _, case_copy_skip_eq st nf r hw, by rw [copy_out_write_rc]; exact hw, ?_⟩
  by_cases hle : st.packet_size_left ≤ r.length
  · left
    exact case_copy_skip_append_le st nf r b2 hw hle
  · right
    have hlt : r.length < st.packet_size_left := Nat.lt_of_not_le hle
    have h1 : min st.packet_size_left r.length = r.length := min_eq_right (Nat.le_of_lt hlt)
    refine ⟨by rw [h1]; simp, ?_⟩
    rw [case_copy_skip_append_gt st nf r b2 hw hlt, write_iter_copy]
    rw [h1, copy_state_cur_state_of_lt st _ hlt]
    exact hc

theorem case_nal_type_append (st : AnnexbState) (nf : NextFilter) (r b2 : List Nat)
    (hw : nf.write_rc = Status.OK) (hne : r ≠ [])
    (hc : st.cur_state = CurState.STATE_NAL_TYPE) :
    AppendStep (case_nal_type st nf r) (case_nal_type st nf (r ++ b2)) b2 := by
  have hh : (r ++ b2).headD 0 = r.headD 0 := by
    cases r with
    | nil => exact absurd rfl hne
    | cons x xs => rfl
  by_cases ha : r.headD 0 &&& 0x1f = NAL_AUD
  · rw [case_nal_type_aud st nf r ha, case_nal_type_aud st nf (r ++ b2) (by rw [hh]; exact ha)]
    exact ⟨_, _, _, rfl, hw, Or.inl rfl⟩
  · rw [case_nal_type_kept st nf r hw ha,
      case_nal_type_kept st nf (r ++ b2) hw (by rw [hh]; exact ha), hh]
    apply case_copy_skip_append
    · exact hw
    · left; simp [nal_state, hc, CurState.incr]

theorem write_iter_append (st : AnnexbState) (nf : NextFilter) (b1 b2 : List Nat)
    (hw : nf.write_rc = Status.OK) (hne : b1 ≠ []) :
    AppendStep (write_iter st nf b1) (write_iter st nf (b1 ++ b2)) b2 := by
  cases hs : st.cur_state with
  | STATE_PACKET_SIZE =>
    by_cases hr : (read_length st b1).2 = []
    · refine ⟨(read_length st b1).1, nf, [], ?_, hw, Or.inr ⟨rfl, ?_⟩⟩
      · simp [write_iter, hs, hr]
      · have hcs : (read_length st b1).1.cur_state = CurState.STATE_PACKET_SIZE := by
          rw [read_length_cur_state, hs]
        simp only [write_iter, hs, hcs, read_length_append_done b1 b2 st hr]
    · have e1 : write_iter st nf b1 =
          case_nal_type { (read_length st b1).1 with
            cur_state := (read_length st b1).1.cur_state.incr } nf (read_length st b1).2 := by
        simp [write_iter, hs, hr]
      have e2 : write_iter st nf (b1 ++ b2) =
          case_nal_type { (read_length st b1).1 with
            cur_state := (read_length st b1).1.cur_state.incr } nf
            ((read_length st b1).2 ++ b2) := by
        simp [write_iter, hs, read_length_append_rest b1 b2 st hr, hr]
      rw [e1, e2]
      apply case_nal_type_append _ _ _ _ hw hr
      simp [read_length_cur_state, hs, CurState.incr]
  | STATE_NAL_TYPE =>
    have e1 : ∀ b, write_iter st nf b = case_nal_type st nf b := by
      intro b; simp [write_iter, hs]
    rw [e1, e1]
    exact case_nal_type_append st nf b1 b2 hw hne hs
  | STATE_COPY_PACKET =>
    rw [write_iter_copy st nf _ (Or.inl hs), write_iter_copy st nf _ (Or.inl hs)]
    exact case_copy_skip_append st nf b1 b2 hw (Or.inl hs)
  | STATE_SKIP_PACKET =>
    rw [write_iter_copy st nf _ (Or.inr hs), write_iter_copy st nf _ (Or.inr hs)]
    exact case_copy_skip_append st nf b1 b2 hw (Or.inr hs)

theorem rank_le (st : AnnexbState) : rank st ≤ 2 := by
  unfold rank
  split <;> (try split) <;> omega

theorem read_length_length_le (b : List Nat) :
    ∀ st : AnnexbState, (read_length st b).2.length ≤ b.length := by
  induction b with
  | nil => intro st; simp [read_length]
  | cons x xs ih =>
    intro st
    by_cases h0 : st.length_bytes_left = 0
    · simp [read_length, h0]
    · simp only [read_length, h0, if_false, List.length_cons]
      exact Nat.le_succ_of_le (ih _)

theorem read_length_length_lt (b : List Nat) (st : AnnexbState) (hne : b ≠ [])
    (h0 : st.length_bytes_left ≠ 0) : (read_length st b).2.length < b.length := by
  cases b with
  | nil => exact absurd rfl hne
  | cons x xs =>
    simp only [read_length, h0, if_false, List.length_cons]
    exact Nat.lt_succ_of_le (read_length_length_le xs _)

theorem read_length_zero (b : List Nat) (st : AnnexbState) (h0 : st.length_bytes_left = 0) :
    read_length st b = (st, b) := by
  cases b with
  | nil => rfl
  | cons x xs => simp [read_length, h0]

theorem case_copy_skip_progress (st : AnnexbState) (nf : NextFilter) (b : List Nat)
    (hw : nf.write_rc = Status.OK) (hne : b ≠ []) (hwd : 1 ≤ st.nal_packet_size_length) :
    ∃ st1 nf1 r1, case_copy_skip st nf b = Iter.cont st1 nf1 r1 ∧ nf1.write_rc = Status.OK ∧
      st1.nal_packet_size_length = st.nal_packet_size_length ∧
      3 * r1.length + rank st1 < 3 * b.length + (if st.packet_size_left = 0 then 1 else 0) := by
  refine ⟨_, _, _, case_copy_skip_eq st nf b hw, by rw [copy_out_write_rc]; exact hw, ?_, ?_⟩
  · unfold copy_state; simp only []; split <;> rfl
  · have hb : 0 < b.length := List.length_pos.mpr hne
    by_cases hle : st.packet_size_left ≤ b.length
    · have h1 : min st.packet_size_left b.length = st.packet_size_left := min_eq_left hle
      have hr : rank (copy_state st st.packet_size_left) = 0 := by
        have : st.nal_packet_size_length ≠ 0 := by omega
        simp [copy_state, rank, this]
      rw [h1, hr, List.length_drop]
      split <;> omega
    · have h1 : min st.packet_size_left b.length = b.length := by
        apply min_eq_right; omega
      rw [h1, List.length_drop]
      have := rank_le (copy_state st b.length)
      split <;> omega

theorem case_nal_type_progress (st : AnnexbState) (nf : NextFilter) (b : List Nat)
    (hw : nf.write_rc = Status.OK) (hne : b ≠ []) (hwd : 1 ≤ st.nal_packet_size_length) :
    ∃ st1 nf1 r1, case_nal_type st nf b = Iter.cont st1 nf1 r1 ∧ nf1.write_rc = Status.OK ∧
      st1.nal_packet_size_length = st.nal_packet_size_length ∧
      3 * r1.length + rank st1 < 3 * b.length + 2 := by
  by_cases ha : b.headD 0 &&& 0x1f = NAL_AUD
  · rw [case_nal_type_aud st nf b ha]
    refine ⟨_, _, _, rfl, hw, rfl, ?_⟩
    simp only [rank]
    split <;> omega
  · rw [case_nal_type_kept st nf b hw ha]
    obtain ⟨st1, nf1, r1, h1, h2, h3, h4⟩ :=
      case_copy_skip_progress (nal_state st (b.headD 0 &&& 0x1f))
        { nf with written := nf.written ++ unit_lead st (b.headD 0 &&& 0x1f) } b hw hne hwd
    refine ⟨st1, nf1, r1, h1, h2, h3, ?_⟩
    split at h4 <;> omega

theorem write_iter_progress (st : AnnexbState) (nf : NextFilter) (b : List Nat)
    (hw : nf.write_rc = Status.OK) (hne : b ≠ []) (hwd : 1 ≤ st.nal_packet_size_length) :
    ∃ st1 nf1 r1, write_iter st nf b = Iter.cont st1 nf1 r1 ∧ nf1.write_rc = Status.OK ∧
      st1.nal_packet_size_length = st.nal_packet_size_length ∧
      3 * r1.length + rank st1 < 3 * b.length + rank st := by
  have hb : 0 < b.length := List.length_pos.mpr hne
  cases hs : st.cur_state with
  | STATE_PACKET_SIZE =>
    by_cases hr : (read_length st b).2 = []
    · refine ⟨(read_length st b).1, nf, [], ?_, hw, read_length_width b st, ?_⟩
      · simp [write_iter, hs, hr]
      · have := rank_le (read_length st b).1
        simp only [List.length_nil]; omega
    · have e1 : write_iter st nf b =
          case_nal_type { (read_length st b).1 with
            cur_state := (read_length st b).1.cur_state.incr } nf (read_length st b).2 := by
        simp [write_iter, hs, hr]
      obtain ⟨st1, nf1, r1, h1, h2, h3, h4⟩ :=
        case_nal_type_progress { (read_length st b).1 with
            cur_state := (read_length st b).1.cur_state.incr } nf (read_length st b).2 hw hr
          (by simpa [read_length_width] using hwd)
      refine ⟨st1, nf1, r1, by rw [e1, h1], h2, by rw [h3]; exact read_length_width b st, ?_⟩
      by_cases h0 : st.length_bytes_left = 0
      · rw [read_length_zero b st h0] at h4
        simp only [rank, hs, h0, if_true]
        simpa using h4
      · have := read_length_length_lt b st hne h0
        omega
  | STATE_NAL_TYPE =>
    have e1 : write_iter st nf b = case_nal_type st nf b := by simp [write_iter, hs]
    obtain ⟨st1, nf1, r1, h1, h2, h3, h4⟩ := case_nal_type_progress st nf b hw hne hwd
    refine ⟨st1, nf1, r1, by rw [e1, h1], h2, h3, ?_⟩
    simpa [rank, hs] using h4
  | STATE_COPY_PACKET =>
    obtain ⟨st1, nf1, r1, h1, h2, h3, h4⟩ := case_copy_skip_progress st nf b hw hne hwd
    refine ⟨st1, nf1, r1, by rw [write_iter_copy st nf b (Or.inl hs), h1], h2, h3, ?_⟩
    simpa [rank, hs] using h4
  | STATE_SKIP_PACKET =>
    obtain ⟨st1, nf1, r1, h1, h2, h3, h4⟩ := case_copy_skip_progress st nf b hw hne hwd
    refine ⟨st1, nf1, r1, by rw [write_iter_copy st nf b (Or.inr hs), h1], h2, h3, ?_⟩
    simpa [rank, hs] using h4

theorem write_loop_nil (f : Nat) (st : AnnexbState) (nf : NextFilter) :
    write_loop f st nf [] = some (Status.OK, st, nf) := by
  cases f <;> rfl

theorem write_loop_succ (f : Nat) (st : AnnexbState) (nf : NextFilter) (b : List Nat)
    (hne : b ≠ []) :
    write_loop (f + 1) st nf b =
      match write_iter st nf b with
      | Iter.ret rc st1 nf1 => some (rc, st1, nf1)
      | Iter.cont st1 nf1 rest => write_loop f st1 nf1 rest := by
  cases b with
  | nil => exact absurd rfl hne
  | cons x xs => rfl

theorem write_loop_mono (f : Nat) :
    ∀ (st : AnnexbState) (nf : NextFilter) (b : List Nat) (r : Status × AnnexbState × NextFilter)
      (f2 : Nat), write_loop f st nf b = some r → f ≤ f2 → write_loop f2 st nf b = some r := by
  induction f with
  | zero =>
    intro st nf b r f2 h _
    cases b with
    | nil => rw [write_loop_nil] at h ⊢; exact h
    | cons x xs => simp [write_loop] at h
  | succ f ih =>
    intro st nf b r f2 h hle
    cases b with
    | nil => rw [write_loop_nil] at h ⊢; exact h
    | cons x xs =>
      obtain ⟨g, rfl⟩ : ∃ g, f2 = g + 1 := ⟨f2 - 1, by omega⟩
      rw [write_loop_succ _ _ _ _ (List.cons_ne_nil x xs)] at h ⊢
      cases hi : write_iter st nf (x :: xs) with
      | ret rc st1 nf1 => rw [hi] at h; exact h
      | cont st1 nf1 rest =>
        rw [hi] at h
        exact ih st1 nf1 rest r g h (by omega)

/-- With an accepting next filter and a length-field width of at least one, the loop ends
within `3 * buffer.length + rank st` passes, with status OK. -/
theorem write_loop_total (f : Nat) :
    ∀ (st : AnnexbState) (nf : NextFilter) (b : List Nat),
      nf.write_rc = Status.OK → 1 ≤ st.nal_packet_size_length →
      3 * b.length + rank st ≤ f →
      ∃ st1 nf1, write_loop f st nf b = some (Status.OK, st1, nf1) ∧
        nf1.write_rc = Status.OK ∧ st1.nal_packet_size_length = st.nal_packet_size_length := by
  induction f with
  | zero =>
    intro st nf b hw _ hf
    cases b with
    | nil => exact ⟨st, nf, write_loop_nil _ _ _, hw, rfl⟩
    | cons x xs => simp at hf
  | succ f ih =>
    intro st nf b hw hwd hf
    cases b with
    | nil => exact ⟨st, nf, write_loop_nil _ _ _, hw, rfl⟩
    | cons x xs =>
      obtain ⟨st1, nf1, r1, h1, h2, h3, h4⟩ :=
        write_iter_progress st nf (x :: xs) hw (List.cons_ne_nil x xs) hwd
      obtain ⟨st2, nf2, e1, e2, e3⟩ := ih st1 nf1 r1 h2 (by omega) (by omega)
      refine ⟨st2, nf2, ?_, e2, by rw [e3, h3]⟩
      rw [write_loop_succ _ _ _ _ (List.cons_ne_nil x xs), h1]
      exact e1

theorem write_loop_append (f : Nat) :
    ∀ (st : AnnexbState) (nf : NextFilter) (b1 b2 : List Nat) (st1 : AnnexbState)
      (nf1 : NextFilter) (r : Status × AnnexbState × NextFilter) (f2 : Nat),
      nf.write_rc = Status.OK →
      write_loop f st nf b1 = some (Status.OK, st1, nf1) →
      write_loop f2 st1 nf1 b2 = some r →
      ∃ f3, write_loop f3 st nf (b1 ++ b2) = some r := by
  induction f with
  | zero =>
    intro st nf b1 b2 st1 nf1 r f2 _ h1 h2
    cases b1 with
    | nil =>
      rw [write_loop_nil] at h1
      simp only [Option.some.injEq, Prod.mk.injEq, true_and] at h1
      obtain ⟨rfl, rfl⟩ := h1
      exact ⟨f2, h2⟩
    | cons x xs => simp [write_loop] at h1
  | succ f ih =>
    intro st nf b1 b2 st1 nf1 r f2 hw h1 h2
    cases b1 with
    | nil =>
      rw [write_loop_nil] at h1
      simp only [Option.some.injEq, Prod.mk.injEq, true_and] at h1
      obtain ⟨rfl, rfl⟩ := h1
      exact ⟨f2, h2⟩
    | cons x xs =>
      cases b2 with
      | nil =>
        rw [write_loop_nil] at h2
        rw [List.append_nil]
        exact ⟨f + 1, by rw [h1, ← h2]⟩
      | cons y ys =>
        rw [write_loop_succ _ _ _ _ (List.cons_ne_nil x xs)] at h1
        obtain ⟨s, n, r1, e1, e2, e3⟩ :=
          write_iter_append st nf (x :: xs) (y :: ys) hw (List.cons_ne_nil x xs)
        rw [e1] at h1
        simp only [] at h1
        rcases e3 with e3 | ⟨rfl, e3⟩
        · obtain ⟨f3, h3⟩ := ih s n r1 (y :: ys) st1 nf1 r f2 e2 h1 h2
          refine ⟨f3 + 1, ?_⟩
          rw [write_loop_succ _ _ _ _ (by simp), e3]
          exact h3
        · rw [write_loop_nil] at h1
          simp only [Option.some.injEq, Prod.mk.injEq, true_and] at h1
          obtain ⟨rfl, rfl⟩ := h1
          cases f2 with
          | zero => simp [write_loop] at h2
          | succ g =>
            refine ⟨g + 1, ?_⟩
            rw [write_loop_succ _ _ _ _ (List.cons_ne_nil y ys)] at h2
            rw [write_loop_succ _ _ _ _ (by simp), e3]
            exact h2

/-- The write function returns OK for every buffer when the next filter accepts
every write and the length-field width is at least one. -/
theorem write_ok (st : AnnexbState) (nf : NextFilter) (b : List Nat)
    (hw : nf.write_rc = Status.OK) (hwd : 1 ≤ st.nal_packet_size_length) :
    ∃ st1 nf1, mp4_to_annexb_write st nf b = some (Status.OK, st1, nf1) ∧
      nf1.write_rc = Status.OK ∧ st1.nal_packet_size_length = st.nal_packet_size_length := by
  have := rank_le st
  exact write_loop_total _ st nf b hw hwd (by omega)

/-- A run of the loop with any bound that ends gives the result of the write function. -/
theorem write_of_loop (st : AnnexbState) (nf : NextFilter) (b : List Nat)
    (hw : nf.write_rc = Status.OK) (hwd : 1 ≤ st.nal_packet_size_length) (f : Nat)
    (r : Status × AnnexbState × NextFilter) (h : write_loop f st nf b = some r) :
    mp4_to_annexb_write st nf b = some r := by
  obtain ⟨st1, nf1, h1, _, _⟩ := write_ok st nf b hw hwd
  unfold mp4_to_annexb_write at h1 ⊢
  rcases Nat.le_total f (3 * b.length + 3) with hle | hle
  · exact write_loop_mono f st nf b r _ h hle
  · have := write_loop_mono _ st nf b _ f h1 hle
    rw [this] at h
    rw [h1, h]

/-- Writing `b1` and then `b2` is writing `b1 ++ b2`. -/
theorem write_append (st : AnnexbState) (nf : NextFilter) (b1 b2 : List Nat)
    (hw : nf.write_rc = Status.OK) (hwd : 1 ≤ st.nal_packet_size_length) :
    ∃ st1 nf1 st2 nf2, mp4_to_annexb_write st nf b1 = some (Status.OK, st1, nf1) ∧
      mp4_to_annexb_write st1 nf1 b2 = some (Status.OK, st2, nf2) ∧
      mp4_to_annexb_write st nf (b1 ++ b2) = some (Status.OK, st2, nf2) ∧
      nf1.write_rc = Status.OK ∧ nf2.write_rc = Status.OK ∧
      st1.nal_packet_size_length = st.nal_packet_size_length ∧
      st2.nal_packet_size_length = st.nal_packet_size_length := by
  obtain ⟨st1, nf1, h1, hw1, hwd1⟩ := write_ok st nf b1 hw hwd
  obtain ⟨st2, nf2, h2, hw2, hwd2⟩ := write_ok st1 nf1 b2 hw1 (by omega)
  obtain ⟨f3, h3⟩ := write_loop_append _ st nf b1 b2 st1 nf1 _ _ hw h1 h2
  exact ⟨st1, nf1, st2, nf2, h1, h2, write_of_loop st nf _ hw hwd f3 _ h3, hw1, hw2, hwd1,
    by rw [hwd2, hwd1]⟩

/-! ## Whole units -/

theorem length_fold_eq (lf : List Nat) :
    ∀ (a k : Nat), a < 256 ^ k → k + lf.length ≤ 4 → (∀ b ∈ lf, b < 256) →
      lf.foldl (fun a b => ((a <<< 8) ||| b) % 2 ^ 32) a = lf.foldl (fun a b => a * 256 + b) a ∧
        lf.foldl (fun a b => a * 256 + b) a < 256 ^ (k + lf.length) := by
  induction lf with
  | nil => intro a k ha _ _; simpa using ha
  | cons x xs ih =>
    intro a k ha hk hb
    have hx : x < 256 := hb x (List.mem_cons_self _ _)
    have hlt : a * 256 + x < 256 ^ (k + 1) := by
      rw [pow_succ]; nlinarith
    have h32 : a * 256 + x < 2 ^ 32 := by
      have : (256 : Nat) ^ (k + 1) ≤ 256 ^ 4 :=
        Nat.pow_le_pow_right (by norm_num) (by simp at hk; omega)
      omega
    have hor : ((a <<< 8) ||| x) % 2 ^ 32 = a * 256 + x := by
      have h1 : a <<< 8 ||| x = a * 256 + x := by
        rw [Nat.shiftLeft_eq]
        have := Nat.mul_add_lt_is_or (i := 8) (show x < 2 ^ 8 by omega) a
        rw [mul_comm] at this
        exact this.symm
      rw [h1, Nat.mod_eq_of_lt h32]
    have := ih (a * 256 + x) (k + 1) hlt (by simp at hk ⊢; omega)
      (fun b hb2 => hb b (List.mem_cons_of_mem _ hb2))
    simp only [List.foldl_cons, hor, List.length_cons]
    refine ⟨this.1, ?_⟩
    have e : k + (xs.length + 1) = k + 1 + xs.length := by omega
    rw [e]; exact this.2

theorem read_length_field (lf rest : List Nat) :
    ∀ st : AnnexbState, st.length_bytes_left = lf.length →
      read_length st (lf ++ rest) =
        ({ st with
            packet_size_left :=
              lf.foldl (fun a b => ((a <<< 8) ||| b) % 2 ^ 32) st.packet_size_left
            length_bytes_left := 0 }, rest) := by
  induction lf with
  | nil =>
    intro st h
    rw [List.nil_append, read_length_zero rest st (by simpa using h)]
    simp only [List.foldl_nil, Prod.mk.injEq, and_true]
    cases st; simp_all
  | cons x xs ih =>
    intro st h
    have h0 : st.length_bytes_left ≠ 0 := by simp at h; omega
    simp only [List.cons_append, read_length, h0, if_false]
    refine (ih _ ?_).trans ?_
    · simp only [List.length_cons] at h; simp only []; omega
    · simp

theorem read_length_unit (st : AnnexbState) (u : NalUnit) (hb : st.boundary)
    (hwf : u.wf st.nal_packet_size_length) (hwd : st.nal_packet_size_length ≤ 4) :
    read_length st u.bytes =
      ({ st with packet_size_left := u.payload.length, length_bytes_left := 0 }, u.payload) := by
  obtain ⟨h1, h2, h3, _⟩ := hwf
  obtain ⟨_, b2, b3⟩ := hb
  have hf := (length_fold_eq u.len_field 0 0 (by norm_num) (by omega) h2).1
  unfold NalUnit.bytes
  rw [read_length_field u.len_field u.payload st (by rw [b2, h1]), b3, hf]
  unfold be_value at h3
  rw [h3]

theorem write_iter_unit_aud (st : AnnexbState) (nf : NextFilter) (u : NalUnit) (hb : st.boundary)
    (hwf : u.wf st.nal_packet_size_length) (hwd : st.nal_packet_size_length ≤ 4)
    (ha : u.type = NAL_AUD) :
    write_iter st nf u.bytes =
      Iter.cont { st with
        packet_size_left := u.payload.length
        length_bytes_left := 0
        cur_state := CurState.STATE_SKIP_PACKET } nf u.payload := by
  have hne : u.payload ≠ [] := hwf.2.2.2
  have hcs : st.cur_state = CurState.STATE_PACKET_SIZE := hb.1
  simp only [write_iter, hcs, read_length_unit st u hb hwf hwd, hne, if_false]
  rw [case_nal_type_aud _ _ _ ha]

theorem write_iter_skip_all (st : AnnexbState) (nf : NextFilter) (p : List Nat)
    (hb : st.boundary) :
    write_iter { st with
        packet_size_left := p.length
        length_bytes_left := 0
        cur_state := CurState.STATE_SKIP_PACKET } nf p = Iter.cont st nf [] := by
  obtain ⟨b1, b2, b3⟩ := hb
  simp only [write_iter, case_copy_skip, min_self, List.drop_length, Nat.sub_self, le_refl,
    if_true, if_false, reduceCtorEq]
  congr 1
  cases st
  simp_all

theorem write_iter_unit_kept (st : AnnexbState) (nf : NextFilter) (u : NalUnit) (hb : st.boundary)
    (hw : nf.write_rc = Status.OK)
    (hwf : u.wf st.nal_packet_size_length) (hwd : st.nal_packet_size_length ≤ 4)
    (ha : u.type ≠ NAL_AUD) :
    write_iter st nf u.bytes =
      Iter.cont (unit_state st u) { nf with written := nf.written ++ unit_out st u } [] := by
  have hne : u.payload ≠ [] := hwf.2.2.2
  have hcs : st.cur_state = CurState.STATE_PACKET_SIZE := hb.1
  simp only [write_iter, hcs, read_length_unit st u hb hwf hwd, hne, if_false]
  rw [case_nal_type_kept _ _ _ hw ha, case_copy_skip_eq]
  · obtain ⟨b1, b2, b3⟩ := hb
    have e1 : unit_state st u = _ := if_neg ha
    have e2 : unit_out st u = _ := if_neg ha
    rw [e1, e2]
    simp only [nal_state, copy_state, copy_out, min_self, le_refl, if_true, CurState.incr,
      reduceCtorEq, if_false, List.take_length, List.drop_length, List.append_assoc, b1, b2, b3]
    rfl
  · exact hw

/-- Writing one whole well-formed unit in a boundary state. -/
theorem write_unit (st : AnnexbState) (nf : NextFilter) (u : NalUnit) (hb : st.boundary)
    (hw : nf.write_rc = Status.OK)
    (hwf : u.wf st.nal_packet_size_length) (hwd : 1 ≤ st.nal_packet_size_length)
    (hwd4 : st.nal_packet_size_length ≤ 4) :
    mp4_to_annexb_write st nf u.bytes =
      some (Status.OK, unit_state st u, { nf with written := nf.written ++ unit_out st u }) := by
  have hne : u.bytes ≠ [] := by
    unfold NalUnit.bytes
    simp [hwf.2.2.2]
  apply write_of_loop st nf _ hw hwd 2
  rw [write_loop_succ _ _ _ _ hne]
  by_cases ha : u.type = NAL_AUD
  · rw [write_iter_unit_aud st nf u hb hwf hwd4 ha]
    simp only []
    rw [write_loop_succ _ _ _ _ hwf.2.2.2, write_iter_skip_all st nf u.payload hb]
    simp only [write_loop_nil, unit_state, unit_out, ha, if_true, List.append_nil]
  · rw [write_iter_unit_kept st nf u hb hw hwf hwd4 ha]
    simp only [write_loop_nil]

theorem unit_state_boundary (st : AnnexbState) (u : NalUnit) (hb : st.boundary) :
    (unit_state st u).boundary := by
  unfold unit_state
  split
  · exact hb
  · exact hb

theorem unit_state_width (st : AnnexbState) (u : NalUnit) :
    (unit_state st u).nal_packet_size_length = st.nal_packet_size_length := by
  unfold unit_state
  split <;> rfl

theorem frame_bytes_append (us vs : List NalUnit) :
    frame_bytes (us ++ vs) = frame_bytes us ++ frame_bytes vs := by
  induction us with
  | nil => rfl
  | cons u us ih => simp [frame_bytes, ih]

/-- Writing a whole frame of well-formed units in a boundary state. -/
theorem write_units (us : List NalUnit) :
    ∀ (st : AnnexbState) (nf : NextFilter), st.boundary → nf.write_rc = Status.OK →
      (∀ u ∈ us, u.wf st.nal_packet_size_length) → 1 ≤ st.nal_packet_size_length →
      st.nal_packet_size_length ≤ 4 →
      mp4_to_annexb_write st nf (frame_bytes us) =
        some (Status.OK, units_state st us, { nf with written := nf.written ++ units_out st us }) := by
  induction us with
  | nil =>
    intro st nf _ _ _ _ _
    simp [frame_bytes, mp4_to_annexb_write, write_loop_nil, units_state, units_out]
  | cons u us ih =>
    intro st nf hb hw hwf hwd hwd4
    have hu := write_unit st nf u hb hw (hwf u (List.mem_cons_self _ _)) hwd hwd4
    have hus := ih (unit_state st u) { nf with written := nf.written ++ unit_out st u }
      (unit_state_boundary st u hb) hw
      (by rw [unit_state_width]; exact fun v hv => hwf v (List.mem_cons_of_mem _ hv))
      (by rw [unit_state_width]; exact hwd) (by rw [unit_state_width]; exact hwd4)
    obtain ⟨st1, nf1, st2, nf2, h1, h2, h3, _⟩ :=
      write_append st nf u.bytes (frame_bytes us) hw hwd
    rw [hu] at h1
    simp only [Option.some.injEq, Prod.mk.injEq, true_and] at h1
    obtain ⟨rfl, rfl⟩ := h1
    rw [hus] at h2
    simp only [frame_bytes, units_state, units_out]
    rw [h3, ← h2]
    simp

theorem start_frame_eq (st : AnnexbState) (nf : NextFilter) (frame : OutputFrame)
    (hs : nf.start_rc = Status.OK) (hw : nf.write_rc = Status.OK) :
    mp4_to_annexb_start_frame st nf frame =
      (Status.OK, started_state st frame,
        { nf with
          started := nf.started ++ [frame]
          written := nf.written ++ aud_nal_packet }) := by
  cases hk : frame.key <;>
    simp [mp4_to_annexb_start_frame, NextFilter.start_frame, NextFilter.write, hs, hw,
      started_state, hk]

theorem started_state_boundary (st : AnnexbState) (frame : OutputFrame) :
    (started_state st frame).boundary := ⟨rfl, rfl, rfl⟩

theorem injects_eq_render (st : AnnexbState) (ut : Nat) :
    injects st ut = ((ut == 5 || ut == 7 || ut == 8) && st.key_frame && st.first_idr) := by
  unfold injects NAL_SLICE NAL_IDR_SLICE NAL_SPS NAL_PPS
  by_cases h1 : ut = 1
  · subst h1; rfl
  · have : (ut != 1) = true := by simpa using h1
    rw [this, Bool.true_and]

theorem units_out_render (us : List NalUnit) :
    ∀ st : AnnexbState,
      units_out st us = render st.key_frame st.blob st.first_idr st.first_frame_packet us := by
  induction us with
  | nil => intro st; rfl
  | cons u us ih =>
    intro st
    by_cases ha : u.type = 9
    · have e1 : unit_state st u = st := if_pos ha
      have e2 : unit_out st u = [] := if_pos ha
      simp only [units_out, render, ha, if_true, e1, e2, List.nil_append, ih]
    · have e1 : unit_state st u = _ := if_neg ha
      have e2 : unit_out st u = _ := if_neg ha
      simp only [units_out, render, ha, if_false, e1, e2, ih, unit_lead, next_first_idr,
        injects_eq_render, AnnexbState.blob, NAL_SLICE, List.append_assoc]
      cases st.first_frame_packet <;> rfl

/-- Writing the chunks of a list one after the other is writing their concatenation. -/
theorem write_chunks_eq (cs : List (List Nat)) :
    ∀ (st : AnnexbState) (nf : NextFilter), nf.write_rc = Status.OK →
      1 ≤ st.nal_packet_size_length →
      write_chunks st nf cs = mp4_to_annexb_write st nf (concat_chunks cs) := by
  induction cs with
  | nil =>
    intro st nf _ _
    simp [write_chunks, concat_chunks, mp4_to_annexb_write, write_loop_nil]
  | cons c cs ih =>
    intro st nf hw hwd
    obtain ⟨st1, nf1, st2, nf2, h1, h2, h3, hw1, _, hwd1, _⟩ :=
      write_append st nf c (concat_chunks cs) hw hwd
    simp only [write_chunks, concat_chunks, h1, h3]
    rw [ih st1 nf1 hw1 (by omega), h2]

/-! ## Claims on the Annex-B filter -/

/-- C1: with a next filter that accepts every write and a length-field width of at
least one, writing `b1` and then `b2` returns OK both times and leaves exactly the filter
state and the next-filter stream that the single write of `b1 ++ b2` leaves. -/
theorem annexb_write_chunking (st : AnnexbState) (nf : NextFilter) (b1 b2 : List Nat)
    (hw : nf.write_rc = Status.OK) (hwd : 1 ≤ st.nal_packet_size_length) :
    ∃ st1 nf1 st2 nf2, mp4_to_annexb_write st nf b1 = some (Status.OK, st1, nf1) ∧
      mp4_to_annexb_write st1 nf1 b2 = some (Status.OK, st2, nf2) ∧
      mp4_to_annexb_write st nf (b1 ++ b2) = some (Status.OK, st2, nf2) := by
  obtain ⟨st1, nf1, st2, nf2, h1, h2, h3, _⟩ := write_append st nf b1 b2 hw hwd
  exact ⟨st1, nf1, st2, nf2, h1, h2, h3⟩

theorem annexb_write_chunking_witness :
    sample_next.write_rc = Status.OK ∧
      1 ≤ (started_state sample_state ⟨6, true⟩).nal_packet_size_length ∧
      ∃ st1 nf1 st2 nf2,
        mp4_to_annexb_write (started_state sample_state ⟨6, true⟩) sample_next [0, 0, 0] =
          some (Status.OK, st1, nf1) ∧
        mp4_to_annexb_write st1 nf1 [2, 0x65, 0xaa] = some (Status.OK, st2, nf2) ∧
        mp4_to_annexb_write (started_state sample_state ⟨6, true⟩) sample_next
          ([0, 0, 0] ++ [2, 0x65, 0xaa]) = some (Status.OK, st2, nf2) :=
  ⟨by decide, by decide,
    annexb_write_chunking (started_state sample_state ⟨6, true⟩) sample_next [0, 0, 0]
      [2, 0x65, 0xaa] (by decide) (by decide)⟩

/-- C2: for a width from 1 to 4 and a frame of well-formed units, `start_frame` followed by
the write of the whole frame forwards the access unit delimiter `00 00 00 01 09 F0` and
then the reference rendering of the units. -/
theorem annexb_frame_rendering (st : AnnexbState) (nf : NextFilter) (frame : OutputFrame)
    (us : List NalUnit) (hs : nf.start_rc = Status.OK) (hw : nf.write_rc = Status.OK)
    (h1 : 1 ≤ st.nal_packet_size_length) (h4 : st.nal_packet_size_length ≤ 4)
    (hwf : ∀ u ∈ us, u.wf st.nal_packet_size_length) :
    ∃ st1 nf1 st2 nf2, mp4_to_annexb_start_frame st nf frame = (Status.OK, st1, nf1) ∧
      mp4_to_annexb_write st1 nf1 (frame_bytes us) = some (Status.OK, st2, nf2) ∧
      nf2.written =
        nf.written ++ [0x00, 0x00, 0x00, 0x01, 0x09, 0xf0] ++
          render frame.key st.blob st.first_idr true us := by
  refine ⟨_, _, _, _, start_frame_eq st nf frame hs hw,
    write_units us (started_state st frame) _ (started_state_boundary st frame) hw hwf h1 h4, ?_⟩
  simp only [units_out_render]
  rfl

theorem annexb_frame_rendering_witness :
    sample_next.start_rc = Status.OK ∧ sample_next.write_rc = Status.OK ∧
      1 ≤ sample_state.nal_packet_size_length ∧ sample_state.nal_packet_size_length ≤ 4 ∧
      (∀ u ∈ [sample_aud, sample_idr, sample_slice],
        u.wf sample_state.nal_packet_size_length) ∧
      ∃ st1 nf1 st2 nf2,
        mp4_to_annexb_start_frame sample_state sample_next ⟨19, true⟩ = (Status.OK, st1, nf1) ∧
        mp4_to_annexb_write st1 nf1 (frame_bytes [sample_aud, sample_idr, sample_slice]) =
          some (Status.OK, st2, nf2) ∧
        nf2.written =
          sample_next.written ++ [0x00, 0x00, 0x00, 0x01, 0x09, 0xf0] ++
            render true sample_state.blob sample_state.first_idr true
              [sample_aud, sample_idr, sample_slice] :=
  ⟨by decide, by decide, by decide, by decide, by decide,
    annexb_frame_rendering sample_state sample_next ⟨19, true⟩
      [sample_aud, sample_idr, sample_slice] (by decide) (by decide) (by decide) (by decide)
      (by decide)⟩

theorem unit_state_fixed (st : AnnexbState) (u : NalUnit) :
    (unit_state st u).key_frame = st.key_frame ∧ (unit_state st u).sps_pps = st.sps_pps ∧
      (unit_state st u).sps_pps_size = st.sps_pps_size := by
  unfold unit_state
  split <;> exact ⟨rfl, rfl, rfl⟩

theorem units_state_fixed (us : List NalUnit) :
    ∀ st : AnnexbState, (units_state st us).key_frame = st.key_frame ∧
      (units_state st us).sps_pps = st.sps_pps ∧
      (units_state st us).sps_pps_size = st.sps_pps_size ∧
      (units_state st us).nal_packet_size_length = st.nal_packet_size_length := by
  induction us with
  | nil => intro st; exact ⟨rfl, rfl, rfl, rfl⟩
  | cons u us ih =>
    intro st
    obtain ⟨a, b, c, d⟩ := ih (unit_state st u)
    obtain ⟨a1, b1, c1⟩ := unit_state_fixed st u
    exact ⟨a.trans a1, b.trans b1, c.trans c1, d.trans (unit_state_width st u)⟩

theorem render_disarmed (key : Bool) (blob : List Nat) (vs : List NalUnit) :
    ∀ first : Bool, (∀ v ∈ vs, v.type ≠ 1) →
      render key blob false first vs =
        match vs.filter (fun v => v.type != 9), first with
        | _, false => plain_units vs
        | [], true => []
        | _ :: _, true => [0] ++ plain_units vs := by
  induction vs with
  | nil => intro first _; cases first <;> rfl
  | cons v vs ih =>
    intro first h
    have hv : v.type ≠ 1 := h v (List.mem_cons_self _ _)
    have hvs : ∀ w ∈ vs, w.type ≠ 1 := fun w hw => h w (List.mem_cons_of_mem _ hw)
    by_cases h9 : v.type = 9
    · have hf : (v :: vs).filter (fun v => v.type != 9) = vs.filter (fun v => v.type != 9) := by
        simp [List.filter_cons, h9]
      simp only [render, h9, if_true, plain_units, List.nil_append, hf]
      exact ih first hvs
    · have hf : (v :: vs).filter (fun v => v.type != 9) = v :: vs.filter (fun v => v.type != 9) := by
        simp [List.filter_cons, h9]
      simp only [render, h9, if_false, hv, plain_units, hf, Bool.and_false, Bool.false_eq_true]
      rw [ih false hvs]
      cases first <;> simp

theorem units_state_disarmed (vs : List NalUnit) :
    ∀ st : AnnexbState, st.first_idr = false → (∀ v ∈ vs, v.type ≠ 1) →
      (units_state st vs).first_idr = false := by
  induction vs with
  | nil => intro st h _; exact h
  | cons v vs ih =>
    intro st h hno
    have hv : v.type ≠ 1 := hno v (List.mem_cons_self _ _)
    apply ih _ _ (fun w hw => hno w (List.mem_cons_of_mem _ hw))
    unfold unit_state
    split
    · exact h
    · simp [next_first_idr, NAL_SLICE, hv, h, injects]

theorem injects_of_armed (st : AnnexbState) (ut : Nat) (hk : st.key_frame = true)
    (ha : st.first_idr = true) (hu : ut = 5 ∨ ut = 7 ∨ ut = 8) : injects st ut = true := by
  rw [injects_eq_render, hk, ha]
  rcases hu with h | h | h <;> subst h <;> rfl

theorem type_ne_of_idr (ut : Nat) (hu : ut = 5 ∨ ut = 7 ∨ ut = 8) : ut ≠ 9 ∧ ut ≠ 1 := by
  rcases hu with h | h | h <;> subst h <;> exact ⟨by decide, by decide⟩

/-- The first unit of type 5, 7 or 8 of a key frame with the flag armed: the SPS/PPS
buffer and the marker go in front of its payload, and the flag is disarmed. -/
theorem unit_injected (st : AnnexbState) (u : NalUnit) (hk : st.key_frame = true)
    (ha : st.first_idr = true) (hu : u.type = 5 ∨ u.type = 7 ∨ u.type = 8) :
    unit_out st u =
        st.blob ++ (if st.first_frame_packet then [0, 0, 0, 1] else [0, 0, 1]) ++ u.payload ∧
      (unit_state st u).first_idr = false ∧ (unit_state st u).first_frame_packet = false := by
  have hi := injects_of_armed st u.type hk ha hu
  obtain ⟨h9, h1⟩ := type_ne_of_idr u.type hu
  have e1 : unit_state st u = _ := if_neg h9
  have e2 : unit_out st u = _ := if_neg h9
  rw [e1, e2]
  refine ⟨?_, ?_, rfl⟩
  · simp only [unit_lead, hi, if_true]
    cases st.first_frame_packet <;> rfl
  · simp [next_first_idr, NAL_SLICE, h1, hi]

/-- C6 (amended): when the injection flag is armed at `start_frame`, as it is after
`mp4_to_annexb_init`, a key frame whose first unit has type 5, 7 or 8 is forwarded as the
access unit delimiter, the SPS/PPS blob once, the marker `00 00 00 01`, the payload of that
unit, and then the rendering of the other units with the flag disarmed. -/
theorem annexb_key_frame_injection (st : AnnexbState) (nf : NextFilter) (frame : OutputFrame)
    (u : NalUnit) (us : List NalUnit) (hs : nf.start_rc = Status.OK)
    (hw : nf.write_rc = Status.OK) (h1 : 1 ≤ st.nal_packet_size_length)
    (h4 : st.nal_packet_size_length ≤ 4) (hk : frame.key = true) (ha : st.first_idr = true)
    (hu : u.type = 5 ∨ u.type = 7 ∨ u.type = 8)
    (hwf : ∀ v ∈ u :: us, v.wf st.nal_packet_size_length) :
    (∀ (st0 : AnnexbState) (simulation_only alloc_ok : Bool) (extra_data : List Nat)
        (extra_data_size : Nat),
        (mp4_to_annexb_init st0 simulation_only alloc_ok extra_data
          extra_data_size).2.first_idr = true) ∧
      ∃ st1 nf1 st2 nf2, mp4_to_annexb_start_frame st nf frame = (Status.OK, st1, nf1) ∧
        mp4_to_annexb_write st1 nf1 (frame_bytes (u :: us)) = some (Status.OK, st2, nf2) ∧
        nf2.written =
          nf.written ++ [0x00, 0x00, 0x00, 0x01, 0x09, 0xf0] ++ st.blob ++ [0, 0, 0, 1] ++
            u.payload ++ render true st.blob false false us := by
  constructor
  · intro st0 sim al ex sz
    unfold mp4_to_annexb_init
    simp only []
    repeat' (first | rfl | split)
  · refine ⟨_, _, _, _, start_frame_eq st nf frame hs hw,
      write_units (u :: us) (started_state st frame) _ (started_state_boundary st frame) hw hwf
        h1 h4, ?_⟩
    obtain ⟨e1, e2, e3⟩ := unit_injected (started_state st frame) u hk ha hu
    obtain ⟨f1, f2, _⟩ := unit_state_fixed (started_state st frame) u
    have hblob : (unit_state (started_state st frame) u).blob = st.blob := by
      unfold AnnexbState.blob
      rw [f2, (unit_state_fixed (started_state st frame) u).2.2]
      rfl
    simp only [units_out, e1, units_out_render, e2, e3, f1, hblob]
    have hk2 : (started_state st frame).key_frame = true := hk
    rw [hk2]
    simp [started_state, aud_nal_packet, AnnexbState.blob]

theorem annexb_key_frame_injection_witness :
    (∀ (st0 : AnnexbState) (simulation_only alloc_ok : Bool) (extra_data : List Nat)
        (extra_data_size : Nat),
        (mp4_to_annexb_init st0 simulation_only alloc_ok extra_data
          extra_data_size).2.first_idr = true) ∧
      ∃ st1 nf1 st2 nf2,
        mp4_to_annexb_start_frame sample_state sample_next ⟨13, true⟩ = (Status.OK, st1, nf1) ∧
        mp4_to_annexb_write st1 nf1 (frame_bytes (sample_idr :: [sample_slice])) =
          some (Status.OK, st2, nf2) ∧
        nf2.written =
          sample_next.written ++ [0x00, 0x00, 0x00, 0x01, 0x09, 0xf0] ++ sample_state.blob ++
            [0, 0, 0, 1] ++ sample_idr.payload ++
              render true sample_state.blob false false [sample_slice] :=
  annexb_key_frame_injection sample_state sample_next ⟨13, true⟩ sample_idr [sample_slice]
    (by decide) (by decide) (by decide) (by decide) rfl (by decide) (by decide) (by decide)

/-- C6 (as stated) fails: after `mp4_to_annexb_init` and one complete key frame made of a
single IDR unit, the flag is still disarmed, and a second key frame that starts with an
IDR unit is forwarded as the access unit delimiter, the marker and the payload, without
the SPS/PPS blob. -/
theorem annexb_key_frame_injection_counterexample :
    (run_frame sample_state sample_next ⟨6, true⟩ [frame_bytes [sample_idr]] 0).map (fun r => r.1) =
      some Status.OK ∧
    (run_frame sample_state sample_next ⟨6, true⟩ [frame_bytes [sample_idr]] 0).bind
        (fun r => frame_output r.2.1 r.2.2 ⟨6, true⟩ (frame_bytes [sample_idr])) =
      some ([0x00, 0x00, 0x00, 0x01, 0x09, 0xf0] ++ [0, 0, 0, 1] ++ sample_idr.payload) ∧
    (run_frame sample_state sample_next ⟨6, true⟩ [frame_bytes [sample_idr]] 0).bind
        (fun r => frame_output r.2.1 r.2.2 ⟨6, true⟩ (frame_bytes [sample_idr])) ≠
      some ([0x00, 0x00, 0x00, 0x01, 0x09, 0xf0] ++ sample_state.blob ++ [0, 0, 0, 1] ++
        sample_idr.payload) ∧
    sample_idr.type = 5 := by
  decide

/-- C7: in a key frame, once the SPS/PPS blob has been written before a unit of type 5, 7
or 8, the units behind it are forwarded without the blob as long as none of them has
type 1, whatever their types (5, 7, 8 and dropped units of type 9 included), and the
injection flag is still disarmed after them. -/
theorem annexb_no_repeated_injection (st : AnnexbState) (nf : NextFilter) (u : NalUnit)
    (vs : List NalUnit) (hb : st.boundary) (hw : nf.write_rc = Status.OK)
    (h1 : 1 ≤ st.nal_packet_size_length) (h4 : st.nal_packet_size_length ≤ 4)
    (hk : st.key_frame = true) (ha : st.first_idr = true)
    (hu : u.type = 5 ∨ u.type = 7 ∨ u.type = 8)
    (hwf : ∀ v ∈ u :: vs, v.wf st.nal_packet_size_length) (hno : ∀ v ∈ vs, v.type ≠ 1) :
    ∃ st2 nf2, mp4_to_annexb_write st nf (frame_bytes (u :: vs)) = some (Status.OK, st2, nf2) ∧
      st2.first_idr = false ∧
      nf2.written =
        nf.written ++ st.blob ++ (if st.first_frame_packet then [0, 0, 0, 1] else [0, 0, 1]) ++
          u.payload ++ plain_units vs := by
  obtain ⟨e1, e2, e3⟩ := unit_injected st u hk ha hu
  refine ⟨_, _, write_units (u :: vs) st nf hb hw hwf h1 h4, ?_, ?_⟩
  · exact units_state_disarmed vs _ e2 hno
  · simp only [units_out, e1, units_out_render, e2, e3, render_disarmed _ _ vs false hno,
      List.append_assoc]

theorem annexb_no_repeated_injection_witness :
    ∃ st2 nf2,
      mp4_to_annexb_write (started_state sample_state ⟨18, true⟩) sample_next
          (frame_bytes (sample_idr :: [sample_aud, sample_idr])) = some (Status.OK, st2, nf2) ∧
      st2.first_idr = false ∧
      nf2.written =
        sample_next.written ++ (started_state sample_state ⟨18, true⟩).blob ++
          (if (started_state sample_state ⟨18, true⟩).first_frame_packet then [0, 0, 0, 1]
            else [0, 0, 1]) ++
          sample_idr.payload ++ plain_units [sample_aud, sample_idr] :=
  annexb_no_repeated_injection (started_state sample_state ⟨18, true⟩) sample_next sample_idr
    [sample_aud, sample_idr] (by decide) (by decide) (by decide) (by decide) (by decide)
    (by decide) (by decide) (by decide) (by decide)

theorem unit_state_aud (st : AnnexbState) (u : NalUnit) (h : u.type = 9) :
    unit_state st u = st ∧ unit_out st u = [] := ⟨if_pos h, if_pos h⟩

theorem units_filter_aud (us : List NalUnit) :
    ∀ st : AnnexbState,
      units_state st (us.filter (fun u => u.type != 9)) = units_state st us ∧
        units_out st (us.filter (fun u => u.type != 9)) = units_out st us := by
  induction us with
  | nil => intro st; exact ⟨rfl, rfl⟩
  | cons u us ih =>
    intro st
    by_cases h9 : u.type = 9
    · obtain ⟨e1, e2⟩ := unit_state_aud st u h9
      have hf : (u :: us).filter (fun u => u.type != 9) = us.filter (fun u => u.type != 9) := by
        simp [List.filter_cons, h9]
      rw [hf]
      simp only [units_state, units_out, e1, e2, List.nil_append]
      exact ih st
    · have hf : (u :: us).filter (fun u => u.type != 9) =
          u :: us.filter (fun u => u.type != 9) := by
        simp [List.filter_cons, h9]
      rw [hf]
      simp only [units_state, units_out]
      obtain ⟨a, b⟩ := ih (unit_state st u)
      rw [a, b]
      exact ⟨rfl, rfl⟩

/-- C8: for a well-formed frame and every chunking of its bytes, the stream forwarded by
`start_frame` and the writes is the access unit delimiter `00 00 00 01 09 F0` followed by
the rendering of the units that are not of type 9, and the writes end in the filter state
and next-filter stream that the same frame without its units of type 9 gives. -/
theorem annexb_aud_suppression (st : AnnexbState) (nf : NextFilter) (frame : OutputFrame)
    (us : List NalUnit) (chunks : List (List Nat)) (hs : nf.start_rc = Status.OK)
    (hw : nf.write_rc = Status.OK) (h1 : 1 ≤ st.nal_packet_size_length)
    (h4 : st.nal_packet_size_length ≤ 4) (hwf : ∀ u ∈ us, u.wf st.nal_packet_size_length)
    (hc : concat_chunks chunks = frame_bytes us) :
    ∃ st1 nf1 st2 nf2,
      mp4_to_annexb_start_frame st nf frame = (Status.OK, st1, nf1) ∧
      write_chunks st1 nf1 chunks = some (Status.OK, st2, nf2) ∧
      mp4_to_annexb_write st1 nf1 (frame_bytes (us.filter (fun u => u.type != 9))) =
        some (Status.OK, st2, nf2) ∧
      nf2.written =
        nf.written ++ [0x00, 0x00, 0x00, 0x01, 0x09, 0xf0] ++
          render frame.key st.blob st.first_idr true (us.filter (fun u => u.type != 9)) := by
  have hwf2 : ∀ u ∈ us.filter (fun u => u.type != 9), u.wf st.nal_packet_size_length :=
    fun u hu => hwf u (List.mem_of_mem_filter hu)
  have hA := write_units us (started_state st frame)
    { nf with started := nf.started ++ [frame], written := nf.written ++ aud_nal_packet }
    (started_state_boundary st frame) hw hwf h1 h4
  have hB := write_units (us.filter (fun u => u.type != 9)) (started_state st frame)
    { nf with started := nf.started ++ [frame], written := nf.written ++ aud_nal_packet }
    (started_state_boundary st frame) hw hwf2 h1 h4
  rw [(units_filter_aud us _).1, (units_filter_aud us _).2] at hB
  have hC := write_chunks_eq chunks (started_state st frame)
    { nf with started := nf.started ++ [frame], written := nf.written ++ aud_nal_packet } hw h1
  rw [← hc, ← hC] at hA
  refine ⟨_, _, _, _, start_frame_eq st nf frame hs hw, hA, hB, ?_⟩
  simp only [← (units_filter_aud us (started_state st frame)).2, units_out_render]
  rfl

theorem annexb_aud_suppression_witness :
    concat_chunks [[0, 0, 0, 2, 0x09], [0xf0, 0, 0], [0, 2, 0x65, 0xaa]] =
        frame_bytes [sample_aud, sample_idr] ∧
      ∃ st1 nf1 st2 nf2,
        mp4_to_annexb_start_frame sample_state sample_next ⟨12, true⟩ = (Status.OK, st1, nf1) ∧
        write_chunks st1 nf1 [[0, 0, 0, 2, 0x09], [0xf0, 0, 0], [0, 2, 0x65, 0xaa]] =
          some (Status.OK, st2, nf2) ∧
        mp4_to_annexb_write st1 nf1
            (frame_bytes ([sample_aud, sample_idr].filter (fun u => u.type != 9))) =
          some (Status.OK, st2, nf2) ∧
        nf2.written =
          sample_next.written ++ [0x00, 0x00, 0x00, 0x01, 0x09, 0xf0] ++
            render true sample_state.blob sample_state.first_idr true
              ([sample_aud, sample_idr].filter (fun u => u.type != 9)) :=
  ⟨by decide,
    annexb_aud_suppression sample_state sample_next ⟨12, true⟩ [sample_aud, sample_idr]
      [[0, 0, 0, 2, 0x09], [0xf0, 0, 0], [0, 2, 0x65, 0xaa]] (by decide) (by decide) (by decide)
      (by decide) (by decide) (by decide)⟩

/-! ## The frame budget -/

theorem injects_false_of_type (st : AnnexbState) (ut : Nat) (h : is_param_or_idr ut = false) :
    injects st ut = false := by
  rw [injects_eq_render]
  unfold is_param_or_idr at h
  rw [h]; rfl

theorem injections_zero_of_none (us : List NalUnit) :
    ∀ st : AnnexbState, (us.all (fun v => !is_param_or_idr v.type)) = true →
      injections st us = 0 := by
  induction us with
  | nil => intro st _; rfl
  | cons u us ih =>
    intro st h
    simp only [List.all_cons, Bool.and_eq_true, Bool.not_eq_true'] at h
    simp only [injections, injects_false_of_type st u.type h.1, Bool.false_eq_true, and_false,
      if_false, Nat.zero_add]
    exact ih _ h.2

theorem injections_zero_of_not_key (us : List NalUnit) :
    ∀ st : AnnexbState, st.key_frame = false → injections st us = 0 := by
  induction us with
  | nil => intro st _; rfl
  | cons u us ih =>
    intro st h
    have hi : injects st u.type = false := by
      rw [injects_eq_render, h]; simp
    simp only [injections, hi, Bool.false_eq_true, and_false, if_false, Nat.zero_add]
    exact ih _ (by rw [(unit_state_fixed st u).1]; exact h)

theorem injections_zero_of_disarmed (us : List NalUnit) :
    ∀ st : AnnexbState, st.first_idr = false → no_rearm us = true → injections st us = 0 := by
  induction us with
  | nil => intro st _ _; rfl
  | cons u us ih =>
    intro st h hn
    simp only [no_rearm, Bool.and_eq_true, Bool.or_eq_true, bne_iff_ne, ne_eq] at hn
    have hi : injects st u.type = false := by
      rw [injects_eq_render, h]; simp
    simp only [injections, hi, Bool.false_eq_true, and_false, if_false, Nat.zero_add]
    by_cases h1 : u.type = 1
    · rcases hn.1 with h2 | h2
      · exact absurd h1 h2
      · exact injections_zero_of_none us _ h2
    · apply ih _ _ hn.2
      unfold unit_state
      split
      · exact h
      · simp [next_first_idr, NAL_SLICE, h1, hi, h]

theorem injections_le_one (us : List NalUnit) :
    ∀ st : AnnexbState, no_rearm us = true → injections st us ≤ 1 := by
  induction us with
  | nil => intro st _; simp [injections]
  | cons u us ih =>
    intro st hn
    have hn0 := hn
    simp only [no_rearm, Bool.and_eq_true, Bool.or_eq_true, bne_iff_ne, ne_eq] at hn
    by_cases hi : u.type ≠ NAL_AUD ∧ injects st u.type = true
    · have h1 : u.type ≠ 1 := by
        intro h1
        have := hi.2
        rw [h1] at this
        simp [injects, NAL_SLICE] at this
      have hd : (unit_state st u).first_idr = false := by
        unfold unit_state
        rw [if_neg hi.1]
        simp [next_first_idr, NAL_SLICE, h1, hi.2]
      simp only [injections, hi, and_self, if_true, ne_eq, not_false_eq_true]
      rw [injections_zero_of_disarmed us _ hd hn.2]
    · simp only [injections, hi, if_false, Nat.zero_add]
      exact ih _ hn.2

/-- The budget decreases by exactly the bytes forwarded, when the SPS/PPS buffer holds
`sps_pps_size` bytes. -/
theorem units_budget_exact (us : List NalUnit) :
    ∀ st : AnnexbState, st.sps_pps_size ≤ st.sps_pps.length →
      (units_state st us).frame_size_left = st.frame_size_left - ((units_out st us).length : Int) := by
  induction us with
  | nil => intro st _; simp [units_state, units_out]
  | cons u us ih =>
    intro st hb
    obtain ⟨_, f2, f3⟩ := unit_state_fixed st u
    have hbl : st.blob.length = st.sps_pps_size := by
      unfold AnnexbState.blob; rw [List.length_take]; omega
    simp only [units_state, units_out, List.length_append, Nat.cast_add]
    rw [ih _ (by rw [f2, f3]; exact hb)]
    unfold unit_state unit_out
    by_cases h9 : u.type = NAL_AUD
    · simp [h9]
    · simp only [h9, if_false, unit_lead, List.length_append, Nat.cast_add]
      cases hi : injects st u.type <;> cases hf : st.first_frame_packet <;>
        simp [hbl, nal_marker] <;> ring

theorem unit_bytes_length (w : Nat) (u : NalUnit) (h : u.wf w) :
    u.bytes.length = w + u.payload.length := by
  unfold NalUnit.bytes
  rw [List.length_append, h.1]

/-- With four-byte length fields the budget decreases by at most the input bytes, plus
the size of the SPS/PPS buffer for every injection. -/
theorem units_budget_lower (us : List NalUnit) :
    ∀ st : AnnexbState, (∀ u ∈ us, u.wf 4) →
      st.frame_size_left - ((frame_bytes us).length : Int) -
          (injections st us : Int) * (st.sps_pps_size : Int) ≤
        (units_state st us).frame_size_left := by
  induction us with
  | nil => intro st _; simp [units_state, frame_bytes, injections]
  | cons u us ih =>
    intro st hwf
    have hu := unit_bytes_length 4 u (hwf u (List.mem_cons_self _ _))
    have := ih (unit_state st u) (fun v hv => hwf v (List.mem_cons_of_mem _ hv))
    rw [(unit_state_fixed st u).2.2] at this
    simp only [units_state, frame_bytes, injections, List.length_append, Nat.cast_add, hu]
    refine le_trans ?_ this
    unfold unit_state
    by_cases h9 : u.type = NAL_AUD
    · simp only [h9, if_true, ne_eq, not_true_eq_false, false_and, if_false]
      push_cast
      have : (0 : Int) ≤ (u.payload.length : Int) := Int.natCast_nonneg _
      nlinarith
    · cases hi : injects st u.type <;> cases hf : st.first_frame_packet <;>
        simp [h9, hi, hf] <;> nlinarith

/-- C9 (amended): with four-byte length fields and a well-formed frame of `original_size`
bytes, the bytes forwarded by `start_frame` and the write of the frame plus the budget
left at flush time are the size that `mp4_to_annexb_simulated_write` predicts,
`original_size + 6 + (sps_pps_size if key)`; the budget is zero, and the forwarded size
is the predicted size, for a frame of a single unit that is not of type 9 and that is
not a key frame, or is one whose unit has type 5, 7 or 8 with the injection flag armed. -/
theorem annexb_size_prediction (st : AnnexbState) (nf : NextFilter) (frame : OutputFrame)
    (us : List NalUnit) (hs : nf.start_rc = Status.OK) (hw : nf.write_rc = Status.OK)
    (h4 : st.nal_packet_size_length = 4) (hwf : ∀ u ∈ us, u.wf 4)
    (hsize : frame.original_size = (frame_bytes us).length)
    (hblob : st.sps_pps_size ≤ st.sps_pps.length) :
    ∃ st1 nf1 st2 nf2, mp4_to_annexb_start_frame st nf frame = (Status.OK, st1, nf1) ∧
      mp4_to_annexb_write st1 nf1 (frame_bytes us) = some (Status.OK, st2, nf2) ∧
      ((mp4_to_annexb_simulated_write st nf frame).1.original_size : Int) =
        (frame.original_size : Int) + 6 + (if frame.key then (st.sps_pps_size : Int) else 0) ∧
      ((nf2.written.length : Int) - (nf.written.length : Int)) + st2.frame_size_left =
        ((mp4_to_annexb_simulated_write st nf frame).1.original_size : Int) ∧
      (∀ u, us = [u] → u.type ≠ 9 →
        (frame.key = false ∨
          (st.first_idr = true ∧ (u.type = 5 ∨ u.type = 7 ∨ u.type = 8))) →
        st2.frame_size_left = 0 ∧
          (nf2.written.length : Int) - (nf.written.length : Int) =
            ((mp4_to_annexb_simulated_write st nf frame).1.original_size : Int)) := by
  have hpred : ((mp4_to_annexb_simulated_write st nf frame).1.original_size : Int) =
      (frame.original_size : Int) + 6 + (if frame.key then (st.sps_pps_size : Int) else 0) := by
    unfold mp4_to_annexb_simulated_write
    cases frame.key <;> simp [aud_nal_packet]
  have hW := write_units us (started_state st frame)
    { nf with started := nf.started ++ [frame], written := nf.written ++ aud_nal_packet }
    (started_state_boundary st frame) hw (by simpa [started_state, h4] using hwf)
    (by simp [started_state, h4]) (by simp [started_state, h4])
  have hB := units_budget_exact us (started_state st frame) hblob
  have hsum : ((nf.written ++ aud_nal_packet ++ units_out (started_state st frame) us).length : Int)
      - (nf.written.length : Int) + (units_state (started_state st frame) us).frame_size_left =
      ((mp4_to_annexb_simulated_write st nf frame).1.original_size : Int) := by
    rw [hB, hpred]
    simp only [List.length_append, Nat.cast_add, started_state, aud_nal_packet, List.length_cons,
      List.length_nil]
    push_cast
    ring
  refine ⟨_, _, _, _, start_frame_eq st nf frame hs hw, hW, hpred, hsum, ?_⟩
  intro u hus h9 hcase
  have hzero : (units_state (started_state st frame) us).frame_size_left = 0 := by
    subst hus
    have hu := unit_bytes_length 4 u (hwf u (List.mem_cons_self _ _))
    have e1 : unit_state (started_state st frame) u = _ := if_neg h9
    simp only [units_state, e1]
    simp only [frame_bytes, List.append_nil, hu] at hsize
    have hinj : injects (started_state st frame) u.type = frame.key := by
      rcases hcase with hk | ⟨ha, hu578⟩
      · rw [hk, injects_eq_render]
        simp [started_state, hk]
      · rw [injects_eq_render]
        have : (u.type == 5 || u.type == 7 || u.type == 8) = true := by
          rcases hu578 with h | h | h <;> rw [h] <;> rfl
        rw [this]
        simp [started_state, ha]
    rw [hinj]
    simp only [started_state, hsize]
    cases frame.key <;> simp
  refine ⟨hzero, ?_⟩
  rw [hzero] at hsum
  simpa using hsum

theorem annexb_size_prediction_witness :
    ∃ st1 nf1 st2 nf2,
      mp4_to_annexb_start_frame sample_state sample_next ⟨6, true⟩ = (Status.OK, st1, nf1) ∧
      mp4_to_annexb_write st1 nf1 (frame_bytes [sample_idr]) = some (Status.OK, st2, nf2) ∧
      ((mp4_to_annexb_simulated_write sample_state sample_next ⟨6, true⟩).1.original_size : Int) =
        ((6 : Nat) : Int) + 6 + (if true then (sample_state.sps_pps_size : Int) else 0) ∧
      ((nf2.written.length : Int) - (sample_next.written.length : Int)) + st2.frame_size_left =
        ((mp4_to_annexb_simulated_write sample_state sample_next ⟨6, true⟩).1.original_size : Int) ∧
      (∀ u, [sample_idr] = [u] → u.type ≠ 9 →
        (true = false ∨
          (sample_state.first_idr = true ∧ (u.type = 5 ∨ u.type = 7 ∨ u.type = 8))) →
        st2.frame_size_left = 0 ∧
          (nf2.written.length : Int) - (sample_next.written.length : Int) =
            ((mp4_to_annexb_simulated_write sample_state sample_next ⟨6, true⟩).1.original_size :
              Int)) :=
  annexb_size_prediction sample_state sample_next ⟨6, true⟩ [sample_idr] (by decide) (by decide)
    (by decide) (by decide) (by decide) (by decide)

/-- C9 (as stated) fails: a frame that is not a key frame, made of two regular slice units
of 7 input bytes each with four-byte length fields, is predicted at 14 + 6 = 20 bytes, but
19 bytes are forwarded (the second unit gets a three-byte marker) and the budget left is
1, not 0. -/
theorem annexb_size_prediction_counterexample :
    sample_state.nal_packet_size_length = 4 ∧
    (∀ u ∈ [sample_slice, sample_slice], u.wf 4) ∧
    (frame_bytes [sample_slice, sample_slice]).length = 14 ∧
    (mp4_to_annexb_simulated_write sample_state sample_next ⟨14, false⟩).1.original_size = 20 ∧
    (frame_output sample_state sample_next ⟨14, false⟩
        (frame_bytes [sample_slice, sample_slice])).map List.length = some 19 ∧
    (run_frame sample_state sample_next ⟨14, false⟩ [frame_bytes [sample_slice, sample_slice]]
        0).map (fun r => (r.1, r.2.1.frame_size_left, r.2.2.flushed)) =
      some (Status.OK, 1, [1]) := by
  decide

/-- The budget of a frame in which the SPS/PPS buffer is written at most once: with
four-byte length fields, for a well-formed frame of `original_size` bytes that is not a
key frame, or in which no unit of type 5, 7 or 8 comes behind a unit of type 1, and every
chunking, the budget left after `start_frame` and the writes is not negative, and
`flush_frame` forwards the margin plus that budget to the next filter. -/
theorem flush_budget_single_injection (st : AnnexbState) (nf : NextFilter) (frame : OutputFrame)
    (us : List NalUnit) (chunks : List (List Nat)) (hs : nf.start_rc = Status.OK)
    (hw : nf.write_rc = Status.OK) (h4 : st.nal_packet_size_length = 4)
    (hwf : ∀ u ∈ us, u.wf 4) (hsize : frame.original_size = (frame_bytes us).length)
    (hc : concat_chunks chunks = frame_bytes us)
    (hone : frame.key = false ∨ no_rearm us = true) :
    ∃ st1 nf1 st2 nf2, mp4_to_annexb_start_frame st nf frame = (Status.OK, st1, nf1) ∧
      write_chunks st1 nf1 chunks = some (Status.OK, st2, nf2) ∧
      0 ≤ st2.frame_size_left ∧
      ∀ margin_size : Int,
        mp4_to_annexb_flush_frame st2 nf2 margin_size =
          nf2.flush_frame (margin_size + st2.frame_size_left) := by
  have hW := write_units us (started_state st frame)
    { nf with started := nf.started ++ [frame], written := nf.written ++ aud_nal_packet }
    (started_state_boundary st frame) hw (by simpa [started_state, h4] using hwf)
    (by simp [started_state, h4]) (by simp [started_state, h4])
  have hC := write_chunks_eq chunks (started_state st frame)
    { nf with started := nf.started ++ [frame], written := nf.written ++ aud_nal_packet } hw
    (by simp [started_state, h4])
  rw [← hc, ← hC] at hW
  have hL := units_budget_lower us (started_state st frame) hwf
  have hnn : 0 ≤ (units_state (started_state st frame) us).frame_size_left := by
    refine le_trans ?_ hL
    rcases hone with hk | hn
    · rw [injections_zero_of_not_key us _ (by simpa [started_state] using hk)]
      simp [started_state, hk, hsize]
    · have h1 := injections_le_one us (started_state st frame) hn
      have h0 : (0 : Int) ≤ (st.sps_pps_size : Int) := Int.natCast_nonneg _
      have h2 : (injections (started_state st frame) us : Int) ≤ 1 := by exact_mod_cast h1
      have h3 : (0 : Int) ≤ (injections (started_state st frame) us : Int) := Int.natCast_nonneg _
      by_cases hk : frame.key = true
      · have h5 := mul_nonneg (sub_nonneg.mpr h2) h0
        have e1 : (started_state st frame).frame_size_left =
            ((frame_bytes us).length : Int) + (st.sps_pps_size : Int) := by
          simp [started_state, hk, hsize]
        have e2 : (started_state st frame).sps_pps_size = st.sps_pps_size := rfl
        rw [e1, e2]
        nlinarith
      · have hk2 : frame.key = false := by simpa using hk
        rw [injections_zero_of_not_key us _ (by simpa [started_state] using hk2)]
        simp [started_state, hk2, hsize]
  refine ⟨_, _, _, _, start_frame_eq st nf frame hs hw, hW, hnn, ?_⟩
  intro margin_size
  have hw4 : (units_state (started_state st frame) us).nal_packet_size_length = 4 := by
    rw [(units_state_fixed us _).2.2.2]; exact h4
  simp [mp4_to_annexb_flush_frame, hw4, not_lt.mpr hnn]

theorem flush_budget_single_injection_sample :
    ∃ st1 nf1 st2 nf2,
      mp4_to_annexb_start_frame sample_state sample_next ⟨19, true⟩ = (Status.OK, st1, nf1) ∧
      write_chunks st1 nf1 [[0, 0, 0, 2, 0x09], 0xf0 :: frame_bytes [sample_idr, sample_slice]] =
        some (Status.OK, st2, nf2) ∧
      0 ≤ st2.frame_size_left ∧
      ∀ margin_size : Int,
        mp4_to_annexb_flush_frame st2 nf2 margin_size =
          nf2.flush_frame (margin_size + st2.frame_size_left) :=
  flush_budget_single_injection sample_state sample_next ⟨19, true⟩ [sample_aud, sample_idr, sample_slice]
    [[0, 0, 0, 2, 0x09], 0xf0 :: frame_bytes [sample_idr, sample_slice]]
    (by decide) (by decide) (by decide) (by decide) (by decide) (by decide) (by decide)

/-- C10: the code at a failing input.  After `mp4_to_annexb_init` with four-byte length
fields and an 11-byte SPS/PPS buffer, the well-formed key frame IDR, slice, IDR of 19 bytes
gets the buffer written twice, while the budget counts it once: the budget left is -9
and `flush_frame` returns `VOD_UNEXPECTED` without calling the next filter. -/
theorem annexb_flush_budget_exceeded :
    sample_state.nal_packet_size_length = 4 ∧
    (∀ u ∈ [sample_idr, sample_slice, sample_idr], u.wf 4) ∧
    (frame_bytes [sample_idr, sample_slice, sample_idr]).length = 19 ∧
    (run_frame sample_state sample_next ⟨19, true⟩
        [frame_bytes [sample_idr, sample_slice, sample_idr]] 0).map
      (fun r => (r.1, r.2.1.frame_size_left, r.2.2.flushed)) =
      some (Status.UNEXPECTED, -9, []) := by
  decide

/-! ## Lemmas on the decrypt loop -/

theorem keystream_xor_length (ks : Keystream) (key iv : List Nat) (bs : List Nat) :
    ∀ p : Nat, (keystream_xor ks key iv p bs).length = bs.length := by
  induction bs with
  | nil => intro p; rfl
  | cons b bs ih => intro p; simp [keystream_xor, ih]

theorem keystream_xor_append (ks : Keystream) (key iv : List Nat) (xs ys : List Nat) :
    ∀ p : Nat, keystream_xor ks key iv p (xs ++ ys) =
      keystream_xor ks key iv p xs ++ keystream_xor ks key iv (p + xs.length) ys := by
  induction xs with
  | nil => intro p; simp [keystream_xor]
  | cons x xs ih =>
    intro p
    have e : p + 1 + xs.length = p + (xs.length + 1) := by omega
    simp only [List.cons_append, keystream_xor, List.length_cons, List.cons.injEq, true_and]
    rw [← e]
    exact ih (p + 1)

theorem cipher_process_ok (ks : Keystream) (c : Cipher) (src : List Nat)
    (hc : c.process_rc = Status.OK) :
    c.process ks src =
      (Status.OK, { c with pos := c.pos + src.length, fed := c.fed ++ src },
        keystream_xor ks c.key c.iv c.pos src) := by
  simp [Cipher.process, hc]

theorem cipher_process_rc (ks : Keystream) (c : Cipher) (src : List Nat) :
    (c.process ks src).2.1.process_rc = c.process_rc := by
  unfold Cipher.process
  split <;> rfl

theorem cipher_process_nil (ks : Keystream) (c : Cipher) (hc : c.process_rc = Status.OK) :
    c.process ks [] = (Status.OK, c, []) := by
  rw [cipher_process_ok ks c [] hc]
  simp [keystream_xor]

/-- The cipher continues its keystream from one call to the next. -/
theorem cipher_process_append (ks : Keystream) (c : Cipher) (xs ys : List Nat)
    (hc : c.process_rc = Status.OK) :
    c.process ks (xs ++ ys) =
      (Status.OK, ((c.process ks xs).2.1.process ks ys).2.1,
        (c.process ks xs).2.2 ++ ((c.process ks xs).2.1.process ks ys).2.2) := by
  rw [cipher_process_ok ks c (xs ++ ys) hc, cipher_process_ok ks c xs hc]
  simp only []
  have h2 : ({ c with pos := c.pos + xs.length, fed := c.fed ++ xs } : Cipher).process_rc =
      Status.OK := hc
  rw [cipher_process_ok ks _ ys h2]
  simp [keystream_xor_append, Nat.add_assoc]

theorem next_subsample_cipher (st : DecryptState) :
    (next_subsample st).2.cipher = st.cipher := by
  unfold next_subsample
  split
  · split
    · rfl
    · split <;> rfl
  · rfl

theorem process_loop_zero (ks : Keystream) (f : Nat) (st : DecryptState) (src dest : List Nat) :
    process_loop ks f st 0 src dest = some (Status.OK, st, src, dest) := by
  cases f <;> rfl

theorem process_loop_fail (ks : Keystream) (f n : Nat) (st st1 : DecryptState) (src dest : List Nat)
    (rc : Status) (h : next_subsample st = (rc, st1)) (hrc : rc ≠ Status.OK) :
    process_loop ks (f + 1) st (n + 1) src dest = some (rc, st1, src, dest) := by
  cases rc <;> first | exact absurd rfl hrc | simp only [process_loop, h]

theorem process_loop_pass (ks : Keystream) (f n : Nat) (st st1 : DecryptState) (src dest : List Nat)
    (h : next_subsample st = (Status.OK, st1)) (hc : st.cipher.process_rc = Status.OK) :
    process_loop ks (f + 1) st (n + 1) src dest =
      process_loop ks f (pass_result ks st1 (n + 1) src dest).1
        (pass_result ks st1 (n + 1) src dest).2.1 (pass_result ks st1 (n + 1) src dest).2.2.1
        (pass_result ks st1 (n + 1) src dest).2.2.2 := by
  have hc1 : st1.cipher.process_rc = Status.OK := by
    have := next_subsample_cipher st
    rw [h] at this
    simp only [] at this
    rw [this]; exact hc
  have hmin : (if st1.clear_bytes > 0 then min st1.clear_bytes (n + 1) else 0) =
      min st1.clear_bytes (n + 1) := by
    split
    · rfl
    · have : st1.clear_bytes = 0 := by omega
      simp [this]
  simp only [process_loop, h, hmin, pass_result]
  rw [cipher_process_ok ks st1.cipher _ hc1]

theorem pass_result_keep (ks : Keystream) (st : DecryptState) (n b : Nat) (src dest : List Nat)
    (h : st.clear_bytes + st.encrypted_bytes ≤ n) :
    pass_result ks st (n + b) src dest =
      ((pass_result ks st n src dest).1, (pass_result ks st n src dest).2.1 + b,
        (pass_result ks st n src dest).2.2.1, (pass_result ks st n src dest).2.2.2) := by
  have c1 : min st.clear_bytes (n + b) = st.clear_bytes := by omega
  have c2 : min st.clear_bytes n = st.clear_bytes := by omega
  have e1 : min st.encrypted_bytes (n + b - st.clear_bytes) = st.encrypted_bytes := by omega
  have e2 : min st.encrypted_bytes (n - st.clear_bytes) = st.encrypted_bytes := by omega
  simp only [pass_result, c1, c2, e1, e2, Prod.mk.injEq, true_and, and_true]
  omega

theorem pass_result_split_enc (ks : Keystream) (st : DecryptState) (n b : Nat)
    (src dest : List Nat) (hc : st.cipher.process_rc = Status.OK)
    (h1 : st.clear_bytes ≤ n) (h2 : n < st.clear_bytes + st.encrypted_bytes) :
    pass_result ks st (n + b) src dest =
      pass_result ks (pass_result ks st n src dest).1 b (pass_result ks st n src dest).2.2.1
        (pass_result ks st n src dest).2.2.2 := by
  have c1 : min st.clear_bytes (n + b) = st.clear_bytes := by omega
  have c2 : min st.clear_bytes n = st.clear_bytes := by omega
  have e2 : min st.encrypted_bytes (n - st.clear_bytes) = n - st.clear_bytes := by omega
  have e1 : min st.encrypted_bytes (n + b - st.clear_bytes) =
      (n - st.clear_bytes) + min (st.encrypted_bytes - (n - st.clear_bytes)) b := by omega
  have hcp := cipher_process_append ks st.cipher
    ((src.drop st.clear_bytes).take (n - st.clear_bytes))
    (((src.drop st.clear_bytes).drop (n - st.clear_bytes)).take
      (min (st.encrypted_bytes - (n - st.clear_bytes)) b)) hc
  rw [← List.take_add] at hcp
  simp only [pass_result, c1, c2, e1, e2, Nat.sub_self, Nat.zero_min, Nat.sub_zero, List.drop_zero,
    List.take_zero, List.append_nil, hcp, Prod.mk.injEq, List.append_assoc]
  refine ⟨?_, by omega, ?_, trivial⟩
  · congr 1; omega
  · rw [List.drop_drop, List.drop_drop, List.drop_drop]

theorem pass_result_split_clear (ks : Keystream) (st : DecryptState) (n b : Nat)
    (src dest : List Nat) (hc : st.cipher.process_rc = Status.OK)
    (h1 : n < st.clear_bytes) :
    pass_result ks st (n + b) src dest =
      pass_result ks (pass_result ks st n src dest).1 b (pass_result ks st n src dest).2.2.1
        (pass_result ks st n src dest).2.2.2 := by
  have c2 : min st.clear_bytes n = n := by omega
  have c1 : min st.clear_bytes (n + b) = n + min (st.clear_bytes - n) b := by omega
  simp only [pass_result, c1, c2, Nat.sub_self, Nat.min_zero, List.take_zero, List.drop_zero,
    cipher_process_nil ks st.cipher hc, List.append_nil, Nat.sub_zero, Prod.mk.injEq,
    List.append_assoc]
  have e3 : n + b - (n + min (st.clear_bytes - n) b) = b - min (st.clear_bytes - n) b := by omega
  rw [e3, List.take_add, ← List.drop_drop]
  refine ⟨?_, by omega, ?_, ?_⟩
  · congr 1; omega
  · rfl
  · simp

theorem pass_result_cipher_rc (ks : Keystream) (st : DecryptState) (n : Nat) (src dest : List Nat) :
    (pass_result ks st n src dest).1.cipher.process_rc = st.cipher.process_rc := by
  simp only [pass_result, cipher_process_rc]

theorem next_subsample_rc_cipher (st st1 : DecryptState) (rc : Status)
    (h : next_subsample st = (rc, st1)) : st1.cipher.process_rc = st.cipher.process_rc := by
  have := next_subsample_cipher st
  rw [h] at this
  simp only [] at this
  rw [this]

/-- A successful reading step either used up one subsample entry or found the current
subsample unfinished. -/
theorem next_subsample_progress (st st1 : DecryptState)
    (h : next_subsample st = (Status.OK, st1)) :
    (st1.subsample_count + 1 ≤ st.subsample_count) ∨
      (st1 = st ∧ (0 < st.clear_bytes ∨ 0 < st.encrypted_bytes)) := by
  unfold next_subsample at h
  split at h
  · split at h
    · simp at h
    · split at h
      · simp at h
      · simp only [Prod.mk.injEq, true_and] at h
        left
        rw [← h]
        simp only []
        omega
  · simp only [Prod.mk.injEq, true_and] at h
    right
    refine ⟨h.symm, ?_⟩
    omega

theorem next_subsample_unfinished (st : DecryptState)
    (h : 0 < st.clear_bytes ∨ 0 < st.encrypted_bytes) : next_subsample st = (Status.OK, st) := by
  unfold next_subsample
  have : ¬ (st.clear_bytes ≤ 0 ∧ st.encrypted_bytes ≤ 0) := by omega
  rw [if_neg this]

theorem process_loop_mono (ks : Keystream) (f : Nat) :
    ∀ (st : DecryptState) (n : Nat) (src dest : List Nat)
      (r : Status × DecryptState × List Nat × List Nat) (f2 : Nat),
      st.cipher.process_rc = Status.OK →
      process_loop ks f st n src dest = some r → f ≤ f2 →
      process_loop ks f2 st n src dest = some r := by
  induction f with
  | zero =>
    intro st n src dest r f2 _ h _
    cases n with
    | zero => rw [process_loop_zero] at h ⊢; exact h
    | succ n => simp [process_loop] at h
  | succ f ih =>
    intro st n src dest r f2 hc h hle
    cases n with
    | zero => rw [process_loop_zero] at h ⊢; exact h
    | succ n =>
      obtain ⟨g, rfl⟩ : ∃ g, f2 = g + 1 := ⟨f2 - 1, by omega⟩
      cases hns : next_subsample st with
      | mk rc st1 =>
        by_cases hrc : rc = Status.OK
        · subst hrc
          rw [process_loop_pass ks _ _ _ _ _ _ hns hc] at h ⊢
          exact ih _ _ _ _ r g
            (by rw [pass_result_cipher_rc, next_subsample_rc_cipher st st1 _ hns]; exact hc) h
            (by omega)
        · rw [process_loop_fail ks _ _ _ _ _ _ _ hns hrc] at h ⊢
          exact h

/-- With a cipher that succeeds, `size + subsample_count` passes end the loop. -/
theorem process_loop_total (ks : Keystream) (f : Nat) :
    ∀ (st : DecryptState) (n : Nat) (src dest : List Nat),
      st.cipher.process_rc = Status.OK → n + st.subsample_count ≤ f →
      ∃ r, process_loop ks f st n src dest = some r := by
  induction f with
  | zero =>
    intro st n src dest _ hf
    have : n = 0 := by omega
    subst this
    exact ⟨_, process_loop_zero ks 0 st src dest⟩
  | succ f ih =>
    intro st n src dest hc hf
    cases n with
    | zero => exact ⟨_, process_loop_zero ks _ st src dest⟩
    | succ n =>
      cases hns : next_subsample st with
      | mk rc st1 =>
        by_cases hrc : rc = Status.OK
        · subst hrc
          rw [process_loop_pass ks _ _ _ _ _ _ hns hc]
          apply ih
          · rw [pass_result_cipher_rc, next_subsample_rc_cipher st st1 _ hns]; exact hc
          · rcases next_subsample_progress st st1 hns with h | ⟨h1, h2⟩
            · simp only [pass_result]
              omega
            · subst h1
              simp only [pass_result]
              omega
        · exact ⟨_, process_loop_fail ks _ _ _ _ _ _ _ hns hrc⟩

/-- Running the loop over `a` bytes and then, when that ended with OK, over `b` more
bytes from the state reached, is running it over `a + b` bytes. -/
theorem process_loop_split (ks : Keystream) (f1 : Nat) :
    ∀ (st : DecryptState) (a b : Nat) (src dest : List Nat)
      (r1 : Status × DecryptState × List Nat × List Nat),
      st.cipher.process_rc = Status.OK →
      process_loop ks f1 st a src dest = some r1 →
      (r1.1 ≠ Status.OK → ∃ f3, process_loop ks f3 st (a + b) src dest = some r1) ∧
      (r1.1 = Status.OK → ∀ f2 r2, process_loop ks f2 r1.2.1 b r1.2.2.1 r1.2.2.2 = some r2 →
        ∃ f3, process_loop ks f3 st (a + b) src dest = some r2) := by
  induction f1 with
  | zero =>
    intro st a b src dest r1 _ h
    cases a with
    | zero =>
      rw [process_loop_zero] at h
      simp only [Option.some.injEq] at h
      subst h
      refine ⟨fun hne => absurd rfl hne, fun _ f2 r2 h2 => ⟨f2, ?_⟩⟩
      rw [Nat.zero_add]; exact h2
    | succ a => simp [process_loop] at h
  | succ f1 ih =>
    intro st a b src dest r1 hc h
    cases a with
    | zero =>
      rw [process_loop_zero] at h
      simp only [Option.some.injEq] at h
      subst h
      refine ⟨fun hne => absurd rfl hne, fun _ f2 r2 h2 => ⟨f2, ?_⟩⟩
      rw [Nat.zero_add]; exact h2
    | succ a =>
      have hab : a + 1 + b = (a + b) + 1 := by omega
      cases hns : next_subsample st with
      | mk rc st1 =>
        by_cases hrc : rc = Status.OK
        · subst hrc
          have hc1 : st1.cipher.process_rc = Status.OK := by
            rw [next_subsample_rc_cipher st st1 _ hns]; exact hc
          rw [process_loop_pass ks _ _ _ _ _ _ hns hc] at h
          by_cases hkeep : st1.clear_bytes + st1.encrypted_bytes ≤ a + 1
          · -- the pass is the same in both runs
            have hk := pass_result_keep ks st1 (a + 1) b src dest hkeep
            obtain ⟨i1, i2⟩ := ih _ _ b _ _ r1
              (by rw [pass_result_cipher_rc]; exact hc1) h
            constructor
            · intro hne
              obtain ⟨f3, h3⟩ := i1 hne
              refine ⟨f3 + 1, ?_⟩
              rw [hab, process_loop_pass ks _ _ _ _ _ _ hns hc, ← hab, hk]
              exact h3
            · intro hok f2 r2 h2
              obtain ⟨f3, h3⟩ := i2 hok f2 r2 h2
              refine ⟨f3 + 1, ?_⟩
              rw [hab, process_loop_pass ks _ _ _ _ _ _ hns hc, ← hab, hk]
              exact h3
          · -- the pass uses up the `a` bytes
            have hsplit : pass_result ks st1 (a + 1 + b) src dest =
                pass_result ks (pass_result ks st1 (a + 1) src dest).1 b
                  (pass_result ks st1 (a + 1) src dest).2.2.1
                  (pass_result ks st1 (a + 1) src dest).2.2.2 := by
              by_cases hcl : st1.clear_bytes ≤ a + 1
              · exact pass_result_split_enc ks st1 (a + 1) b src dest hc1 hcl (by omega)
              · exact pass_result_split_clear ks st1 (a + 1) b src dest hc1 (by omega)
            have hz : (pass_result ks st1 (a + 1) src dest).2.1 = 0 := by
              simp only [pass_result]; omega
            have hun : 0 < (pass_result ks st1 (a + 1) src dest).1.clear_bytes ∨
                0 < (pass_result ks st1 (a + 1) src dest).1.encrypted_bytes := by
              simp only [pass_result]; omega
            rw [hz, process_loop_zero] at h
            simp only [Option.some.injEq] at h
            subst h
            refine ⟨fun hne => absurd rfl hne, fun _ f2 r2 h2 => ?_⟩
            simp only [] at h2
            cases b with
            | zero =>
              rw [process_loop_zero] at h2
              refine ⟨1, ?_⟩
              rw [Nat.add_zero, process_loop_pass ks _ _ _ _ _ _ hns hc, hz, process_loop_zero]
              exact h2
            | succ b =>
              cases f2 with
              | zero => simp [process_loop] at h2
              | succ g2 =>
                rw [process_loop_pass ks _ _ _ _ _ _ (next_subsample_unfinished _ hun)
                  (by rw [pass_result_cipher_rc]; exact hc1)] at h2
                refine ⟨g2 + 1, ?_⟩
                have hab2 : a + 1 + (b + 1) = (a + (b + 1)) + 1 := by omega
                rw [hab2, process_loop_pass ks _ _ _ _ _ _ hns hc, ← hab2, hsplit]
                exact h2
        · rw [process_loop_fail ks _ _ _ _ _ _ _ hns hrc] at h
          simp only [Option.some.injEq] at h
          subst h
          refine ⟨fun _ => ⟨1, ?_⟩, fun hok => absurd hok hrc⟩
          rw [hab, process_loop_fail ks _ _ _ _ _ _ _ hns hrc]

theorem next_subsample_with_io (st : DecryptState) (i : List Nat) (o : Nat) :
    next_subsample (with_io st i o) = ((next_subsample st).1, with_io (next_subsample st).2 i o) := by
  unfold next_subsample with_io
  simp only []
  split
  · split
    · rfl
    · split <;> rfl
  · rfl

theorem pass_result_with_io (ks : Keystream) (st : DecryptState) (i : List Nat) (o n : Nat)
    (src dest : List Nat) :
    pass_result ks (with_io st i o) n src dest =
      (with_io (pass_result ks st n src dest).1 i o, (pass_result ks st n src dest).2.1,
        (pass_result ks st n src dest).2.2.1, (pass_result ks st n src dest).2.2.2) := rfl

/-- The loop does not read the cursors: it carries them along unchanged. -/
theorem process_loop_with_io (ks : Keystream) (f : Nat) :
    ∀ (st : DecryptState) (n : Nat) (src dest : List Nat) (i : List Nat) (o : Nat),
      st.cipher.process_rc = Status.OK →
      process_loop ks f (with_io st i o) n src dest =
        (process_loop ks f st n src dest).map
          (fun r => (r.1, with_io r.2.1 i o, r.2.2.1, r.2.2.2)) := by
  induction f with
  | zero =>
    intro st n src dest i o _
    cases n <;> rfl
  | succ f ih =>
    intro st n src dest i o hc
    cases n with
    | zero => rfl
    | succ n =>
      cases hns : next_subsample st with
      | mk rc st1 =>
        have hns2 : next_subsample (with_io st i o) = (rc, with_io st1 i o) := by
          rw [next_subsample_with_io, hns]
        by_cases hrc : rc = Status.OK
        · subst hrc
          rw [process_loop_pass ks _ _ _ _ _ _ hns hc,
            process_loop_pass ks _ _ _ _ _ _ hns2 hc, pass_result_with_io]
          exact ih _ _ _ _ i o
            (by rw [pass_result_cipher_rc, next_subsample_rc_cipher st st1 _ hns]; exact hc)
        · rw [process_loop_fail ks _ _ _ _ _ _ _ hns hrc,
            process_loop_fail ks _ _ _ _ _ _ _ hns2 hrc]
          rfl

theorem pass_result_dest (ks : Keystream) (st : DecryptState) (n : Nat) (src dest : List Nat) :
    pass_result ks st n src dest =
      ((pass_result ks st n src []).1, (pass_result ks st n src []).2.1,
        (pass_result ks st n src []).2.2.1, dest ++ (pass_result ks st n src []).2.2.2) := by
  simp [pass_result]

/-- The bytes written so far are a prefix that the loop only extends. -/
theorem process_loop_dest (ks : Keystream) (f : Nat) :
    ∀ (st : DecryptState) (n : Nat) (src dest : List Nat),
      st.cipher.process_rc = Status.OK →
      process_loop ks f st n src dest =
        (process_loop ks f st n src []).map
          (fun r => (r.1, r.2.1, r.2.2.1, dest ++ r.2.2.2)) := by
  induction f with
  | zero =>
    intro st n src dest _
    cases n with
    | zero => simp [process_loop]
    | succ n => rfl
  | succ f ih =>
    intro st n src dest hc
    cases n with
    | zero => simp [process_loop]
    | succ n =>
      cases hns : next_subsample st with
      | mk rc st1 =>
        by_cases hrc : rc = Status.OK
        · subst hrc
          have hc2 : (pass_result ks st1 (n + 1) src []).1.cipher.process_rc = Status.OK := by
            rw [pass_result_cipher_rc, next_subsample_rc_cipher st st1 _ hns]; exact hc
          rw [process_loop_pass ks _ _ _ _ _ _ hns hc, process_loop_pass ks _ _ _ _ _ _ hns hc]
          rw [pass_result_dest ks st1 (n + 1) src dest]
          simp only []
          rw [ih _ _ _ (dest ++ (pass_result ks st1 (n + 1) src []).2.2.2) hc2]
          rw [ih _ _ _ (pass_result ks st1 (n + 1) src []).2.2.2 hc2]
          simp only [Option.map_map, List.append_assoc]
          rfl
        · rw [process_loop_fail ks _ _ _ _ _ _ _ hns hrc,
            process_loop_fail ks _ _ _ _ _ _ _ hns hrc]
          simp

theorem process_loop_cursors (ks : Keystream) (f : Nat) (st : DecryptState) (n : Nat)
    (src dest : List Nat) (r : Status × DecryptState × List Nat × List Nat)
    (hc : st.cipher.process_rc = Status.OK) (h : process_loop ks f st n src dest = some r) :
    r.2.1.input = st.input ∧ r.2.1.output_pos = st.output_pos ∧
      r.2.1.cipher.process_rc = Status.OK := by
  have hio := process_loop_with_io ks f st n src dest st.input st.output_pos hc
  have hst : with_io st st.input st.output_pos = st := rfl
  rw [hst, h] at hio
  simp only [Option.map_some', Option.some.injEq] at hio
  have h2 : r.2.1 = with_io r.2.1 st.input st.output_pos := congrArg (fun x => x.2.1) hio
  refine ⟨by rw [h2]; rfl, by rw [h2]; rfl, ?_⟩
  clear hio h2 hst
  induction f generalizing st n src dest with
  | zero =>
    cases n with
    | zero =>
      rw [process_loop_zero] at h
      simp only [Option.some.injEq] at h
      rw [← h]; exact hc
    | succ n => simp [process_loop] at h
  | succ f ih =>
    cases n with
    | zero =>
      rw [process_loop_zero] at h
      simp only [Option.some.injEq] at h
      rw [← h]; exact hc
    | succ n =>
      cases hns : next_subsample st with
      | mk rc st1 =>
        have hc1 := next_subsample_rc_cipher st st1 _ hns
        by_cases hrc : rc = Status.OK
        · subst hrc
          rw [process_loop_pass ks _ _ _ _ _ _ hns hc] at h
          exact ih _ _ _ _ (by rw [pass_result_cipher_rc, hc1]; exact hc) h
        · rw [process_loop_fail ks _ _ _ _ _ _ _ hns hrc] at h
          simp only [Option.some.injEq] at h
          rw [← h, hc1]; exact hc

/-- The result of `mp4_decrypt_process` from a run of the loop with any bound. -/
theorem process_of_loop (ks : Keystream) (st : DecryptState) (n f : Nat)
    (r : Status × DecryptState × List Nat × List Nat)
    (hc : st.cipher.process_rc = Status.OK)
    (h : process_loop ks f st n st.input [] = some r) :
    mp4_decrypt_process ks st n =
      if r.1 = Status.OK then
        some (Status.OK, with_io r.2.1 r.2.2.1 (r.2.1.output_pos + n), r.2.2.2)
      else some (r.1, r.2.1, r.2.2.2) := by
  obtain ⟨r0, h0⟩ := process_loop_total ks (n + st.subsample_count) st n st.input [] hc (le_refl _)
  have heq : r0 = r := by
    rcases Nat.le_total f (n + st.subsample_count) with hle | hle
    · have := process_loop_mono ks f st n _ _ r _ hc h hle
      rw [h0] at this
      exact Option.some.inj this
    · have := process_loop_mono ks _ st n _ _ r0 f hc h0 hle
      rw [h] at this
      exact (Option.some.inj this).symm
  subst heq
  unfold mp4_decrypt_process
  rw [h0]
  obtain ⟨rc, st1, src, dest⟩ := r0
  cases rc <;> simp [with_io]

theorem process_split (ks : Keystream) (st : DecryptState) (a b : Nat)
    (hc : st.cipher.process_rc = Status.OK) :
    ∃ rc stA stB w, mp4_decrypt_process ks st (a + b) = some (rc, stA, w) ∧
      process_twice ks st a b = some (rc, stB, w) ∧
      (∃ i o, stB = with_io stA i o) ∧ (rc = Status.OK → stB = stA) ∧
      stA.cipher.process_rc = Status.OK := by
  obtain ⟨r1, h1⟩ := process_loop_total ks (a + st.subsample_count) st a st.input [] hc (le_refl _)
  obtain ⟨s1, s2⟩ := process_loop_split ks _ st a b st.input [] r1 hc h1
  have hp1 := process_of_loop ks st a _ r1 hc h1
  obtain ⟨c1, c2, c3⟩ := process_loop_cursors ks _ st a _ _ r1 hc h1
  by_cases hr1 : r1.1 = Status.OK
  · rw [if_pos hr1] at hp1
    -- the second call
    have hcB : (with_io r1.2.1 r1.2.2.1 (r1.2.1.output_pos + a)).cipher.process_rc = Status.OK := c3
    obtain ⟨r2', h2'⟩ := process_loop_total ks
      (b + (with_io r1.2.1 r1.2.2.1 (r1.2.1.output_pos + a)).subsample_count)
      (with_io r1.2.1 r1.2.2.1 (r1.2.1.output_pos + a)) b r1.2.2.1 [] hcB (le_refl _)
    have hp2 := process_of_loop ks (with_io r1.2.1 r1.2.2.1 (r1.2.1.output_pos + a)) b _ r2' hcB h2'
    rw [process_loop_with_io ks _ r1.2.1 b _ _ _ _ c3] at h2'
    cases hl : process_loop ks
        (b + (with_io r1.2.1 r1.2.2.1 (r1.2.1.output_pos + a)).subsample_count) r1.2.1 b
        r1.2.2.1 [] with
    | none => rw [hl] at h2'; simp at h2'
    | some r2 =>
      rw [hl] at h2'
      simp only [Option.map_some', Option.some.injEq] at h2'
      obtain ⟨d1, d2, d3⟩ := process_loop_cursors ks _ r1.2.1 b _ _ r2 c3 hl
      have hld := process_loop_dest ks
        (b + (with_io r1.2.1 r1.2.2.1 (r1.2.1.output_pos + a)).subsample_count) r1.2.1 b r1.2.2.1
        r1.2.2.2 c3
      rw [hl] at hld
      simp only [Option.map_some'] at hld
      obtain ⟨f3, h3⟩ := s2 hr1 _ _ hld
      have hp3 := process_of_loop ks st (a + b) f3 _ hc h3
      simp only [] at hp3
      have htw : process_twice ks st a b =
          (mp4_decrypt_process ks (with_io r1.2.1 r1.2.2.1 (r1.2.1.output_pos + a)) b).map
            (fun r => (r.1, r.2.1, r1.2.2.2 ++ r.2.2)) := by
        unfold process_twice
        rw [hp1]
        simp only []
        cases mp4_decrypt_process ks (with_io r1.2.1 r1.2.2.1 (r1.2.1.output_pos + a)) b with
        | none => rfl
        | some x => rfl
      rw [htw, hp2, ← h2']
      simp only []
      by_cases hr2 : r2.1 = Status.OK
      · rw [if_pos hr2] at hp3 ⊢
        refine ⟨_, _, _, _, hp3, rfl, ⟨_, _, rfl⟩, fun _ => ?_, d3⟩
        simp only [with_io, d2, c2, Nat.add_assoc]
      · rw [if_neg hr2] at hp3 ⊢
        refine ⟨_, _, _, _, hp3, rfl, ⟨_, _, rfl⟩, fun h => absurd h hr2, d3⟩
  · rw [if_neg hr1] at hp1
    obtain ⟨f3, h3⟩ := s1 hr1
    have hp3 := process_of_loop ks st (a + b) f3 _ hc h3
    rw [if_neg hr1] at hp3
    have htw : process_twice ks st a b = some (r1.1, r1.2.1, r1.2.2.2) := by
      unfold process_twice
      rw [hp1]
      obtain ⟨rc, x⟩ := r1
      cases rc <;> first | exact absurd rfl hr1 | rfl
    exact ⟨_, _, _, _, hp3, htw, ⟨r1.2.1.input, r1.2.1.output_pos, rfl⟩, fun h => absurd h hr1, c3⟩

/-! ## The transform applied twice -/

theorem keystream_xor_involutive (ks : Keystream) (key iv : List Nat) (xs : List Nat) :
    ∀ p : Nat, keystream_xor ks key iv p (keystream_xor ks key iv p xs) = xs := by
  induction xs with
  | nil => intro p; rfl
  | cons x xs ih =>
    intro p
    simp only [keystream_xor, Nat.xor_cancel_right, ih]

theorem next_subsample_with_fed (st : DecryptState) (g : List Nat) :
    next_subsample (with_fed st g) = ((next_subsample st).1, with_fed (next_subsample st).2 g) := by
  unfold next_subsample with_fed
  simp only []
  split
  · split
    · rfl
    · split <;> rfl
  · rfl

/-- One pass over the bytes that the same pass wrote gives the input bytes back. -/
theorem pass_result_involution (ks : Keystream) (st : DecryptState) (n : Nat)
    (src rest g : List Nat) (hc : st.cipher.process_rc = Status.OK) (hn : n ≤ src.length) :
    pass_result ks (with_fed st g) n ((pass_result ks st n src []).2.2.2 ++ rest) [] =
      (with_fed (pass_result ks st n src []).1
          (g ++ keystream_xor ks st.cipher.key st.cipher.iv st.cipher.pos
            ((src.drop (min st.clear_bytes n)).take
              (min st.encrypted_bytes (n - min st.clear_bytes n)))),
        (pass_result ks st n src []).2.1, rest,
        src.take (min st.clear_bytes n + min st.encrypted_bytes (n - min st.clear_bytes n))) ∧
    (pass_result ks st n src []).2.2.2.length =
      min st.clear_bytes n + min st.encrypted_bytes (n - min st.clear_bytes n) ∧
    (pass_result ks st n src []).2.1 ≤ (pass_result ks st n src []).2.2.1.length := by
  have hc2 : (with_fed st g).cipher.process_rc = Status.OK := hc
  generalize hcdef : min st.clear_bytes n = c
  generalize hedef : min st.encrypted_bytes (n - c) = e
  have hcl : (src.take c).length = c := by rw [List.length_take]; omega
  have hxl : ((src.drop c).take e).length = e := by
    rw [List.length_take, List.length_drop]; omega
  have hkl : (keystream_xor ks st.cipher.key st.cipher.iv st.cipher.pos
      ((src.drop c).take e)).length = e := by
    rw [keystream_xor_length, hxl]
  have hcA : (with_fed st g).clear_bytes = st.clear_bytes := rfl
  have heA : (with_fed st g).encrypted_bytes = st.encrypted_bytes := rfl
  have t1 : ((src.take c ++ keystream_xor ks st.cipher.key st.cipher.iv st.cipher.pos
      ((src.drop c).take e)) ++ rest).take c = src.take c := by
    rw [List.append_assoc, List.take_append_of_le_length (by omega), List.take_of_length_le (by omega)]
  have t2 : ((src.take c ++ keystream_xor ks st.cipher.key st.cipher.iv st.cipher.pos
      ((src.drop c).take e)) ++ rest).drop c =
      keystream_xor ks st.cipher.key st.cipher.iv st.cipher.pos ((src.drop c).take e) ++ rest := by
    rw [List.append_assoc, List.drop_append_of_le_length (by omega), List.drop_of_length_le (by omega)]
    rfl
  have t3 : (keystream_xor ks st.cipher.key st.cipher.iv st.cipher.pos ((src.drop c).take e) ++
      rest).take e =
      keystream_xor ks st.cipher.key st.cipher.iv st.cipher.pos ((src.drop c).take e) := by
    rw [List.take_append_of_le_length (by omega), List.take_of_length_le (by omega)]
  have t4 : (keystream_xor ks st.cipher.key st.cipher.iv st.cipher.pos ((src.drop c).take e) ++
      rest).drop e = rest := by
    rw [List.drop_append_of_le_length (by omega), List.drop_of_length_le (by omega)]
    rfl
  refine ⟨?_, ?_, ?_⟩
  · simp only [pass_result, hcA, heA, hcdef, hedef, cipher_process_ok ks _ _ hc,
      cipher_process_ok ks _ _ hc2, List.nil_append, t1, t2, t3, t4]
    simp only [with_fed, keystream_xor_involutive, hkl, hxl, List.take_add, Prod.mk.injEq,
      and_true]
  · simp only [pass_result, hcdef, hedef, cipher_process_ok ks _ _ hc, List.nil_append,
      List.length_append, hcl, hkl]
  · simp only [pass_result, hcdef, hedef, List.length_drop]
    omega

theorem process_loop_dest_some (ks : Keystream) (f : Nat) (st : DecryptState) (n : Nat)
    (src dest : List Nat) (r : Status × DecryptState × List Nat × List Nat)
    (hc : st.cipher.process_rc = Status.OK) (h : process_loop ks f st n src dest = some r) :
    ∃ r0, process_loop ks f st n src [] = some r0 ∧
      r = (r0.1, r0.2.1, r0.2.2.1, dest ++ r0.2.2.2) := by
  rw [process_loop_dest ks f st n src dest hc] at h
  cases h0 : process_loop ks f st n src [] with
  | none => rw [h0] at h; simp at h
  | some r0 =>
    rw [h0] at h
    simp only [Option.map_some', Option.some.injEq] at h
    exact ⟨r0, rfl, h.symm⟩

/-- Running the loop over the bytes that a run of the loop wrote gives the same status
and counters and writes the input bytes of the first run. -/
theorem process_loop_involution (ks : Keystream) (f : Nat) :
    ∀ (st : DecryptState) (n : Nat) (src rest g : List Nat)
      (r : Status × DecryptState × List Nat × List Nat),
      st.cipher.process_rc = Status.OK → n ≤ src.length →
      process_loop ks f st n src [] = some r →
      (∃ g2 src2, process_loop ks f (with_fed st g) n (r.2.2.2 ++ rest) [] =
          some (r.1, with_fed r.2.1 g2, src2, src.take r.2.2.2.length)) ∧
        (r.1 = Status.OK → r.2.2.2.length = n) := by
  induction f with
  | zero =>
    intro st n src rest g r _ _ h
    cases n with
    | zero =>
      rw [process_loop_zero] at h
      simp only [Option.some.injEq] at h
      subst h
      exact ⟨⟨g, rest, by simp [process_loop_zero]⟩, fun _ => rfl⟩
    | succ n => simp [process_loop] at h
  | succ f ih =>
    intro st n src rest g r hc hn h
    cases n with
    | zero =>
      rw [process_loop_zero] at h
      simp only [Option.some.injEq] at h
      subst h
      exact ⟨⟨g, rest, by simp [process_loop_zero]⟩, fun _ => rfl⟩
    | succ n =>
      cases hns : next_subsample st with
      | mk rc st1 =>
        have hns2 : next_subsample (with_fed st g) = (rc, with_fed st1 g) := by
          rw [next_subsample_with_fed, hns]
        have hc1 : st1.cipher.process_rc = Status.OK := by
          rw [next_subsample_rc_cipher st st1 _ hns]; exact hc
        by_cases hrc : rc = Status.OK
        · subst hrc
          rw [process_loop_pass ks _ _ _ _ _ _ hns hc] at h
          have hcp : (pass_result ks st1 (n + 1) src []).1.cipher.process_rc = Status.OK := by
            rw [pass_result_cipher_rc]; exact hc1
          obtain ⟨r0, h0, hr⟩ := process_loop_dest_some ks f _ _ _ _ r hcp h
          obtain ⟨p1, p2, p3⟩ := pass_result_involution ks st1 (n + 1) src (r0.2.2.2 ++ rest) g hc1 hn
          have hsl : (pass_result ks st1 (n + 1) src []).2.2.1.length = 
              src.length - (min st1.clear_bytes (n + 1) +
                min st1.encrypted_bytes (n + 1 - min st1.clear_bytes (n + 1))) := by
            simp only [pass_result, List.length_drop]
            omega
          obtain ⟨⟨g2, src2, i1⟩, i2⟩ := ih _ _ _ rest
            (g ++ keystream_xor ks st1.cipher.key st1.cipher.iv st1.cipher.pos
              ((src.drop (min st1.clear_bytes (n + 1))).take
                (min st1.encrypted_bytes (n + 1 - min st1.clear_bytes (n + 1))))) r0 hcp p3 h0
          have hsrc : (pass_result ks st1 (n + 1) src []).2.2.1 =
              src.drop (min st1.clear_bytes (n + 1) +
                min st1.encrypted_bytes (n + 1 - min st1.clear_bytes (n + 1))) := by
            simp only [pass_result, List.drop_drop]
          constructor
          · refine ⟨g2, src2, ?_⟩
            rw [process_loop_pass ks _ _ _ _ _ _ hns2 hc, hr]
            simp only []
            rw [List.append_assoc, p1]
            simp only []
            rw [process_loop_dest ks f _ _ _ _ (by exact hcp), i1]
            simp only [Option.map_some', List.length_append, p2, hsrc]
            simp only [List.take_add]
          · intro hok
            rw [hr] at hok ⊢
            simp only [List.length_append, p2, i2 hok]
            simp only [pass_result]
            omega
        · rw [process_loop_fail ks _ _ _ _ _ _ _ hns hrc] at h
          simp only [Option.some.injEq] at h
          subst h
          exact ⟨⟨g, rest, by
            rw [process_loop_fail ks _ _ _ _ _ _ _ hns2 hrc]; simp⟩, fun h => absurd h hrc⟩

/-- The transform applied to its own output, from the same state: the status is the
same and the bytes written are the input bytes of the first run. -/
theorem process_involution (ks : Keystream) (st : DecryptState) (plain : List Nat)
    (hc : st.cipher.process_rc = Status.OK) :
    ∃ rc stE ct stD,
      mp4_decrypt_process ks (with_io st plain st.output_pos) plain.length = some (rc, stE, ct) ∧
      mp4_decrypt_process ks (with_io st ct st.output_pos) plain.length =
        some (rc, stD, plain.take ct.length) ∧
      (rc = Status.OK → ct.length = plain.length) := by
  have hcE : (with_io st plain st.output_pos).cipher.process_rc = Status.OK := hc
  obtain ⟨r, hr⟩ := process_loop_total ks
    (plain.length + (with_io st plain st.output_pos).subsample_count)
    (with_io st plain st.output_pos) plain.length plain [] hcE (le_refl _)
  have hpE := process_of_loop ks (with_io st plain st.output_pos) plain.length _ r hcE hr
  obtain ⟨⟨g2, src2, hinv⟩, hlen⟩ := process_loop_involution ks _ _ _ _ []
    (with_io st plain st.output_pos).cipher.fed r hcE (le_refl _) hr
  have hfed : with_fed (with_io st plain st.output_pos)
      (with_io st plain st.output_pos).cipher.fed = with_io st plain st.output_pos := rfl
  rw [hfed, List.append_nil] at hinv
  have hio := process_loop_with_io ks
    (plain.length + (with_io st plain st.output_pos).subsample_count)
    (with_io st plain st.output_pos) plain.length r.2.2.2 [] r.2.2.2 st.output_pos hcE
  rw [hinv] at hio
  simp only [Option.map_some'] at hio
  have hD : with_io (with_io st plain st.output_pos) r.2.2.2 st.output_pos =
      with_io st r.2.2.2 st.output_pos := rfl
  rw [hD] at hio
  have hcD : (with_io st r.2.2.2 st.output_pos).cipher.process_rc = Status.OK := hc
  have hpD := process_of_loop ks (with_io st r.2.2.2 st.output_pos) plain.length _ _ hcD hio
  simp only [] at hpD
  by_cases hok : r.1 = Status.OK
  · rw [if_pos hok] at hpE hpD
    exact ⟨_, _, _, _, hpE, hpD, fun _ => hlen hok⟩
  · rw [if_neg hok] at hpE hpD
    exact ⟨_, _, _, _, hpE, hpD, fun h => absurd h hok⟩

/-- C4: with the cipher an exclusive or with a keystream given by key, IV and the
number of bytes processed since the IV was set: when `start_frame` followed by the
transform of the plaintext returns OK with a ciphertext, `start_frame` from the same state
(same key, same auxiliary info) followed by the transform of that ciphertext returns OK
and writes the plaintext. -/
theorem cenc_round_trip (ks : Keystream) (st0 : DecryptState) (plain ct : List Nat)
    (hc : st0.cipher.process_rc = Status.OK)
    (he : (mp4_decrypt_process ks
      (with_io (mp4_decrypt_start_frame st0).2 plain (mp4_decrypt_start_frame st0).2.output_pos)
      plain.length).map (fun r => (r.1, r.2.2)) = some (Status.OK, ct)) :
    ct.length = plain.length ∧
      (mp4_decrypt_process ks
        (with_io (mp4_decrypt_start_frame st0).2 ct (mp4_decrypt_start_frame st0).2.output_pos)
        plain.length).map (fun r => (r.1, r.2.2)) = some (Status.OK, plain) := by
  have hc1 : (mp4_decrypt_start_frame st0).2.cipher.process_rc = Status.OK := by
    unfold mp4_decrypt_start_frame
    simp only [Cipher.set_iv]
    split
    · exact hc
    · split
      · exact hc
      · split
        · exact hc
        · split
          · exact hc
          · split <;> exact hc
  obtain ⟨rc, stE2, ct2, stD, h1, h2, h3⟩ :=
    process_involution ks (mp4_decrypt_start_frame st0).2 plain hc1
  rw [h1] at he
  simp only [Option.map_some', Option.some.injEq, Prod.mk.injEq] at he
  obtain ⟨rfl, rfl⟩ := he
  have hl := h3 rfl
  refine ⟨hl, ?_⟩
  rw [h2, hl, List.take_length]
  rfl

theorem cenc_round_trip_witness :
    (mp4_decrypt_process sample_keystream
        (with_io (mp4_decrypt_start_frame (sample_decrypt [])).2
          [1, 2, 3, 4, 5, 6, 7, 8, 9, 10, 11, 12]
          (mp4_decrypt_start_frame (sample_decrypt [])).2.output_pos)
        [1, 2, 3, 4, 5, 6, 7, 8, 9, 10, 11, 12].length).map (fun r => (r.1, r.2.2)) =
      some (Status.OK, [1, 2, 108, 114, 120, 6, 7, 8, 9, 142, 128, 158]) ∧
    [1, 2, 108, 114, 120, 6, 7, 8, 9, 142, 128, 158].length =
      [1, 2, 3, 4, 5, 6, 7, 8, 9, 10, 11, 12].length ∧
    (mp4_decrypt_process sample_keystream
        (with_io (mp4_decrypt_start_frame (sample_decrypt [])).2
          [1, 2, 108, 114, 120, 6, 7, 8, 9, 142, 128, 158]
          (mp4_decrypt_start_frame (sample_decrypt [])).2.output_pos)
        [1, 2, 3, 4, 5, 6, 7, 8, 9, 10, 11, 12].length).map (fun r => (r.1, r.2.2)) =
      some (Status.OK, [1, 2, 3, 4, 5, 6, 7, 8, 9, 10, 11, 12]) :=
  ⟨by decide,
    cenc_round_trip sample_keystream (sample_decrypt []) [1, 2, 3, 4, 5, 6, 7, 8, 9, 10, 11, 12]
      [1, 2, 108, 114, 120, 6, 7, 8, 9, 142, 128, 158] (by decide) (by decide)⟩

/-! ## Clear and encrypted spans -/

theorem encrypted_bytes_of_nil (sp : List (Nat × Nat)) : encrypted_bytes_of sp [] = [] := by
  induction sp with
  | nil => rfl
  | cons x sp ih =>
    obtain ⟨c, e⟩ := x
    simp [encrypted_bytes_of, ih]

/-- After the reading step the declared spans are the same, up to a finished (empty)
subsample in front. -/
theorem next_subsample_spans (st st1 : DecryptState)
    (h : next_subsample st = (Status.OK, st1)) :
    spans st1 = spans st ∨ spans st = (0, 0) :: spans st1 := by
  unfold next_subsample at h
  split at h
  · rename_i hz
    split at h
    · simp at h
    · rename_i hcnt
      split at h
      · simp at h
      · rename_i hfit
        simp only [Prod.mk.injEq, true_and] at h
        right
        obtain ⟨k, hk⟩ : ∃ k, st.subsample_count = k + 1 := ⟨st.subsample_count - 1, by omega⟩
        have hc0 : st.clear_bytes = 0 := by omega
        have he0 : st.encrypted_bytes = 0 := by omega
        rw [← h]
        simp only [spans, hk, parse_spans, hfit, if_false, hc0, he0, Nat.add_sub_cancel]
  · simp only [Prod.mk.injEq, true_and] at h
    left; rw [h]

theorem in_clear_span_zero (sp : List (Nat × Nat)) (i : Nat) :
    in_clear_span ((0, 0) :: sp) i = in_clear_span sp i := by
  simp [in_clear_span]

theorem encrypted_bytes_of_zero (sp : List (Nat × Nat)) (input : List Nat) :
    encrypted_bytes_of ((0, 0) :: sp) input = encrypted_bytes_of sp input := by
  simp [encrypted_bytes_of]

/-- The spans after a pass that took `c` clear and `e` encrypted bytes. -/
theorem in_clear_span_shift (rest : List (Nat × Nat)) (clear enc c e j : Nat)
    (hc : c ≤ clear) (he : e ≤ enc) (hce : c < clear → e = 0) :
    in_clear_span ((clear - c, enc - e) :: rest) j =
      in_clear_span ((clear, enc) :: rest) (j + (c + e)) := by
  simp only [in_clear_span]
  by_cases h1 : j < clear - c
  · have : j + (c + e) < clear := by
      by_cases h : c < clear
      · rw [hce h]; omega
      · omega
    simp [h1, this]
  · have h1' : ¬ j + (c + e) < clear := by omega
    by_cases h2 : j < clear - c + (enc - e)
    · have : j + (c + e) < clear + enc := by
        by_cases h : c < clear
        · rw [hce h]; omega
        · omega
      simp [h1, h1', h2, this]
    · have h2' : ¬ j + (c + e) < clear + enc := by
        by_cases h : c < clear
        · have := hce h; omega
        · omega
      simp only [h1, h1', h2, h2', if_false]
      congr 1
      by_cases h : c < clear
      · have := hce h; omega
      · omega

/-- The encrypted-span bytes among the first `c + e + m` input bytes, when a pass took
`c` clear and `e` encrypted bytes and `m` more bytes followed. -/
theorem encrypted_bytes_of_step (rest : List (Nat × Nat)) (clear enc c e m : Nat)
    (src : List Nat) (hc : c ≤ clear) (he : e ≤ enc)
    (hfull : 0 < m → c = clear ∧ e = enc) (hce : c < clear → e = 0) :
    encrypted_bytes_of ((clear, enc) :: rest) (src.take (c + e + m)) =
      (src.drop c).take e ++
        encrypted_bytes_of ((clear - c, enc - e) :: rest) ((src.drop (c + e)).take m) := by
  by_cases hm : 0 < m
  · obtain ⟨rfl, rfl⟩ := hfull hm
    have e1 : min e (c + e + m - c) = e := by omega
    have e2 : c + e + m - c - e = m := by omega
    simp [encrypted_bytes_of, List.drop_take, List.take_take, e1, e2]
  · have hm0 : m = 0 := by omega
    subst hm0
    by_cases hcl : c < clear
    · have := hce hcl
      subst this
      have e1 : c - clear = 0 := by omega
      simp [encrypted_bytes_of, List.drop_take, List.take_take, e1, encrypted_bytes_of_nil]
    · have hceq : c = clear := by omega
      subst hceq
      have e1 : min enc e = e := by omega
      have e2 : e - enc = 0 := by omega
      simp [encrypted_bytes_of, List.drop_take, List.take_take, e1, e2, encrypted_bytes_of_nil]

theorem process_loop_zero_size_dest (ks : Keystream) (f : Nat) (st : DecryptState)
    (src : List Nat) (r : Status × DecryptState × List Nat × List Nat)
    (h : process_loop ks f st 0 src [] = some r) : r.2.2.2 = [] ∧ r.2.1 = st := by
  rw [process_loop_zero] at h
  simp only [Option.some.injEq] at h
  rw [← h]
  exact ⟨rfl, rfl⟩

theorem pass_result_spans (ks : Keystream) (st : DecryptState) (n : Nat) (src dest : List Nat) :
    spans (pass_result ks st n src dest).1 =
      (st.clear_bytes - min st.clear_bytes n,
        st.encrypted_bytes - min st.encrypted_bytes (n - min st.clear_bytes n)) ::
        parse_spans st.auxiliary_info st.auxiliary_info_end st.subsample_count
          st.auxiliary_info_pos := rfl

/-- The bytes written in clear spans are the input bytes, and the cipher is handed
exactly the bytes of the encrypted spans, in order. -/
theorem process_loop_spans (ks : Keystream) (f : Nat) :
    ∀ (st : DecryptState) (n : Nat) (src : List Nat)
      (r : Status × DecryptState × List Nat × List Nat),
      st.cipher.process_rc = Status.OK → n ≤ src.length →
      process_loop ks f st n src [] = some r →
      (∀ i, i < r.2.2.2.length → in_clear_span (spans st) i = true →
          r.2.2.2.getD i 0 = src.getD i 0) ∧
        r.2.1.cipher.fed =
          st.cipher.fed ++ encrypted_bytes_of (spans st) (src.take r.2.2.2.length) ∧
        r.2.1.cipher.pos =
          st.cipher.pos + (encrypted_bytes_of (spans st) (src.take r.2.2.2.length)).length := by
  induction f with
  | zero =>
    intro st n src r _ _ h
    cases n with
    | zero =>
      obtain ⟨h1, h2⟩ := process_loop_zero_size_dest ks 0 st src r h
      simp [h1, h2, encrypted_bytes_of_nil]
    | succ n => simp [process_loop] at h
  | succ f ih =>
    intro st n src r hc hn h
    cases n with
    | zero =>
      obtain ⟨h1, h2⟩ := process_loop_zero_size_dest ks _ st src r h
      simp [h1, h2, encrypted_bytes_of_nil]
    | succ n =>
      cases hns : next_subsample st with
      | mk rc st1 =>
        by_cases hrc : rc = Status.OK
        · subst hrc
          have hc1 : st1.cipher.process_rc = Status.OK := by
            rw [next_subsample_rc_cipher st st1 _ hns]; exact hc
          have hciph : st1.cipher = st.cipher := by
            have := next_subsample_cipher st
            rw [hns] at this
            exact this
          -- the spans of `st` and of `st1` classify alike
          have hsp : (∀ i, in_clear_span (spans st) i = in_clear_span (spans st1) i) ∧
              (∀ l, encrypted_bytes_of (spans st) l = encrypted_bytes_of (spans st1) l) := by
            rcases next_subsample_spans st st1 hns with hs | hs
            · rw [hs]; exact ⟨fun _ => rfl, fun _ => rfl⟩
            · rw [hs]; exact ⟨in_clear_span_zero _, encrypted_bytes_of_zero _⟩
          rw [process_loop_pass ks _ _ _ _ _ _ hns hc] at h
          have hcp : (pass_result ks st1 (n + 1) src []).1.cipher.process_rc = Status.OK := by
            rw [pass_result_cipher_rc]; exact hc1
          obtain ⟨r0, h0, hr⟩ := process_loop_dest_some ks f _ _ _ _ r hcp h
          obtain ⟨_, p2, p3⟩ := pass_result_involution ks st1 (n + 1) src [] [] hc1 hn
          generalize hcdef : min st1.clear_bytes (n + 1) = c at p2
          generalize hedef : min st1.encrypted_bytes (n + 1 - c) = e at p2
          have hsrc : (pass_result ks st1 (n + 1) src []).2.2.1 = src.drop (c + e) := by
            simp only [pass_result, List.drop_drop, hcdef, hedef]
          have hsz : (pass_result ks st1 (n + 1) src []).2.1 = n + 1 - c - e := by
            simp only [pass_result, hcdef, hedef]
          have hpd : (pass_result ks st1 (n + 1) src []).2.2.2 =
              src.take c ++ keystream_xor ks st1.cipher.key st1.cipher.iv st1.cipher.pos
                ((src.drop c).take e) := by
            simp only [pass_result, hcdef, hedef, cipher_process_ok ks _ _ hc1, List.nil_append]
          have hpf : (pass_result ks st1 (n + 1) src []).1.cipher.fed =
              st1.cipher.fed ++ (src.drop c).take e := by
            simp only [pass_result, hcdef, hedef, cipher_process_ok ks _ _ hc1]
          have hpp : (pass_result ks st1 (n + 1) src []).1.cipher.pos =
              st1.cipher.pos + ((src.drop c).take e).length := by
            simp only [pass_result, hcdef, hedef, cipher_process_ok ks _ _ hc1]
          have hps := pass_result_spans ks st1 (n + 1) src []
          rw [hcdef, hedef] at hps
          obtain ⟨i1, i2, i3⟩ := ih _ _ _ r0 hcp p3 h0
          rw [hsrc, hps] at i1 i2 i3
          have hcle : c ≤ st1.clear_bytes := by omega
          have hele : e ≤ st1.encrypted_bytes := by omega
          have hce : c < st1.clear_bytes → e = 0 := by intro; omega
          have hfull : 0 < r0.2.2.2.length → c = st1.clear_bytes ∧ e = st1.encrypted_bytes := by
            intro hpos
            by_contra hnot
            have hz : (pass_result ks st1 (n + 1) src []).2.1 = 0 := by rw [hsz]; omega
            rw [hz] at h0
            have := (process_loop_zero_size_dest ks f _ _ r0 h0).1
            rw [this] at hpos
            simp at hpos
          have hcl : (src.take c).length = c := by rw [List.length_take]; omega
          have hstep := encrypted_bytes_of_step
            (parse_spans st1.auxiliary_info st1.auxiliary_info_end st1.subsample_count
              st1.auxiliary_info_pos) st1.clear_bytes st1.encrypted_bytes c e r0.2.2.2.length src
            hcle hele hfull hce
          have hspans1 : spans st1 = (st1.clear_bytes, st1.encrypted_bytes) ::
              parse_spans st1.auxiliary_info st1.auxiliary_info_end st1.subsample_count
                st1.auxiliary_info_pos := rfl
          have hrd : r.2.2.2 = (src.take c ++ keystream_xor ks st1.cipher.key st1.cipher.iv
              st1.cipher.pos ((src.drop c).take e)) ++ r0.2.2.2 := by
            rw [hr, hpd]
          have hrl : r.2.2.2.length = c + e + r0.2.2.2.length := by
            rw [hr]; simp only [List.length_append, p2]
          have hrs : r.2.1 = r0.2.1 := by rw [hr]
          rw [hrs, hrl]
          refine ⟨?_, ?_, ?_⟩
          · intro i hi hclear
            rw [hsp.1 i, hspans1] at hclear
            rw [hrd]
            by_cases hic : i < c
            · rw [List.append_assoc, List.getD_append _ _ _ _ (by omega)]
              simp only [List.getD_eq_getElem?_getD, List.getElem?_take_of_lt hic]
            · by_cases hie : i < c + e
              · exfalso
                have hceq : c = st1.clear_bytes := by
                  by_contra hne
                  have := hce (by omega)
                  omega
                simp only [in_clear_span] at hclear
                have h1 : ¬ i < st1.clear_bytes := by omega
                have h2 : i < st1.clear_bytes + st1.encrypted_bytes := by omega
                simp [h1, h2] at hclear
              · have hj : i - (c + e) + (c + e) = i := by omega
                rw [List.getD_append_right _ _ _ _ (by
                  rw [List.length_append, hcl, keystream_xor_length, List.length_take,
                    List.length_drop]; omega)]
                have hlen : (src.take c ++ keystream_xor ks st1.cipher.key st1.cipher.iv
                    st1.cipher.pos ((src.drop c).take e)).length = c + e := by
                  rw [← hpd]; exact p2
                rw [hlen]
                have := i1 (i - (c + e)) (by omega) (by
                  rw [in_clear_span_shift _ _ _ _ _ _ hcle hele hce, hj]; exact hclear)
                rw [this]
                simp only [List.getD_eq_getElem?_getD, List.getElem?_drop]
                congr 2; omega
          · rw [i2, hpf, hsp.2, hspans1, hstep, hciph, List.append_assoc]
          · rw [i3, hpp, hsp.2, hspans1, hstep, hciph, List.length_append]
            omega
        · rw [process_loop_fail ks _ _ _ _ _ _ _ hns hrc] at h
          simp only [Option.some.injEq] at h
          subst h
          have hciph : st1.cipher = st.cipher := by
            have := next_subsample_cipher st
            rw [hns] at this
            exact this
          simp [encrypted_bytes_of_nil, hciph]

/-- A reading step that fails returns `VOD_BAD_DATA`, and then no declared byte is left. -/
theorem next_subsample_exhausted (st st1 : DecryptState) (rc : Status)
    (h : next_subsample st = (rc, st1)) (hrc : rc ≠ Status.OK) :
    rc = Status.BAD_DATA ∧ spans_total (spans st) = 0 := by
  unfold next_subsample at h
  split at h
  · rename_i hz
    have hc0 : st.clear_bytes = 0 := by omega
    have he0 : st.encrypted_bytes = 0 := by omega
    split at h
    · rename_i hcnt
      simp only [Prod.mk.injEq] at h
      refine ⟨h.1.symm, ?_⟩
      have : st.subsample_count = 0 := by omega
      simp [spans, spans_total, parse_spans, this, hc0, he0]
    · rename_i hcnt
      split at h
      · rename_i hfit
        simp only [Prod.mk.injEq] at h
        refine ⟨h.1.symm, ?_⟩
        obtain ⟨k, hk⟩ : ∃ k, st.subsample_count = k + 1 := ⟨st.subsample_count - 1, by omega⟩
        simp [spans, spans_total, parse_spans, hk, hfit, hc0, he0]
      · simp only [Prod.mk.injEq] at h
        exact absurd h.1.symm hrc
  · simp only [Prod.mk.injEq] at h
    exact absurd h.1.symm hrc

theorem next_subsample_total (st st1 : DecryptState)
    (h : next_subsample st = (Status.OK, st1)) :
    spans_total (spans st1) = spans_total (spans st) := by
  rcases next_subsample_spans st st1 h with e | e
  · rw [e]
  · rw [e]; simp [spans_total]

/-- With a cipher that succeeds the loop writes as many bytes as were asked for, or as
the spans declare when that is less, and it returns OK exactly in the first case. -/
theorem process_loop_length (ks : Keystream) (f : Nat) :
    ∀ (st : DecryptState) (n : Nat) (src dest : List Nat)
      (r : Status × DecryptState × List Nat × List Nat),
      st.cipher.process_rc = Status.OK → n ≤ src.length →
      process_loop ks f st n src dest = some r →
      (r.1 = Status.OK ∨ r.1 = Status.BAD_DATA) ∧
        (r.1 = Status.OK ↔ n ≤ spans_total (spans st)) ∧
        r.2.2.2.length = dest.length + min n (spans_total (spans st)) := by
  induction f with
  | zero =>
    intro st n src dest r _ _ h
    cases n with
    | zero =>
      rw [process_loop_zero] at h
      simp only [Option.some.injEq] at h
      rw [← h]
      exact ⟨Or.inl rfl, ⟨fun _ => Nat.zero_le _, fun _ => rfl⟩, by simp⟩
    | succ n => simp [process_loop] at h
  | succ f ih =>
    intro st n src dest r hc hn h
    cases n with
    | zero =>
      rw [process_loop_zero] at h
      simp only [Option.some.injEq] at h
      rw [← h]
      exact ⟨Or.inl rfl, ⟨fun _ => Nat.zero_le _, fun _ => rfl⟩, by simp⟩
    | succ n =>
      cases hns : next_subsample st with
      | mk rc st1 =>
        by_cases hrc : rc = Status.OK
        · subst hrc
          have hc1 := next_subsample_rc_cipher st st1 _ hns
          have ht := next_subsample_total st st1 hns
          rw [process_loop_pass ks _ _ _ _ _ _ hns hc] at h
          have hco := cipher_process_ok ks st1.cipher
            ((src.drop (min st1.clear_bytes (n + 1))).take
              (min st1.encrypted_bytes (n + 1 - min st1.clear_bytes (n + 1))))
            (by rw [hc1]; exact hc)
          obtain ⟨i1, i2, i3⟩ := ih _ _ _ _ r
            (by rw [pass_result_cipher_rc, hc1]; exact hc)
            (by simp only [pass_result, List.length_drop]; omega) h
          have hsp : spans_total (spans (pass_result ks st1 (n + 1) src dest).1) +
              min st1.clear_bytes (n + 1) +
              min st1.encrypted_bytes (n + 1 - min st1.clear_bytes (n + 1)) =
              spans_total (spans st1) := by
            rw [pass_result_spans]
            simp only [spans_total, spans]
            omega
          have hsz : (pass_result ks st1 (n + 1) src dest).2.1 =
              n + 1 - min st1.clear_bytes (n + 1) -
                min st1.encrypted_bytes (n + 1 - min st1.clear_bytes (n + 1)) := rfl
          have hdl : (pass_result ks st1 (n + 1) src dest).2.2.2.length =
              dest.length + min st1.clear_bytes (n + 1) +
                min st1.encrypted_bytes (n + 1 - min st1.clear_bytes (n + 1)) := by
            simp only [pass_result, hco, List.length_append, List.length_take,
              List.length_drop, keystream_xor_length]
            omega
          rw [hsz] at i2 i3
          rw [hdl] at i3
          rw [← ht]
          refine ⟨i1, ?_, ?_⟩
          · rw [i2]
            constructor <;> intro hh <;> omega
          · rw [i3]
            omega
        · obtain ⟨e1, e2⟩ := next_subsample_exhausted st st1 rc hns hrc
          rw [process_loop_fail ks _ _ _ _ _ _ _ hns hrc] at h
          simp only [Option.some.injEq] at h
          rw [← h, e2]
          refine ⟨Or.inr e1, ?_, by simp⟩
          simp only []
          constructor
          · intro hh; exact absurd hh hrc
          · intro hh; omega

/-- C5: with a cipher that succeeds, for every state, input and size, and every split of
the size into two calls: the transform returns OK exactly when the declared spans cover
the size, and it writes as many bytes as were asked for (or as the spans declare, when
that is less and the status is `VOD_BAD_DATA`); a written byte whose position falls in a
declared clear span is the input byte at that position, and the bytes handed to the cipher
are exactly the bytes of the encrypted spans of the processed input, in order, the
keystream position advancing by their number. -/
theorem cenc_clear_bypass (ks : Keystream) (st : DecryptState) (n : Nat)
    (hc : st.cipher.process_rc = Status.OK) (hn : n ≤ st.input.length) :
    ∃ rc st2 w, mp4_decrypt_process ks st n = some (rc, st2, w) ∧
      (rc = Status.OK ∨ rc = Status.BAD_DATA) ∧
      (rc = Status.OK ↔ n ≤ spans_total (spans st)) ∧
      w.length = min n (spans_total (spans st)) ∧
      (rc = Status.OK → w.length = n) ∧
      (∀ i, i < w.length → in_clear_span (spans st) i = true →
        w.getD i 0 = st.input.getD i 0) ∧
      st2.cipher.fed =
        st.cipher.fed ++ encrypted_bytes_of (spans st) (st.input.take w.length) ∧
      st2.cipher.pos =
        st.cipher.pos + (encrypted_bytes_of (spans st) (st.input.take w.length)).length ∧
      (∀ a b, a + b = n →
        ∃ stB, process_twice ks st a b = some (rc, stB, w) ∧ stB.cipher = st2.cipher) := by
  obtain ⟨r, hr⟩ := process_loop_total ks (n + st.subsample_count) st n st.input [] hc (le_refl _)
  have hp := process_of_loop ks st n _ r hc hr
  obtain ⟨s1, s2, s3⟩ := process_loop_spans ks _ st n st.input r hc hn hr
  obtain ⟨l1, l2, l3⟩ := process_loop_length ks _ st n st.input [] r hc hn hr
  have l4 : r.2.2.2.length = min n (spans_total (spans st)) := by
    rw [l3]; simp
  have hsplit : ∀ rc st2, mp4_decrypt_process ks st n = some (rc, st2, r.2.2.2) →
      ∀ a b, a + b = n →
        ∃ stB, process_twice ks st a b = some (rc, stB, r.2.2.2) ∧ stB.cipher = st2.cipher := by
    intro rc st2 hpr a b hab
    obtain ⟨rc', stA, stB, w, h1, h2, ⟨i, o, h3⟩, _, _⟩ := process_split ks st a b hc
    rw [hab, hpr] at h1
    simp only [Option.some.injEq, Prod.mk.injEq] at h1
    obtain ⟨rfl, rfl, rfl⟩ := h1
    exact ⟨stB, h2, by rw [h3]; rfl⟩
  by_cases hok : r.1 = Status.OK
  · rw [if_pos hok] at hp
    have hle : n ≤ spans_total (spans st) := l2.mp hok
    exact ⟨_, _, _, hp, Or.inl rfl, ⟨fun _ => hle, fun _ => rfl⟩, l4,
      fun _ => by rw [l4]; omega, s1, s2, s3, hsplit _ _ hp⟩
  · rw [if_neg hok] at hp
    exact ⟨_, _, _, hp, l1, l2, l4, fun h => absurd h hok, s1, s2, s3, hsplit _ _ hp⟩

theorem cenc_clear_bypass_witness :
    (sample_started.cipher.process_rc = Status.OK ∧ 12 ≤ sample_started.input.length) ∧
    (spans sample_started = [(2, 3), (0, 0), (4, 3)] ∧
      (mp4_decrypt_process sample_keystream sample_started 12).map (fun r => (r.1, r.2.2)) =
        some (Status.OK, [1, 2, 3 ^^^ 111, 4 ^^^ 118, 5 ^^^ 125, 6, 7, 8, 9,
          10 ^^^ 132, 11 ^^^ 139, 12 ^^^ 146])) ∧
    ∃ rc st2 w,
      mp4_decrypt_process sample_keystream sample_started 12 = some (rc, st2, w) ∧
      (rc = Status.OK ∨ rc = Status.BAD_DATA) ∧
      (rc = Status.OK ↔ 12 ≤ spans_total (spans sample_started)) ∧
      w.length = min 12 (spans_total (spans sample_started)) ∧
      (rc = Status.OK → w.length = 12) ∧
      (∀ i, i < w.length → in_clear_span (spans sample_started) i = true →
        w.getD i 0 = sample_started.input.getD i 0) ∧
      st2.cipher.fed =
        sample_started.cipher.fed ++
          encrypted_bytes_of (spans sample_started) (sample_started.input.take w.length) ∧
      st2.cipher.pos =
        sample_started.cipher.pos +
          (encrypted_bytes_of (spans sample_started)
            (sample_started.input.take w.length)).length ∧
      (∀ a b, a + b = 12 →
        ∃ stB, process_twice sample_keystream sample_started a b = some (rc, stB, w) ∧
          stB.cipher = st2.cipher) :=
  ⟨⟨by decide, by decide⟩, ⟨by decide, by decide⟩,
    cenc_clear_bypass sample_keystream sample_started 12 (by decide) (by decide)⟩

/-! ## Claims on the decrypt source -/

/-! ## Successive reads -/

theorem next_subsample_graft (env st : DecryptState) :
    next_subsample (graft env st) = ((next_subsample st).1, graft env (next_subsample st).2) := by
  unfold next_subsample graft
  simp only []
  split
  · split
    · rfl
    · split <;> rfl
  · rfl

theorem pass_result_graft (ks : Keystream) (env st : DecryptState) (n : Nat)
    (src dest : List Nat) :
    pass_result ks (graft env st) n src dest =
      (graft env (pass_result ks st n src dest).1, (pass_result ks st n src dest).2.1,
        (pass_result ks st n src dest).2.2.1, (pass_result ks st n src dest).2.2.2) := rfl

/-- The loop reads and changes the decryption fields only. -/
theorem process_loop_graft (ks : Keystream) (f : Nat) :
    ∀ (env st : DecryptState) (n : Nat) (src dest : List Nat),
      st.cipher.process_rc = Status.OK →
      process_loop ks f (graft env st) n src dest =
        (process_loop ks f st n src dest).map
          (fun r => (r.1, graft env r.2.1, r.2.2.1, r.2.2.2)) := by
  induction f with
  | zero =>
    intro env st n src dest _
    cases n <;> rfl
  | succ f ih =>
    intro env st n src dest hc
    cases n with
    | zero => rfl
    | succ n =>
      cases hns : next_subsample st with
      | mk rc st1 =>
        have hns2 : next_subsample (graft env st) = (rc, graft env st1) := by
          rw [next_subsample_graft, hns]
        have hcg : (graft env st).cipher.process_rc = Status.OK := hc
        by_cases hrc : rc = Status.OK
        · subst hrc
          rw [process_loop_pass ks _ _ _ _ _ _ hns hc,
            process_loop_pass ks _ _ _ _ _ _ hns2 hcg, pass_result_graft]
          exact ih _ _ _ _ _
            (by rw [pass_result_cipher_rc, next_subsample_rc_cipher st st1 _ hns]; exact hc)
        · rw [process_loop_fail ks _ _ _ _ _ _ _ hns hrc,
            process_loop_fail ks _ _ _ _ _ _ _ hns2 hrc]
          rfl

theorem pass_result_extra (ks : Keystream) (st : DecryptState) (n : Nat)
    (src extra dest : List Nat) (hn : n ≤ src.length) :
    pass_result ks st n (src ++ extra) dest =
      ((pass_result ks st n src dest).1, (pass_result ks st n src dest).2.1,
        (pass_result ks st n src dest).2.2.1 ++ extra, (pass_result ks st n src dest).2.2.2) ∧
      (pass_result ks st n src dest).2.1 ≤ (pass_result ks st n src dest).2.2.1.length := by
  generalize hcdef : min st.clear_bytes n = c
  generalize hedef : min st.encrypted_bytes (n - c) = e
  have h1 : (src ++ extra).take c = src.take c := List.take_append_of_le_length (by omega)
  have h2 : (src ++ extra).drop c = src.drop c ++ extra := List.drop_append_of_le_length (by omega)
  have h3 : (src.drop c ++ extra).take e = (src.drop c).take e :=
    List.take_append_of_le_length (by rw [List.length_drop]; omega)
  have h4 : (src.drop c ++ extra).drop e = (src.drop c).drop e ++ extra :=
    List.drop_append_of_le_length (by rw [List.length_drop]; omega)
  constructor
  · simp only [pass_result, hcdef, hedef, h1, h2, h3, h4]
  · simp only [pass_result, hcdef, hedef, List.length_drop]
    omega

/-- Bytes behind the `n` bytes asked for are left untouched. -/
theorem process_loop_extra (ks : Keystream) (f : Nat) :
    ∀ (st : DecryptState) (n : Nat) (src extra dest : List Nat),
      st.cipher.process_rc = Status.OK → n ≤ src.length →
      process_loop ks f st n (src ++ extra) dest =
        (process_loop ks f st n src dest).map
          (fun r => (r.1, r.2.1, r.2.2.1 ++ extra, r.2.2.2)) := by
  induction f with
  | zero =>
    intro st n src extra dest _ _
    cases n <;> rfl
  | succ f ih =>
    intro st n src extra dest hc hn
    cases n with
    | zero => rfl
    | succ n =>
      cases hns : next_subsample st with
      | mk rc st1 =>
        by_cases hrc : rc = Status.OK
        · subst hrc
          obtain ⟨p1, p2⟩ := pass_result_extra ks st1 (n + 1) src extra dest hn
          rw [process_loop_pass ks _ _ _ _ _ _ hns hc, process_loop_pass ks _ _ _ _ _ _ hns hc,
            p1]
          exact ih _ _ _ _ _
            (by rw [pass_result_cipher_rc, next_subsample_rc_cipher st st1 _ hns]; exact hc) p2
        · rw [process_loop_fail ks _ _ _ _ _ _ _ hns hrc,
            process_loop_fail ks _ _ _ _ _ _ _ hns hrc]
          rfl

theorem process_loop_src (ks : Keystream) (f : Nat) :
    ∀ (st : DecryptState) (n : Nat) (src dest : List Nat)
      (r : Status × DecryptState × List Nat × List Nat),
      st.cipher.process_rc = Status.OK →
      process_loop ks f st n src dest = some r → r.1 = Status.OK → r.2.2.1 = src.drop n := by
  induction f with
  | zero =>
    intro st n src dest r _ h _
    cases n with
    | zero =>
      rw [process_loop_zero] at h
      simp only [Option.some.injEq] at h
      rw [← h]; rfl
    | succ n => simp [process_loop] at h
  | succ f ih =>
    intro st n src dest r hc h hok
    cases n with
    | zero =>
      rw [process_loop_zero] at h
      simp only [Option.some.injEq] at h
      rw [← h]; rfl
    | succ n =>
      cases hns : next_subsample st with
      | mk rc st1 =>
        by_cases hrc : rc = Status.OK
        · subst hrc
          rw [process_loop_pass ks _ _ _ _ _ _ hns hc] at h
          have := ih _ _ _ _ r
            (by rw [pass_result_cipher_rc, next_subsample_rc_cipher st st1 _ hns]; exact hc) h hok
          rw [this]
          simp only [pass_result, List.drop_drop]
          congr 1
          omega
        · rw [process_loop_fail ks _ _ _ _ _ _ _ hns hrc] at h
          simp only [Option.some.injEq] at h
          rw [← h] at hok
          exact absurd hok hrc

/-- The transform on a state `s` and on a state `v` with the same decryption fields
whose input is the input of `s` followed by more bytes: same status, same bytes
written, same decryption fields afterwards; `s` keeps its other fields, with the
cursors advanced when the status is OK. -/
theorem process_env (ks : Keystream) (s v : DecryptState) (n : Nat) (extra : List Nat)
    (hc : v.cipher.process_rc = Status.OK) (hg : s = graft s v)
    (hin : v.input = s.input ++ extra) (hn : extra = [] ∨ n ≤ s.input.length) :
    ∃ rc s2 v2 w, mp4_decrypt_process ks s n = some (rc, s2, w) ∧
      mp4_decrypt_process ks v n = some (rc, v2, w) ∧
      (rc = Status.OK →
        s2 = graft (with_io s (s.input.drop n) (s.output_pos + n)) v2 ∧
          v2.input = s2.input ++ extra) ∧
      (rc ≠ Status.OK → s2 = graft s v2) ∧ v2.cipher.process_rc = Status.OK := by
  obtain ⟨rv, hrv⟩ := process_loop_total ks (n + v.subsample_count) v n v.input [] hc (le_refl _)
  have hpv := process_of_loop ks v n _ rv hc hrv
  obtain ⟨_, _, cv3⟩ := process_loop_cursors ks _ v n _ _ rv hc hrv
  have hex : process_loop ks (n + v.subsample_count) v n (s.input ++ extra) [] =
      (process_loop ks (n + v.subsample_count) v n s.input []).map
        (fun r => (r.1, r.2.1, r.2.2.1 ++ extra, r.2.2.2)) := by
    rcases hn with hn | hn
    · subst hn
      simp only [List.append_nil]
      cases process_loop ks (n + v.subsample_count) v n s.input [] <;> rfl
    · exact process_loop_extra ks _ v n s.input extra [] hc hn
  rw [hin, hex] at hrv
  cases hl : process_loop ks (n + v.subsample_count) v n s.input [] with
  | none => rw [hl] at hrv; simp at hrv
  | some r =>
    rw [hl] at hrv
    simp only [Option.map_some', Option.some.injEq] at hrv
    have hgl := process_loop_graft ks (n + v.subsample_count) s v n s.input [] hc
    rw [← hg, hl] at hgl
    simp only [Option.map_some'] at hgl
    have hcs : s.cipher.process_rc = Status.OK := by rw [hg]; exact hc
    have hps := process_of_loop ks s n _ _ hcs hgl
    simp only [] at hps
    rw [← hrv] at hpv cv3
    simp only [] at hpv cv3
    by_cases hok : r.1 = Status.OK
    · rw [if_pos hok] at hps hpv
      have hsrc := process_loop_src ks _ v n s.input [] r hc hl hok
      refine ⟨_, _, _, _, hps, hpv, fun _ => ⟨?_, rfl⟩, fun h => absurd rfl h, cv3⟩
      rw [hsrc]
      rfl
    · rw [if_neg hok] at hps hpv
      exact ⟨_, _, _, _, hps, hpv, fun h => absurd h hok, fun _ => rfl, cv3⟩

theorem read_eq (ks : Keystream) (st : DecryptState)
    (hr : st.frames_source.read_rc = Status.OK) :
    mp4_decrypt_read ks st true =
      match mp4_decrypt_process ks
          { read_pull (read_space st) with
            input_size := (read_pull (read_space st)).input_size -
              read_size (read_pull (read_space st)) }
          (read_size (read_pull (read_space st))) with
      | some (rc, st4, written) =>
        some ⟨rc, st4, written, read_size (read_pull (read_space st)),
          if (read_pull (read_space st)).input_size - read_size (read_pull (read_space st)) ≤ 0
          then (read_pull (read_space st)).frame_done else false⟩
      | none => none := by
  have hsp : (if st.output_pos + MIN_BUFFER_SIZE ≥ st.output_end then
      if (!st.reuse_buffers || !st.output_allocated) = true then
        if (!true) = true then (Status.ALLOC_FAILED, { st with output_allocated := false })
        else
          (Status.OK,
            { st with
              output_allocated := true
              output_end := BUFFER_SIZE
              output_pos := 0
              allocations := st.allocations + 1 })
      else (Status.OK, { st with output_pos := 0 })
    else (Status.OK, st)) = (Status.OK, read_space st) := by
    unfold read_space
    split
    · split <;> simp
    · rfl
  have hrs : (read_space st).frames_source.read_rc = Status.OK := by
    unfold read_space
    split
    · split <;> exact hr
    · exact hr
  have hpl : (if (read_space st).input_size ≤ 0 then
      match (read_space st).frames_source.read with
      | (Status.OK, src, chunk, done) =>
        (Status.OK,
          { read_space st with
            frames_source := src
            input := chunk
            input_size := chunk.length % 2 ^ 32
            frame_done := done })
      | (rc, src, _, _) => (rc, { read_space st with frames_source := src })
    else (Status.OK, read_space st)) = (Status.OK, read_pull (read_space st)) := by
    unfold read_pull FramesSource.read
    split
    · cases hp : (read_space st).frames_source.pending with
      | nil => rfl
      | cons c rest =>
        obtain ⟨chunk, done⟩ := c
        rfl
    · rfl
  unfold mp4_decrypt_read
  simp only [hsp, hpl, read_size]

theorem read_space_fields (st : DecryptState) :
    read_space st = graft (read_space st) st ∧ (read_space st).input = st.input ∧
      (read_space st).input_size = st.input_size ∧
      (read_space st).frames_source = st.frames_source := by
  unfold read_space
  split
  · split <;> exact ⟨rfl, rfl, rfl, rfl⟩
  · exact ⟨rfl, rfl, rfl, rfl⟩

theorem read_pull_fields (s : DecryptState) (hi : s.input_size = s.input.length)
    (hl : s.input.length < 2 ^ 32) (hp : ∀ c ∈ s.frames_source.pending, c.1.length < 2 ^ 32) :
    read_pull s = graft (read_pull s) s ∧ upcoming (read_pull s) = upcoming s ∧
      (read_pull s).input_size = (read_pull s).input.length ∧
      (read_pull s).input.length < 2 ^ 32 ∧
      (∀ c ∈ (read_pull s).frames_source.pending, c.1.length < 2 ^ 32) ∧
      (read_pull s).frames_source.read_rc = s.frames_source.read_rc := by
  unfold read_pull
  split
  · rename_i hz
    have hnil : s.input = [] := by
      apply List.eq_nil_of_length_eq_zero
      omega
    cases hpd : s.frames_source.pending with
    | nil =>
      refine ⟨rfl, ?_, rfl, by simp, ?_, rfl⟩
      · simp [upcoming, hnil]
      · intro c hc
        simp only [] at hc
        rw [hpd] at hc
        exact absurd hc (List.not_mem_nil c)
    | cons c rest =>
      obtain ⟨chunk, done⟩ := c
      have hck : chunk.length < 2 ^ 32 := by
        have := hp (chunk, done) (by rw [hpd]; exact List.mem_cons_self _ _)
        exact this
      refine ⟨rfl, ?_, ?_, hck, ?_, rfl⟩
      · simp [upcoming, hnil, hpd, pending_bytes]
      · simp only []
        exact Nat.mod_eq_of_lt hck
      · intro c hc
        exact hp c (by rw [hpd]; exact List.mem_cons_of_mem _ hc)
  · exact ⟨rfl, rfl, hi, hl, hp, rfl⟩

theorem graft_trans (a b c : DecryptState) (h1 : a = graft a b) (h2 : b = graft b c) :
    a = graft a c := by
  have h3 : graft a b = graft a (graft b c) := congrArg (graft a) h2
  exact h1.trans h3

/-- One call of `mp4_decrypt_read` is the transform of the bytes transferred, taken from
the bytes of the frame still to come. -/
theorem read_step (ks : Keystream) (st : DecryptState) (h : ReadReady st) :
    ∃ r v2, mp4_decrypt_read ks st true = some r ∧
      mp4_decrypt_process ks (with_io st (upcoming st) st.output_pos) r.size =
        some (r.rc, v2, r.buffer) ∧
      r.st = graft r.st v2 ∧ v2.cipher.process_rc = Status.OK ∧
      r.size ≤ (upcoming st).length ∧
      (r.rc = Status.OK →
        ReadReady r.st ∧ v2.input = upcoming r.st ∧
          upcoming r.st = (upcoming st).drop r.size) ∧
      r.size = read_size (read_pull (read_space st)) ∧
      (r.rc = Status.OK →
        r.st.frames_source = (read_pull (read_space st)).frames_source ∧
          r.st.output_allocated = (read_pull (read_space st)).output_allocated ∧
          r.st.output_end = (read_pull (read_space st)).output_end ∧
          r.st.reuse_buffers = (read_pull (read_space st)).reuse_buffers) := by
  obtain ⟨hc, hr, hi, hl, hp⟩ := h
  obtain ⟨s1, s2, s3, s4⟩ := read_space_fields st
  obtain ⟨p1, p2, p3, p4, p5, p6⟩ := read_pull_fields (read_space st)
    (by rw [s2, s3]; exact hi) (by rw [s2]; exact hl) (by rw [s4]; exact hp)
  have hup : upcoming (read_space st) = upcoming st := by
    unfold upcoming; rw [s2, s4]
  generalize hst2 : read_pull (read_space st) = st2 at p1 p2 p3 p4 p5 p6
  have hcur : read_size st2 ≤ st2.input.length := by
    unfold read_size; omega
  have hg2 : st2 = graft st2 st := graft_trans _ _ _ p1 s1
  have hv : (with_io st (upcoming st) st.output_pos).input =
      ({ st2 with input_size := st2.input_size - read_size st2 } : DecryptState).input ++
        pending_bytes st2.frames_source.pending := by
    show upcoming st = st2.input ++ pending_bytes st2.frames_source.pending
    rw [← hup, ← p2]
    rfl
  have hg3 : ({ st2 with input_size := st2.input_size - read_size st2 } : DecryptState) =
      graft { st2 with input_size := st2.input_size - read_size st2 }
        (with_io st (upcoming st) st.output_pos) := by
    have := congrArg (fun x : DecryptState =>
      ({ x with input_size := st2.input_size - read_size st2 } : DecryptState)) hg2
    exact this
  obtain ⟨rc, s', v', w, e1, e2, e3, e4, e5⟩ := process_env ks
    { st2 with input_size := st2.input_size - read_size st2 }
    (with_io st (upcoming st) st.output_pos) (read_size st2)
    (pending_bytes st2.frames_source.pending) hc hg3 hv (Or.inr hcur)
  have hre := read_eq ks st hr
  rw [hst2, e1] at hre
  simp only [] at hre
  have hsz : read_size st2 ≤ (upcoming st).length := by
    rw [← hup, ← p2]
    unfold upcoming
    rw [List.length_append]
    omega
  refine ⟨_, v', hre, e2, ?_, e5, hsz, ?_, rfl, ?_⟩
  · by_cases hok : rc = Status.OK
    · rw [(e3 hok).1]; rfl
    · rw [e4 hok]; rfl
  rotate_left
  · intro hok
    obtain ⟨q1, _⟩ := e3 hok
    refine ⟨?_, ?_, ?_, ?_⟩ <;> (rw [q1]; rfl)
  · intro hok
    obtain ⟨q1, q2⟩ := e3 hok
    have hs'in : s'.input = st2.input.drop (read_size st2) := by rw [q1]; rfl
    have hs'fs : s'.frames_source = st2.frames_source := by rw [q1]; rfl
    have hs'sz : s'.input_size = st2.input_size - read_size st2 := by rw [q1]; rfl
    have hs'c : s'.cipher = v'.cipher := by rw [q1]; rfl
    have hups : upcoming s' = (upcoming st).drop (read_size st2) := by
      rw [← hup, ← p2]
      unfold upcoming
      rw [hs'in, hs'fs, List.drop_append_of_le_length hcur]
    refine ⟨⟨?_, ?_, ?_, ?_, ?_⟩, ?_, hups⟩
    · rw [hs'c]; exact e5
    · rw [hs'fs, p6, s4]; exact hr
    · rw [hs'sz, hs'in, List.length_drop, p3]
    · rw [hs'in, List.length_drop]; omega
    · rw [hs'fs]; exact p5
    · rw [q2]
      unfold upcoming
      rw [hs'fs]

theorem graft_self_of (s x v : DecryptState) (h : s = graft x v) : s = graft s v := by
  have h2 : graft (graft x v) v = graft x v := rfl
  rw [← h] at h2
  exact h2.symm

theorem process_zero (ks : Keystream) (st : DecryptState) :
    mp4_decrypt_process ks st 0 = some (Status.OK, st, []) := by
  unfold mp4_decrypt_process
  rw [process_loop_zero]
  rfl

/-- The bytes returned by `k` successive reads are the bytes written by one transform of
the bytes transferred, taken from the bytes of the frame still to come. -/
theorem read_times_eq (ks : Keystream) (k : Nat) :
    ∀ st : DecryptState, ReadReady st →
      ∃ rc st2 out m vS, read_times ks k st = some (rc, st2, out, m) ∧
        mp4_decrypt_process ks (with_io st (upcoming st) st.output_pos) m = some (rc, vS, out) ∧
        st2 = graft st2 vS ∧ m ≤ (upcoming st).length := by
  induction k with
  | zero =>
    intro st _
    exact ⟨Status.OK, st, [], 0, _, rfl, process_zero ks _, rfl, Nat.zero_le _⟩
  | succ k ih =>
    intro st h
    obtain ⟨r, v2, h1, h2, h3, h4, h5, h6, _, _⟩ := read_step ks st h
    by_cases hok : r.rc = Status.OK
    · obtain ⟨hrr, hvin, hup⟩ := h6 hok
      obtain ⟨rc2, st2, out2, m2, vS2, i1, i2, i3, i4⟩ := ih r.st hrr
      have hrt : read_times ks (k + 1) st = some (rc2, st2, r.buffer ++ out2, r.size + m2) := by
        simp only [read_times, h1, hok, if_true, i1]
      have hcV : (with_io st (upcoming st) st.output_pos).cipher.process_rc = Status.OK := h.1
      obtain ⟨rc, stA, stB, w, s1, s2, ⟨i, o, s3⟩, _, _⟩ :=
        process_split ks (with_io st (upcoming st) st.output_pos) r.size m2 hcV
      -- the second call of the split run
      have hgs : with_io r.st (upcoming r.st) r.st.output_pos =
          graft (with_io r.st (upcoming r.st) r.st.output_pos) v2 :=
        congrArg (fun x : DecryptState => with_io x (upcoming r.st) r.st.output_pos) h3
      obtain ⟨rc', sE, vE, wE, e1, e2, e3, e4, _⟩ := process_env ks
        (with_io r.st (upcoming r.st) r.st.output_pos) v2 m2 [] h4 hgs
        (by rw [hvin]; simp [with_io]) (Or.inl rfl)
      rw [i2] at e1
      simp only [Option.some.injEq, Prod.mk.injEq] at e1
      obtain ⟨rfl, rfl, rfl⟩ := e1
      have hvS : vS2 = graft vS2 vE := by
        by_cases hok2 : rc2 = Status.OK
        · exact graft_self_of _ _ _ (e3 hok2).1
        · exact graft_self_of _ _ _ (e4 hok2)
      have htw : process_twice ks (with_io st (upcoming st) st.output_pos) r.size m2 =
          some (rc2, vE, r.buffer ++ out2) := by
        unfold process_twice
        rw [h2, hok]
        simp only [e2]
      rw [htw] at s2
      simp only [Option.some.injEq, Prod.mk.injEq] at s2
      obtain ⟨rfl, rfl, rfl⟩ := s2
      refine ⟨_, _, _, _, stA, hrt, s1, ?_, ?_⟩
      · have h7 : st2 = graft st2 vE := graft_trans _ _ _ i3 hvS
        rw [s3] at h7
        exact h7
      · rw [hup, List.length_drop] at i4
        omega
    · refine ⟨r.rc, r.st, r.buffer, r.size, v2, ?_, h2, h3, h5⟩
      simp only [read_times, h1, hok, if_false]

theorem read_space_room (st : DecryptState) (ho : OutputOk st) :
    OutputOk (read_space st) ∧
      1 ≤ ((read_space st).output_end - (read_space st).output_pos) % 2 ^ 32 := by
  obtain ⟨o1, o2⟩ := ho
  unfold read_space
  split
  · split
    · refine ⟨⟨fun _ => rfl, le_refl _⟩, ?_⟩
      simp [BUFFER_SIZE]
    · rename_i hre
      have hal : st.output_allocated = true := by
        cases h1 : st.output_allocated
        · simp [h1] at hre
        · rfl
      have he := o1 hal
      refine ⟨⟨o1, o2⟩, ?_⟩
      simp only [he, BUFFER_SIZE]
      norm_num
  · rename_i hlt
    refine ⟨⟨o1, o2⟩, ?_⟩
    unfold MIN_BUFFER_SIZE at hlt
    unfold BUFFER_SIZE at o2
    have h1 : st.output_end - st.output_pos < 2 ^ 32 := by omega
    rw [Nat.mod_eq_of_lt h1]
    omega

theorem read_pull_output (s : DecryptState) :
    (read_pull s).output_allocated = s.output_allocated ∧
      (read_pull s).output_end = s.output_end ∧ (read_pull s).output_pos = s.output_pos := by
  unfold read_pull
  split
  · split <;> exact ⟨rfl, rfl, rfl⟩
  · exact ⟨rfl, rfl, rfl⟩

/-- A successful read shrinks the backlog unless nothing is left. -/
theorem read_progress (ks : Keystream) (st : DecryptState) (r : ReadResult)
    (h : ReadReady st) (ho : OutputOk st) (hr : mp4_decrypt_read ks st true = some r)
    (hok : r.rc = Status.OK) :
    ReadReady r.st ∧ OutputOk r.st ∧
      (upcoming r.st).length + r.size = (upcoming st).length ∧
      (backlog r.st + 1 ≤ backlog st ∨ (backlog st = 0 ∧ backlog r.st = 0)) := by
  obtain ⟨r', v2, h1, _, _, _, h5, h6, h7, h8⟩ := read_step ks st h
  rw [hr] at h1
  simp only [Option.some.injEq] at h1
  subst h1
  obtain ⟨hrr, _, hup⟩ := h6 hok
  obtain ⟨f1, f2, f3, _⟩ := h8 hok
  obtain ⟨ro, room⟩ := read_space_room st ho
  obtain ⟨po1, po2, po3⟩ := read_pull_output (read_space st)
  obtain ⟨s1, s2, s3, s4⟩ := read_space_fields st
  have hlen : (upcoming r.st).length + r.size = (upcoming st).length := by
    rw [hup, List.length_drop]; omega
  refine ⟨hrr, ⟨?_, ?_⟩, hlen, ?_⟩
  · rw [f2, f3, po1, po2]; exact ro.1
  · rw [f3, po2]; exact ro.2
  · unfold backlog
    rw [f1]
    by_cases hin : st.input = []
    · -- nothing buffered: the next chunk is pulled
      have hsz : (read_space st).input_size ≤ 0 := by
        rw [s3, h.2.2.1, hin]; simp
      cases hpd : st.frames_source.pending with
      | nil =>
        right
        have hp2 : (read_pull (read_space st)).frames_source.pending = [] := by
          unfold read_pull
          rw [if_pos hsz]
          have : (read_space st).frames_source.pending = [] := by rw [s4, hpd]
          split
          · simp only []
            exact this
          · rename_i c2 d2 rest2 hcons
            rw [this] at hcons
            exact absurd hcons (List.cons_ne_nil _ _).symm
        have hu0 : (upcoming st).length = 0 := by
          simp [upcoming, hin, hpd, pending_bytes]
        rw [hp2]
        simp only [List.length_nil]
        omega
      | cons c rest =>
        left
        have hp2 : (read_pull (read_space st)).frames_source.pending = rest := by
          unfold read_pull
          rw [if_pos hsz]
          have : (read_space st).frames_source.pending = c :: rest := by rw [s4, hpd]
          obtain ⟨chunk, done⟩ := c
          split
          · rename_i hnil
            rw [this] at hnil
            exact absurd hnil (List.cons_ne_nil _ _)
          · rename_i c2 d2 rest2 hcons
            rw [this] at hcons
            simp only [List.cons.injEq] at hcons
            exact hcons.2.symm
        rw [hp2]
        simp only [List.length_cons]
        omega
    · left
      have hpos : 0 < st.input.length := List.length_pos.mpr hin
      have hsz : ¬ (read_space st).input_size ≤ 0 := by
        rw [s3, h.2.2.1]; omega
      have hpl : read_pull (read_space st) = read_space st := by
        unfold read_pull
        rw [if_neg hsz]
      have hrs : 1 ≤ r.size := by
        rw [h7, hpl]
        unfold read_size
        rw [s3, h.2.2.1]
        omega
      rw [hpl, s4]
      omega

/-- Reading until the backlog is used up transfers all the bytes still to come. -/
theorem read_times_complete (ks : Keystream) (k : Nat) :
    ∀ (st : DecryptState) (rc : Status) (st2 : DecryptState) (out : List Nat) (m : Nat),
      ReadReady st → OutputOk st → read_times ks k st = some (rc, st2, out, m) →
      rc = Status.OK →
      (upcoming st2).length + m = (upcoming st).length ∧
        (backlog st2 + k ≤ backlog st ∨ backlog st2 = 0) := by
  induction k with
  | zero =>
    intro st rc st2 out m _ _ h _
    simp only [read_times, Option.some.injEq, Prod.mk.injEq] at h
    obtain ⟨_, rfl, _, rfl⟩ := h
    exact ⟨rfl, Or.inl (le_refl _)⟩
  | succ k ih =>
    intro st rc st2 out m hrr ho h hok
    obtain ⟨r, v2, h1, _⟩ := read_step ks st hrr
    simp only [read_times, h1] at h
    by_cases hrok : r.rc = Status.OK
    · rw [if_pos hrok] at h
      obtain ⟨p1, p2, p3, p4⟩ := read_progress ks st r hrr ho h1 hrok
      cases hrt : read_times ks k r.st with
      | none => rw [hrt] at h; simp at h
      | some x =>
        obtain ⟨rc3, st3, out3, m3⟩ := x
        rw [hrt] at h
        simp only [Option.some.injEq, Prod.mk.injEq] at h
        obtain ⟨rfl, rfl, _, rfl⟩ := h
        obtain ⟨i1, i2⟩ := ih r.st rc3 st3 out3 m3 p1 p2 hrt hok
        refine ⟨by omega, ?_⟩
        rcases i2 with i2 | i2
        · rcases p4 with p4 | p4
          · left; omega
          · right; omega
        · right; exact i2
    · rw [if_neg hrok] at h
      simp only [Option.some.injEq, Prod.mk.injEq] at h
      exact absurd (h.1.trans hok) hrok

/-- C3: with a cipher that succeeds, (1) running `mp4_decrypt_process` over `a` bytes and
then over `b` bytes gives the status, the written bytes, the clear and encrypted counters,
the subsample count, the auxiliary-info cursor and the cipher state (IV, keystream
position: no reseeding) of the single run over `a + b` bytes, the whole states being equal
when the status is OK; (2) when the source succeeds and buffer sizes fit 32 bits, the
bytes returned by any number of successive `mp4_decrypt_read` calls, however the source
chunks the frame and the output space limits the transfers, are the bytes written by one
run of the transform over the bytes transferred, with the same status, counters, cursor
and cipher state; and once the reads have used up the source, that is the whole frame. -/
theorem cenc_chunk_continuity (ks : Keystream) (st : DecryptState)
    (hc : st.cipher.process_rc = Status.OK) :
    (∀ a b, ∃ rc stA stB w, mp4_decrypt_process ks st (a + b) = some (rc, stA, w) ∧
      process_twice ks st a b = some (rc, stB, w) ∧
      stB.clear_bytes = stA.clear_bytes ∧ stB.encrypted_bytes = stA.encrypted_bytes ∧
      stB.subsample_count = stA.subsample_count ∧
      stB.auxiliary_info_pos = stA.auxiliary_info_pos ∧ stB.cipher = stA.cipher ∧
      (rc = Status.OK → stB = stA)) ∧
    (ReadReady st → ∀ k, ∃ rc st2 out m vS, read_times ks k st = some (rc, st2, out, m) ∧
      mp4_decrypt_process ks (with_io st (upcoming st) st.output_pos) m = some (rc, vS, out) ∧
      st2.clear_bytes = vS.clear_bytes ∧ st2.encrypted_bytes = vS.encrypted_bytes ∧
      st2.subsample_count = vS.subsample_count ∧
      st2.auxiliary_info_pos = vS.auxiliary_info_pos ∧ st2.cipher = vS.cipher ∧
      (OutputOk st → backlog st ≤ k → rc = Status.OK → m = (upcoming st).length)) := by
  constructor
  · intro a b
    obtain ⟨rc, stA, stB, w, h1, h2, ⟨i, o, h3⟩, h4, _⟩ := process_split ks st a b hc
    refine ⟨rc, stA, stB, w, h1, h2, ?_, ?_, ?_, ?_, ?_, h4⟩ <;> rw [h3] <;> rfl
  · intro hrr k
    obtain ⟨rc, st2, out, m, vS, h1, h2, h3, h4⟩ := read_times_eq ks k st hrr
    refine ⟨rc, st2, out, m, vS, h1, h2, ?_, ?_, ?_, ?_, ?_, ?_⟩
    · rw [h3]; rfl
    · rw [h3]; rfl
    · rw [h3]; rfl
    · rw [h3]; rfl
    · rw [h3]; rfl
    · intro ho hk hok
      obtain ⟨c1, c2⟩ := read_times_complete ks k st rc st2 out m hrr ho h1 hok
      have hz : backlog st2 = 0 := by
        rcases c2 with c2 | c2
        · omega
        · exact c2
      unfold backlog at hz
      omega

theorem cenc_chunk_continuity_witness :
    ReadReady (mp4_decrypt_start_frame (sample_decrypt [])).2 ∧
    OutputOk (mp4_decrypt_start_frame (sample_decrypt [])).2 ∧
    backlog (mp4_decrypt_start_frame (sample_decrypt [])).2 ≤ 14 ∧
    (∀ a b, ∃ rc stA stB w,
      mp4_decrypt_process sample_keystream
          (mp4_decrypt_start_frame (sample_decrypt [])).2 (a + b) = some (rc, stA, w) ∧
      process_twice sample_keystream (mp4_decrypt_start_frame (sample_decrypt [])).2 a b =
        some (rc, stB, w) ∧
      stB.clear_bytes = stA.clear_bytes ∧ stB.encrypted_bytes = stA.encrypted_bytes ∧
      stB.subsample_count = stA.subsample_count ∧
      stB.auxiliary_info_pos = stA.auxiliary_info_pos ∧ stB.cipher = stA.cipher ∧
      (rc = Status.OK → stB = stA)) ∧
    (ReadReady (mp4_decrypt_start_frame (sample_decrypt [])).2 →
      ∀ k, ∃ rc st2 out m vS,
        read_times sample_keystream k (mp4_decrypt_start_frame (sample_decrypt [])).2 =
          some (rc, st2, out, m) ∧
        mp4_decrypt_process sample_keystream
            (with_io (mp4_decrypt_start_frame (sample_decrypt [])).2
              (upcoming (mp4_decrypt_start_frame (sample_decrypt [])).2)
              (mp4_decrypt_start_frame (sample_decrypt [])).2.output_pos) m =
          some (rc, vS, out) ∧
        st2.clear_bytes = vS.clear_bytes ∧ st2.encrypted_bytes = vS.encrypted_bytes ∧
        st2.subsample_count = vS.subsample_count ∧
        st2.auxiliary_info_pos = vS.auxiliary_info_pos ∧ st2.cipher = vS.cipher ∧
        (OutputOk (mp4_decrypt_start_frame (sample_decrypt [])).2 →
          backlog (mp4_decrypt_start_frame (sample_decrypt [])).2 ≤ k → rc = Status.OK →
          m = (upcoming (mp4_decrypt_start_frame (sample_decrypt [])).2).length)) :=
  ⟨⟨by decide, by decide, by decide, by decide, by decide⟩, ⟨by decide, by decide⟩, by decide,
    cenc_chunk_continuity sample_keystream (mp4_decrypt_start_frame (sample_decrypt [])).2
      (by decide)⟩
/-! ## Start and flush of a frame -/

/-- C14: `flush_frame` corrects the margin.  With length-field width 4 and a remaining
budget `r ≥ 0`, `mp4_to_annexb_flush_frame` is the call of the next filter's `flush_frame`
with `margin + r` (same status, same next filter afterwards); with width 1, 2 or 3 it is
the call with `margin` unchanged, whatever the budget is. -/
theorem annexb_flush_margin (st : AnnexbState) (nf : NextFilter) (margin_size : Int) :
    (st.nal_packet_size_length = 4 → 0 ≤ st.frame_size_left →
      mp4_to_annexb_flush_frame st nf margin_size =
        nf.flush_frame (margin_size + st.frame_size_left)) ∧
    (st.nal_packet_size_length = 1 ∨ st.nal_packet_size_length = 2 ∨
        st.nal_packet_size_length = 3 →
      mp4_to_annexb_flush_frame st nf margin_size = nf.flush_frame margin_size) := by
  constructor
  · intro hw hr
    unfold mp4_to_annexb_flush_frame
    rw [if_pos hw, if_neg (not_lt.mpr hr)]
  · intro hw
    unfold mp4_to_annexb_flush_frame
    rw [if_neg (by omega)]

theorem annexb_flush_margin_witness :
    (sample_state.nal_packet_size_length = 4 ∧ 0 ≤ sample_state.frame_size_left ∧
      mp4_to_annexb_flush_frame sample_state sample_next 7 =
        sample_next.flush_frame (7 + sample_state.frame_size_left)) ∧
    (({ sample_state with nal_packet_size_length := 2, frame_size_left := -5 } :
        AnnexbState).nal_packet_size_length = 2 ∧
      mp4_to_annexb_flush_frame
          { sample_state with nal_packet_size_length := 2, frame_size_left := -5 }
          sample_next 7 = sample_next.flush_frame 7) :=
  ⟨⟨by decide, by decide,
      (annexb_flush_margin sample_state sample_next 7).1 (by decide) (by decide)⟩,
    ⟨by decide,
      (annexb_flush_margin { sample_state with nal_packet_size_length := 2, frame_size_left := -5 }
        sample_next 7).2 (Or.inr (Or.inl (by decide)))⟩⟩

/-- C15 (amended): with length-field width 4 and a negative remaining budget,
`mp4_to_annexb_flush_frame` returns `VOD_UNEXPECTED` (not `VOD_BAD_DATA`) and does not
call the next filter: the next filter is left as it was. -/
theorem annexb_flush_violation (st : AnnexbState) (nf : NextFilter) (margin_size : Int)
    (hw : st.nal_packet_size_length = 4) (hr : st.frame_size_left < 0) :
    mp4_to_annexb_flush_frame st nf margin_size = (Status.UNEXPECTED, nf) := by
  unfold mp4_to_annexb_flush_frame
  rw [if_pos hw, if_pos hr]

theorem annexb_flush_violation_witness :
    ({ sample_state with frame_size_left := -1 } : AnnexbState).nal_packet_size_length = 4 ∧
    ({ sample_state with frame_size_left := -1 } : AnnexbState).frame_size_left < 0 ∧
    mp4_to_annexb_flush_frame { sample_state with frame_size_left := -1 } sample_next 0 =
      (Status.UNEXPECTED, sample_next) :=
  ⟨by decide, by decide,
    annexb_flush_violation { sample_state with frame_size_left := -1 } sample_next 0
      (by decide) (by decide)⟩

/-- C15 (as stated) fails: with width 4 and a budget of -1 the status returned by
`mp4_to_annexb_flush_frame` is `VOD_UNEXPECTED`, which is not `VOD_BAD_DATA`. -/
theorem annexb_flush_violation_counterexample :
    ({ sample_state with frame_size_left := -1 } : AnnexbState).nal_packet_size_length = 4 ∧
    ({ sample_state with frame_size_left := -1 } : AnnexbState).frame_size_left < 0 ∧
    (mp4_to_annexb_flush_frame { sample_state with frame_size_left := -1 } sample_next 0).1 ≠
      Status.BAD_DATA ∧
    (mp4_to_annexb_flush_frame { sample_state with frame_size_left := -1 } sample_next 0).1 =
      Status.UNEXPECTED := by
  decide

/-- C18 (amended): `start_frame` resets the per-frame state.  When the next filter accepts
`start_frame`, the state afterwards has the tag `STATE_PACKET_SIZE`, the configured width
as remaining length-field bytes, no remaining packet bytes, the key-frame flag of the
frame, and the budget `original_size + (sps_pps_size if key, else 0)`: the 6 bytes of the
AUD are not part of it.  The status is that of the next filter's write of the AUD, and when
that write is accepted exactly `00 00 00 01 09 F0` has been appended to the bytes written.
When the next filter's `start_frame` fails, its status is returned, and the state and the
next filter are unchanged. -/
theorem annexb_start_frame_reset (st : AnnexbState) (nf : NextFilter) (frame : OutputFrame) :
    (nf.start_rc = Status.OK →
      (mp4_to_annexb_start_frame st nf frame).1 = nf.write_rc ∧
      (mp4_to_annexb_start_frame st nf frame).2.1 =
        { st with
          first_frame_packet := true
          cur_state := CurState.STATE_PACKET_SIZE
          length_bytes_left := st.nal_packet_size_length
          packet_size_left := 0
          key_frame := frame.key
          frame_size_left :=
            (frame.original_size : Int) + (if frame.key then (st.sps_pps_size : Int) else 0) } ∧
      (mp4_to_annexb_start_frame st nf frame).2.2.started = nf.started ++ [frame] ∧
      (mp4_to_annexb_start_frame st nf frame).2.2.written =
        nf.written ++ (if nf.write_rc = Status.OK then [0x00, 0x00, 0x00, 0x01, 0x09, 0xf0] else [])) ∧
    (nf.start_rc ≠ Status.OK →
      mp4_to_annexb_start_frame st nf frame = (nf.start_rc, st, nf)) := by
  constructor
  · intro hs
    by_cases hw : nf.write_rc = Status.OK <;> cases hk : frame.key <;>
      simp [mp4_to_annexb_start_frame, NextFilter.start_frame, NextFilter.write, hs, hw, hk,
        aud_nal_packet]
  · intro hs
    cases h : nf.start_rc <;>
      first
      | exact absurd h hs
      | simp [mp4_to_annexb_start_frame, NextFilter.start_frame, h]

theorem annexb_start_frame_reset_witness :
    (sample_next.start_rc = Status.OK ∧
      (mp4_to_annexb_start_frame sample_state sample_next ⟨19, true⟩).1 = Status.OK ∧
      (mp4_to_annexb_start_frame sample_state sample_next ⟨19, true⟩).2.1.frame_size_left = 30 ∧
      (mp4_to_annexb_start_frame sample_state sample_next ⟨19, true⟩).2.2.written =
        [0x00, 0x00, 0x00, 0x01, 0x09, 0xf0]) ∧
    (({ sample_next with start_rc := Status.OTHER 3 } : NextFilter).start_rc ≠ Status.OK ∧
      mp4_to_annexb_start_frame sample_state { sample_next with start_rc := Status.OTHER 3 }
          ⟨19, true⟩ =
        (Status.OTHER 3, sample_state, { sample_next with start_rc := Status.OTHER 3 })) :=
  ⟨⟨by decide,
      ((annexb_start_frame_reset sample_state sample_next ⟨19, true⟩).1 (by decide)).1.trans
        (by decide),
      (congrArg AnnexbState.frame_size_left
        ((annexb_start_frame_reset sample_state sample_next ⟨19, true⟩).1
          (by decide)).2.1).trans (by decide),
      ((annexb_start_frame_reset sample_state sample_next ⟨19, true⟩).1
        (by decide)).2.2.2.trans (by decide)⟩,
    ⟨by decide,
      (annexb_start_frame_reset sample_state { sample_next with start_rc := Status.OTHER 3 }
        ⟨19, true⟩).2 (by decide)⟩⟩

/-- C18 (as stated) fails: after a successful `start_frame` of a frame of 19 bytes that is
not a key frame the budget is 19, not 19 + 6; for a key frame with an 11-byte SPS/PPS
buffer it is 30, not 36. -/
theorem annexb_start_frame_reset_counterexample :
    (mp4_to_annexb_start_frame sample_state sample_next ⟨19, false⟩).1 = Status.OK ∧
    (mp4_to_annexb_start_frame sample_state sample_next ⟨19, false⟩).2.1.frame_size_left = 19 ∧
    (mp4_to_annexb_start_frame sample_state sample_next ⟨19, false⟩).2.1.frame_size_left ≠
      19 + 6 + 0 ∧
    sample_state.sps_pps_size = 11 ∧
    (mp4_to_annexb_start_frame sample_state sample_next ⟨19, true⟩).1 = Status.OK ∧
    (mp4_to_annexb_start_frame sample_state sample_next ⟨19, true⟩).2.1.frame_size_left = 30 ∧
    (mp4_to_annexb_start_frame sample_state sample_next ⟨19, true⟩).2.1.frame_size_left ≠
      19 + 6 + 11 := by
  decide
/-! ## Budget accounting in the write loop -/

theorem read_length_kept (b : List Nat) :
    ∀ st : AnnexbState,
      (read_length st b).1.frame_size_left = st.frame_size_left ∧
      (read_length st b).1.sps_pps = st.sps_pps ∧
      (read_length st b).1.sps_pps_size = st.sps_pps_size := by
  induction b with
  | nil => intro st; exact ⟨rfl, rfl, rfl⟩
  | cons x xs ih =>
    intro st
    by_cases h0 : st.length_bytes_left = 0
    · simp [read_length, h0]
    · simp only [read_length, h0, if_false]
      exact ih _

theorem blob_length (st : AnnexbState) (hbuf : st.sps_pps_size ≤ st.sps_pps.length) :
    st.blob.length = st.sps_pps_size := by
  simp [AnnexbState.blob, hbuf]

/-- The copy/skip case takes from the budget what it forwards. -/
theorem case_copy_skip_budget (st : AnnexbState) (nf : NextFilter) (b : List Nat)
    (hw : nf.write_rc = Status.OK) :
    ∃ st1 nf1 r1 out, case_copy_skip st nf b = Iter.cont st1 nf1 r1 ∧
      nf1.write_rc = Status.OK ∧ st1.sps_pps = st.sps_pps ∧
      st1.sps_pps_size = st.sps_pps_size ∧ nf1.written = nf.written ++ out ∧
      st1.frame_size_left + (out.length : Int) = st.frame_size_left := by
  refine ⟨_, _, _, (if st.cur_state = CurState.STATE_COPY_PACKET then
      b.take (min st.packet_size_left b.length) else []),
    case_copy_skip_eq st nf b hw, by rw [copy_out_write_rc]; exact hw, ?_, ?_, ?_, ?_⟩
  · unfold copy_state; simp only []; split <;> rfl
  · unfold copy_state; simp only []; split <;> rfl
  · unfold copy_out
    split
    · rfl
    · simp
  · by_cases hc : st.cur_state = CurState.STATE_COPY_PACKET
    · have hl : (List.take (min st.packet_size_left b.length) b).length =
          min st.packet_size_left b.length := by
        rw [List.length_take]; omega
      unfold copy_state
      simp only [hc, if_true]
      split <;> simp only [hl] <;> omega
    · unfold copy_state
      simp only [hc, if_false]
      split <;> simp

theorem unit_lead_length (st : AnnexbState) (ut : Nat)
    (hbuf : st.sps_pps_size ≤ st.sps_pps.length) :
    ((unit_lead st ut).length : Int) =
      (if injects st ut then (st.sps_pps_size : Int) else 0) +
        (if st.first_frame_packet then 4 else 3) := by
  unfold unit_lead
  rw [List.length_append]
  by_cases hi : injects st ut = true <;> by_cases hf : st.first_frame_packet = true <;>
    simp [hi, hf, blob_length st hbuf, nal_marker]

/-- The type case takes from the budget what it forwards: the SPS/PPS buffer when it is
written, the marker, and the bytes copied. -/
theorem case_nal_type_budget (st : AnnexbState) (nf : NextFilter) (b : List Nat)
    (hw : nf.write_rc = Status.OK) (hbuf : st.sps_pps_size ≤ st.sps_pps.length) :
    ∃ st1 nf1 r1 out, case_nal_type st nf b = Iter.cont st1 nf1 r1 ∧
      nf1.write_rc = Status.OK ∧ st1.sps_pps = st.sps_pps ∧
      st1.sps_pps_size = st.sps_pps_size ∧ nf1.written = nf.written ++ out ∧
      st1.frame_size_left + (out.length : Int) = st.frame_size_left := by
  by_cases ha : b.headD 0 &&& 0x1f = NAL_AUD
  · rw [case_nal_type_aud st nf b ha]
    exact ⟨_, _, _, [], rfl, hw, rfl, rfl, by simp, by simp⟩
  · rw [case_nal_type_kept st nf b hw ha]
    obtain ⟨st1, nf1, r1, out, h1, h2, h3, h4, h5, h6⟩ :=
      case_copy_skip_budget (nal_state st (b.headD 0 &&& 0x1f))
        { nf with written := nf.written ++ unit_lead st (b.headD 0 &&& 0x1f) } b hw
    refine ⟨st1, nf1, r1, unit_lead st (b.headD 0 &&& 0x1f) ++ out, h1, h2, h3, h4, ?_, ?_⟩
    · rw [h5, List.append_assoc]
    · have hl := unit_lead_length st (b.headD 0 &&& 0x1f) hbuf
      have h7 : (nal_state st (b.headD 0 &&& 0x1f)).frame_size_left =
          st.frame_size_left -
            (if injects st (b.headD 0 &&& 0x1f) then (st.sps_pps_size : Int) else 0) -
            (if st.first_frame_packet then 4 else 3) := rfl
      rw [List.length_append, Nat.cast_add, hl]
      rw [h7] at h6
      omega

/-- One pass of the write loop, with an accepting next filter, goes on with the rest of
the buffer and takes from the budget exactly the number of bytes it forwards. -/
theorem write_iter_budget (st : AnnexbState) (nf : NextFilter) (b : List Nat)
    (hw : nf.write_rc = Status.OK) (hbuf : st.sps_pps_size ≤ st.sps_pps.length) :
    ∃ st1 nf1 r1 out, write_iter st nf b = Iter.cont st1 nf1 r1 ∧
      nf1.write_rc = Status.OK ∧ st1.sps_pps = st.sps_pps ∧
      st1.sps_pps_size = st.sps_pps_size ∧ nf1.written = nf.written ++ out ∧
      st1.frame_size_left + (out.length : Int) = st.frame_size_left := by
  cases hs : st.cur_state with
  | STATE_PACKET_SIZE =>
    obtain ⟨k1, k2, k3⟩ := read_length_kept b st
    by_cases hr : (read_length st b).2 = []
    · refine ⟨(read_length st b).1, nf, [], [], ?_, hw, k2, k3, by simp, by simp [k1]⟩
      simp [write_iter, hs, hr]
    · have e1 : write_iter st nf b =
          case_nal_type { (read_length st b).1 with
            cur_state := (read_length st b).1.cur_state.incr } nf (read_length st b).2 := by
        simp [write_iter, hs, hr]
      obtain ⟨st1, nf1, r1, out, h1, h2, h3, h4, h5, h6⟩ :=
        case_nal_type_budget { (read_length st b).1 with
            cur_state := (read_length st b).1.cur_state.incr } nf (read_length st b).2 hw
          (by simpa [k2, k3] using hbuf)
      refine ⟨st1, nf1, r1, out, by rw [e1, h1], h2, h3.trans k2, h4.trans k3, h5, ?_⟩
      rw [h6]; exact k1
  | STATE_NAL_TYPE =>
    have e1 : write_iter st nf b = case_nal_type st nf b := by simp [write_iter, hs]
    rw [e1]
    exact case_nal_type_budget st nf b hw hbuf
  | STATE_COPY_PACKET =>
    rw [write_iter_copy st nf b (Or.inl hs)]
    exact case_copy_skip_budget st nf b hw
  | STATE_SKIP_PACKET =>
    rw [write_iter_copy st nf b (Or.inr hs)]
    exact case_copy_skip_budget st nf b hw

theorem write_loop_budget (f : Nat) :
    ∀ (st : AnnexbState) (nf : NextFilter) (b : List Nat) (rc : Status) (st2 : AnnexbState)
      (nf2 : NextFilter),
      nf.write_rc = Status.OK → st.sps_pps_size ≤ st.sps_pps.length →
      write_loop f st nf b = some (rc, st2, nf2) →
      ∃ out, nf2.written = nf.written ++ out ∧
        st2.frame_size_left + (out.length : Int) = st.frame_size_left := by
  induction f with
  | zero =>
    intro st nf b rc st2 nf2 _ _ h
    cases b with
    | nil =>
      rw [write_loop_nil] at h
      simp only [Option.some.injEq, Prod.mk.injEq] at h
      obtain ⟨_, h2, h3⟩ := h
      subst h2; subst h3
      exact ⟨[], by simp, by simp⟩
    | cons x xs => simp [write_loop] at h
  | succ f ih =>
    intro st nf b rc st2 nf2 hw hbuf h
    cases b with
    | nil =>
      rw [write_loop_nil] at h
      simp only [Option.some.injEq, Prod.mk.injEq] at h
      obtain ⟨_, h2, h3⟩ := h
      subst h2; subst h3
      exact ⟨[], by simp, by simp⟩
    | cons x xs =>
      obtain ⟨st1, nf1, r1, out, h1, h2, h3, h4, h5, h6⟩ :=
        write_iter_budget st nf (x :: xs) hw hbuf
      rw [write_loop_succ _ _ _ _ (List.cons_ne_nil x xs), h1] at h
      obtain ⟨out2, e1, e2⟩ := ih st1 nf1 r1 rc st2 nf2 h2 (by rw [h3, h4]; exact hbuf) h
      refine ⟨out ++ out2, by rw [e1, h5, List.append_assoc], ?_⟩
      rw [List.length_append, Nat.cast_add]
      omega

/-- C19 (amended): budget accounting in `write`.  For every filter state with a
length-field width of at least one whose SPS/PPS buffer holds `sps_pps_size` bytes, and
every input chunk, with an accepting next filter, `mp4_to_annexb_write` returns OK and
the amount by which it decreases the remaining-frame budget equals the number of bytes
it forwards to the next filter (SPS/PPS buffer, markers and copied payload); bytes
discarded in `STATE_SKIP_PACKET` are not taken from the budget. -/
theorem annexb_write_budget (st : AnnexbState) (nf : NextFilter) (buffer : List Nat)
    (hw : nf.write_rc = Status.OK) (hwd : 1 ≤ st.nal_packet_size_length)
    (hbuf : st.sps_pps_size ≤ st.sps_pps.length) :
    ∃ st2 nf2 out, mp4_to_annexb_write st nf buffer = some (Status.OK, st2, nf2) ∧
      nf2.written = nf.written ++ out ∧
      st.frame_size_left - st2.frame_size_left = (out.length : Int) := by
  obtain ⟨st2, nf2, h1, _, _⟩ := write_ok st nf buffer hw hwd
  obtain ⟨out, h2, h3⟩ := write_loop_budget _ st nf buffer _ st2 nf2 hw hbuf h1
  exact ⟨st2, nf2, out, h1, h2, by omega⟩

theorem annexb_write_budget_witness :
    sample_next.write_rc = Status.OK ∧ 1 ≤ sample_state.nal_packet_size_length ∧
    sample_state.sps_pps_size ≤ sample_state.sps_pps.length ∧
    ∃ st2 nf2 out,
      mp4_to_annexb_write sample_state sample_next (frame_bytes [sample_idr, sample_aud]) =
        some (Status.OK, st2, nf2) ∧
      nf2.written = sample_next.written ++ out ∧
      sample_state.frame_size_left - st2.frame_size_left = (out.length : Int) :=
  ⟨by decide, by decide, by decide,
    annexb_write_budget sample_state sample_next (frame_bytes [sample_idr, sample_aud])
      (by decide) (by decide) (by decide)⟩

/-- C19 (as stated) fails: after `start_frame` of a 6-byte frame and the write of
`00 00 00 02 09` the filter is in `STATE_SKIP_PACKET` with one byte of the unit left; the
write of that byte returns OK, forwards nothing and discards the byte, and the budget stays
at 6: the decrease is 0, not 0 forwarded + 1 discarded. -/
theorem annexb_write_budget_counterexample :
    (mp4_to_annexb_start_frame sample_state sample_next ⟨6, false⟩).1 = Status.OK ∧
    (mp4_to_annexb_start_frame sample_state sample_next ⟨6, false⟩).2.1.frame_size_left = 6 ∧
    (mp4_to_annexb_write (mp4_to_annexb_start_frame sample_state sample_next ⟨6, false⟩).2.1
        (mp4_to_annexb_start_frame sample_state sample_next ⟨6, false⟩).2.2
        [0, 0, 0, 2, 0x09]).map
      (fun r => (r.1, r.2.1.cur_state, r.2.1.packet_size_left, r.2.1.frame_size_left,
        r.2.2.written)) =
      some (Status.OK, CurState.STATE_SKIP_PACKET, 1, 6, aud_nal_packet) ∧
    ((mp4_to_annexb_write (mp4_to_annexb_start_frame sample_state sample_next ⟨6, false⟩).2.1
        (mp4_to_annexb_start_frame sample_state sample_next ⟨6, false⟩).2.2
        [0, 0, 0, 2, 0x09]).bind
      (fun r => mp4_to_annexb_write r.2.1 r.2.2 [0xf0])).map
      (fun r => (r.1, r.2.1.cur_state, r.2.1.packet_size_left, r.2.1.frame_size_left,
        r.2.2.written)) =
      some (Status.OK, CurState.STATE_PACKET_SIZE, 0, 6, aud_nal_packet) := by
  refine ⟨by decide, by decide, by decide, by decide⟩

/-! ## Termination of the transform -/

theorem next_subsample_status (st : DecryptState) :
    (next_subsample st).1 = Status.OK ∨ (next_subsample st).1 = Status.BAD_DATA := by
  unfold next_subsample
  split
  · split
    · right; rfl
    · split
      · right; rfl
      · left; rfl
  · left; rfl

/-- A pass in which the cipher fails returns the status of the cipher. -/
theorem process_loop_cipher_fail (ks : Keystream) (f n : Nat) (st st1 : DecryptState)
    (src dest : List Nat) (h : next_subsample st = (Status.OK, st1))
    (hc : st.cipher.process_rc ≠ Status.OK) :
    ∃ st2 s d, process_loop ks (f + 1) st (n + 1) src dest =
      some (st.cipher.process_rc, st2, s, d) := by
  have hc1 := next_subsample_rc_cipher st st1 _ h
  rw [← hc1] at hc ⊢
  simp only [process_loop, h, Cipher.process, if_neg hc]
  cases hrc : st1.cipher.process_rc <;> first
    | exact absurd hrc hc
    | exact ⟨_, _, _, rfl⟩

/-- The loop of the transform ends within `size + subsample_count` passes, for every
state: with OK and exactly `size` bytes written, with `VOD_BAD_DATA`, or with the status
of the cipher. -/
theorem process_loop_ends (ks : Keystream) (f : Nat) :
    ∀ (st : DecryptState) (n : Nat) (src dest : List Nat),
      n + st.subsample_count ≤ f →
      ∃ rc st1 s d, process_loop ks f st n src dest = some (rc, st1, s, d) ∧
        (rc = Status.OK ∨ rc = Status.BAD_DATA ∨ rc = st.cipher.process_rc) ∧
        (rc = Status.OK → n ≤ src.length → d.length = dest.length + n) := by
  induction f with
  | zero =>
    intro st n src dest hf
    have : n = 0 := by omega
    subst this
    exact ⟨_, _, _, _, process_loop_zero ks 0 st src dest, Or.inl rfl, fun _ _ => rfl⟩
  | succ f ih =>
    intro st n src dest hf
    cases n with
    | zero => exact ⟨_, _, _, _, process_loop_zero ks _ st src dest, Or.inl rfl, fun _ _ => rfl⟩
    | succ n =>
      cases hns : next_subsample st with
      | mk rc st1 =>
        by_cases hrc : rc = Status.OK
        · subst hrc
          by_cases hc : st.cipher.process_rc = Status.OK
          · rw [process_loop_pass ks _ _ _ _ _ _ hns hc]
            have hc1 := next_subsample_rc_cipher st st1 _ hns
            have hm : (pass_result ks st1 (n + 1) src dest).2.1 +
                (pass_result ks st1 (n + 1) src dest).1.subsample_count ≤ f := by
              rcases next_subsample_progress st st1 hns with h | ⟨h1, h2⟩
              · simp only [pass_result]
                omega
              · subst h1
                simp only [pass_result]
                omega
            obtain ⟨rc, st2, s, d, e1, e2, e3⟩ := ih _ _ (pass_result ks st1 (n + 1) src dest).2.2.1
              (pass_result ks st1 (n + 1) src dest).2.2.2 hm
            refine ⟨rc, st2, s, d, e1, ?_, ?_⟩
            · rw [pass_result_cipher_rc, hc1] at e2
              exact e2
            · intro hok hlen
              have hco := cipher_process_ok ks st1.cipher
                ((src.drop (min st1.clear_bytes (n + 1))).take
                  (min st1.encrypted_bytes (n + 1 - min st1.clear_bytes (n + 1))))
                (by rw [hc1]; exact hc)
              have e4 := e3 hok (by
                simp only [pass_result, List.length_drop]
                omega)
              rw [e4]
              simp only [pass_result, hco, List.length_append, List.length_take,
                List.length_drop, keystream_xor_length]
              omega
          · obtain ⟨st2, s, d, e⟩ := process_loop_cipher_fail ks f n st st1 src dest hns hc
            exact ⟨_, st2, s, d, e, Or.inr (Or.inr rfl), fun h => absurd h hc⟩
        · refine ⟨rc, st1, src, dest, process_loop_fail ks _ _ _ _ _ _ _ hns hrc, ?_,
            fun h => absurd h hrc⟩
          have := next_subsample_status st
          rw [hns] at this
          rcases this with h | h
          · exact absurd h hrc
          · exact Or.inr (Or.inl h)

/-- C20: the transform terminates on every input.  For every decrypt state (whatever
the auxiliary info holds, entries with no clear and no encrypted bytes included) and every
requested size, (1) `mp4_decrypt_process`, whose loop is run for at most
`size + subsample_count` passes, returns: with OK, and then exactly `size` bytes have
been written when the input buffer holds that many, or with `VOD_BAD_DATA`, or with the
status of the cipher; (2) a pass of the loop that goes on either leaves fewer bytes to
produce or has used up one subsample entry, so that the bytes left plus the remaining
subsample count decrease with every pass. -/
theorem cenc_transform_terminates (ks : Keystream) (st : DecryptState) (size : Nat) :
    (∃ rc st1 w, mp4_decrypt_process ks st size = some (rc, st1, w) ∧
      (rc = Status.OK ∨ rc = Status.BAD_DATA ∨ rc = st.cipher.process_rc) ∧
      (rc = Status.OK → size ≤ st.input.length → w.length = size)) ∧
    (∀ (f : Nat) (src dest : List Nat) (st1 : DecryptState),
      next_subsample st = (Status.OK, st1) → st.cipher.process_rc = Status.OK →
      process_loop ks (f + 1) st (size + 1) src dest =
        process_loop ks f (pass_result ks st1 (size + 1) src dest).1
          (pass_result ks st1 (size + 1) src dest).2.1
          (pass_result ks st1 (size + 1) src dest).2.2.1
          (pass_result ks st1 (size + 1) src dest).2.2.2 ∧
      ((pass_result ks st1 (size + 1) src dest).2.1 < size + 1 ∨
        (pass_result ks st1 (size + 1) src dest).1.subsample_count + 1 = st.subsample_count) ∧
      (pass_result ks st1 (size + 1) src dest).2.1 +
          (pass_result ks st1 (size + 1) src dest).1.subsample_count <
        size + 1 + st.subsample_count) := by
  constructor
  · obtain ⟨rc, st1, s, d, h1, h2, h3⟩ :=
      process_loop_ends ks (size + st.subsample_count) st size st.input [] (le_refl _)
    unfold mp4_decrypt_process
    rw [h1]
    by_cases hrc : rc = Status.OK
    · subst hrc
      refine ⟨_, _, _, rfl, Or.inl rfl, fun _ hl => ?_⟩
      simpa using h3 rfl hl
    · refine ⟨rc, st1, d, ?_, h2, fun h => absurd h hrc⟩
      cases rc <;> first | exact absurd rfl hrc | rfl
  · intro f src dest st1 hns hc
    refine ⟨process_loop_pass ks _ _ _ _ _ _ hns hc, ?_, ?_⟩
    · rcases next_subsample_progress st st1 hns with h | ⟨h1, h2⟩
      · unfold next_subsample at hns
        split at hns
        · split at hns
          · simp at hns
          · split at hns
            · simp at hns
            · simp only [Prod.mk.injEq, true_and] at hns
              right
              rw [← hns]
              simp only [pass_result]
              omega
        · simp only [Prod.mk.injEq, true_and] at hns
          subst hns
          omega
      · subst h1
        left
        simp only [pass_result]
        omega
    · rcases next_subsample_progress st st1 hns with h | ⟨h1, h2⟩
      · simp only [pass_result]
        omega
      · subst h1
        simp only [pass_result]
        omega

theorem cenc_transform_terminates_witness :
    next_subsample sample_entry_done =
      (Status.OK, { sample_entry_done with auxiliary_info_pos := 30, subsample_count := 1 }) ∧
    sample_entry_done.cipher.process_rc = Status.OK ∧
    ((mp4_decrypt_process sample_keystream sample_started 12).map
      (fun r => (r.1, r.2.2.length)) = some (Status.OK, 12)) ∧
    (∃ rc st1 w, mp4_decrypt_process sample_keystream sample_entry_done 7 = some (rc, st1, w) ∧
      (rc = Status.OK ∨ rc = Status.BAD_DATA ∨ rc = sample_entry_done.cipher.process_rc) ∧
      (rc = Status.OK → 7 ≤ sample_entry_done.input.length → w.length = 7)) ∧
    (pass_result sample_keystream
          { sample_entry_done with auxiliary_info_pos := 30, subsample_count := 1 }
          (7 + 1) sample_entry_done.input []).2.1 +
        (pass_result sample_keystream
          { sample_entry_done with auxiliary_info_pos := 30, subsample_count := 1 }
          (7 + 1) sample_entry_done.input []).1.subsample_count <
      7 + 1 + sample_entry_done.subsample_count :=
  ⟨by decide, by decide, by decide,
    (cenc_transform_terminates sample_keystream sample_entry_done 7).1,
    ((cenc_transform_terminates sample_keystream sample_entry_done 7).2 0
      sample_entry_done.input []
      { sample_entry_done with auxiliary_info_pos := 30, subsample_count := 1 }
      (by decide) (by decide)).2.2⟩

/-! ## The result of a read -/

theorem read_space_cipher (st : DecryptState) :
    (read_space st).cipher = st.cipher ∧ (read_space st).reuse_buffers = st.reuse_buffers := by
  unfold read_space
  split
  · split <;> exact ⟨rfl, rfl⟩
  · exact ⟨rfl, rfl⟩

theorem read_pull_cipher (s : DecryptState) :
    (read_pull s).cipher = s.cipher ∧ (read_pull s).reuse_buffers = s.reuse_buffers ∧
      (read_pull s).output_end = s.output_end ∧ (read_pull s).output_pos = s.output_pos ∧
      (read_pull s).allocations = s.allocations ∧
      (read_pull s).output_allocated = s.output_allocated := by
  unfold read_pull
  split
  · split <;> exact ⟨rfl, rfl, rfl, rfl, rfl, rfl⟩
  · exact ⟨rfl, rfl, rfl, rfl, rfl, rfl⟩

/-- With a cipher that succeeds the transform returns, and it leaves alone every field
that is not one of the decryption fields or one of the two cursors. -/
theorem process_kept (ks : Keystream) (s : DecryptState) (n : Nat)
    (hc : s.cipher.process_rc = Status.OK) :
    ∃ rc s2 w, mp4_decrypt_process ks s n = some (rc, s2, w) ∧
      s2.input_size = s.input_size ∧ s2.frame_done = s.frame_done ∧
      s2.reuse_buffers = s.reuse_buffers ∧ s2.allocations = s.allocations ∧
      s2.output_end = s.output_end ∧ s2.output_allocated = s.output_allocated ∧
      s2.frames_source = s.frames_source ∧
      s2.output_pos = (if rc = Status.OK then s.output_pos + n else s.output_pos) := by
  obtain ⟨rc, s2, v2, w, h1, _, h3, h4, _⟩ :=
    process_env ks s s n [] hc rfl (by simp) (Or.inl rfl)
  refine ⟨rc, s2, w, h1, ?_⟩
  by_cases hok : rc = Status.OK
  · have e := (h3 hok).1
    rw [if_pos hok]
    refine ⟨?_, ?_, ?_, ?_, ?_, ?_, ?_, ?_⟩ <;> rw [e] <;> rfl
  · have e := h4 hok
    rw [if_neg hok]
    refine ⟨?_, ?_, ?_, ?_, ?_, ?_, ?_, ?_⟩ <;> rw [e] <;> rfl

/-- C16: the result of `read()`.  For every decrypt state whose buffer end is below
`2^32` (the output buffer has 65536 bytes), when the allocator, the underlying source and
the cipher succeed, `mp4_decrypt_read` returns; the size it reports is the minimum of the
free output space after the buffer reset, if any, and of the input bytes available after
the pull from the underlying source, if any; the buffered input size is reduced by exactly
that size; and the reported `frame_done` is true if and only if no buffered input
remains and the `frame_done` flag of the state, which a pull sets to what the underlying
source reported, is set. -/
theorem cenc_read_result (ks : Keystream) (st : DecryptState)
    (hr : st.frames_source.read_rc = Status.OK) (hc : st.cipher.process_rc = Status.OK)
    (ho : st.output_end < 2 ^ 32) :
    ∃ r, mp4_decrypt_read ks st true = some r ∧
      r.size = min ((read_space st).output_end - (read_space st).output_pos)
        (read_pull (read_space st)).input_size ∧
      r.st.input_size = (read_pull (read_space st)).input_size - r.size ∧
      (r.frame_done = true ↔
        r.st.input_size = 0 ∧ (read_pull (read_space st)).frame_done = true) ∧
      r.st.frame_done = (read_pull (read_space st)).frame_done ∧
      (st.input_size = 0 →
        (read_pull (read_space st)).input_size = st.frames_source.read.2.2.1.length % 2 ^ 32 ∧
        (read_pull (read_space st)).frame_done = st.frames_source.read.2.2.2) ∧
      (st.input_size ≠ 0 →
        (read_pull (read_space st)).input_size = st.input_size ∧
        (read_pull (read_space st)).frame_done = st.frame_done) := by
  have hP : ({ read_pull (read_space st) with
      input_size := (read_pull (read_space st)).input_size -
        read_size (read_pull (read_space st)) } : DecryptState).cipher.process_rc = Status.OK := by
    show (read_pull (read_space st)).cipher.process_rc = Status.OK
    rw [(read_pull_cipher _).1, (read_space_cipher st).1]
    exact hc
  obtain ⟨rc, s2, w, h1, h2, h3, _⟩ := process_kept ks _ (read_size (read_pull (read_space st))) hP
  have hsz : read_size (read_pull (read_space st)) =
      min ((read_space st).output_end - (read_space st).output_pos)
        (read_pull (read_space st)).input_size := by
    unfold read_size
    rw [(read_pull_cipher _).2.2.1, (read_pull_cipher _).2.2.2.1]
    have : (read_space st).output_end - (read_space st).output_pos < 2 ^ 32 := by
      have : (read_space st).output_end < 2 ^ 32 := by
        unfold read_space
        split
        · split
          · simp [BUFFER_SIZE]
          · exact ho
        · exact ho
      omega
    rw [Nat.mod_eq_of_lt this]
  have hin : (read_space st).input_size = st.input_size := (read_space_fields st).2.2.1
  refine ⟨_, by rw [read_eq ks st hr, h1], ?_, ?_, ?_, ?_, ?_, ?_⟩
  · exact hsz
  · show s2.input_size = _
    rw [h2]
  · show (if (read_pull (read_space st)).input_size - read_size (read_pull (read_space st)) ≤ 0
      then (read_pull (read_space st)).frame_done else false) = true ↔ s2.input_size = 0 ∧ _
    rw [h2]
    simp only []
    by_cases hz : (read_pull (read_space st)).input_size -
        read_size (read_pull (read_space st)) ≤ 0
    · rw [if_pos hz]
      constructor
      · intro h; exact ⟨by omega, h⟩
      · intro h; exact h.2
    · rw [if_neg hz]
      constructor
      · intro h; exact absurd h (by simp)
      · intro h; omega
  · show s2.frame_done = _
    rw [h3]
  · intro hz
    have hf : (read_space st).frames_source = st.frames_source := (read_space_fields st).2.2.2
    unfold read_pull FramesSource.read
    rw [hin, hf, if_pos (by omega), if_pos hr]
    cases hp : st.frames_source.pending with
    | nil => exact ⟨rfl, rfl⟩
    | cons c rest =>
      obtain ⟨chunk, done⟩ := c
      exact ⟨rfl, rfl⟩
  · intro hz
    unfold read_pull
    rw [hin, if_neg (by omega)]
    exact ⟨hin, by unfold read_space; split <;> (try split) <;> rfl⟩

theorem cenc_read_result_witness :
    (mp4_decrypt_start_frame (sample_decrypt [])).2.frames_source.read_rc = Status.OK ∧
    (mp4_decrypt_start_frame (sample_decrypt [])).2.cipher.process_rc = Status.OK ∧
    (mp4_decrypt_start_frame (sample_decrypt [])).2.output_end < 2 ^ 32 ∧
    ((mp4_decrypt_read sample_keystream (mp4_decrypt_start_frame (sample_decrypt [])).2 true).map
      (fun r => (r.rc, r.size, r.frame_done, r.st.input_size)) =
        some (Status.OK, 5, false, 0)) ∧
    ∃ r, mp4_decrypt_read sample_keystream (mp4_decrypt_start_frame (sample_decrypt [])).2 true =
        some r ∧
      r.size = min ((read_space (mp4_decrypt_start_frame (sample_decrypt [])).2).output_end -
          (read_space (mp4_decrypt_start_frame (sample_decrypt [])).2).output_pos)
        (read_pull (read_space (mp4_decrypt_start_frame (sample_decrypt [])).2)).input_size ∧
      r.st.input_size =
        (read_pull (read_space (mp4_decrypt_start_frame (sample_decrypt [])).2)).input_size -
          r.size ∧
      (r.frame_done = true ↔
        r.st.input_size = 0 ∧
          (read_pull (read_space (mp4_decrypt_start_frame (sample_decrypt [])).2)).frame_done =
            true) ∧
      r.st.frame_done =
        (read_pull (read_space (mp4_decrypt_start_frame (sample_decrypt [])).2)).frame_done ∧
      ((mp4_decrypt_start_frame (sample_decrypt [])).2.input_size = 0 →
        (read_pull (read_space (mp4_decrypt_start_frame (sample_decrypt [])).2)).input_size =
          (mp4_decrypt_start_frame (sample_decrypt [])).2.frames_source.read.2.2.1.length %
            2 ^ 32 ∧
        (read_pull (read_space (mp4_decrypt_start_frame (sample_decrypt [])).2)).frame_done =
          (mp4_decrypt_start_frame (sample_decrypt [])).2.frames_source.read.2.2.2) ∧
      ((mp4_decrypt_start_frame (sample_decrypt [])).2.input_size ≠ 0 →
        (read_pull (read_space (mp4_decrypt_start_frame (sample_decrypt [])).2)).input_size =
          (mp4_decrypt_start_frame (sample_decrypt [])).2.input_size ∧
        (read_pull (read_space (mp4_decrypt_start_frame (sample_decrypt [])).2)).frame_done =
          (mp4_decrypt_start_frame (sample_decrypt [])).2.frame_done) :=
  ⟨by decide, by decide, by decide, by decide,
    cenc_read_result sample_keystream (mp4_decrypt_start_frame (sample_decrypt [])).2
      (by decide) (by decide) (by decide)⟩

/-! ## Fields that the decrypt functions leave alone -/

theorem keeps_refl (st : DecryptState) : Keeps st st :=
  ⟨rfl, rfl, rfl, rfl, rfl, rfl, rfl, rfl, rfl, rfl, rfl, rfl, le_refl _, fun h => h⟩

theorem keeps_trans (a b c : DecryptState) (h1 : Keeps a b) (h2 : Keeps b c) : Keeps a c := by
  obtain ⟨a1, a2, a3, a4, a5, a6, a7, a8, a9, a10, a11, a12, a13, a14⟩ := h1
  obtain ⟨b1, b2, b3, b4, b5, b6, b7, b8, b9, b10, b11, b12, b13, b14⟩ := h2
  exact ⟨b1.trans a1, b2.trans a2, b3.trans a3, b4.trans a4, b5.trans a5, b6.trans a6,
    b7.trans a7, b8.trans a8, b9.trans a9, b10.trans a10, b11.trans a11, b12.trans a12,
    le_trans a13 b13, fun h => b14 (a14 h)⟩

theorem next_subsample_keeps (st : DecryptState) :
    Keeps st (next_subsample st).2 ∧ (next_subsample st).2.input = st.input ∧
      (next_subsample st).2.output_pos = st.output_pos := by
  unfold next_subsample
  split
  · split
    · exact ⟨keeps_refl st, rfl, rfl⟩
    · split
      · exact ⟨keeps_refl st, rfl, rfl⟩
      · rename_i h
        refine ⟨⟨rfl, rfl, rfl, rfl, rfl, rfl, rfl, rfl, rfl, rfl, rfl, rfl, ?_, ?_⟩, rfl, rfl⟩
        · show st.auxiliary_info_pos ≤ st.auxiliary_info_pos + 2 + 4
          omega
        · intro _
          show st.auxiliary_info_pos + 2 + 4 ≤ st.auxiliary_info_end
          unfold SUBSAMPLE_SIZE at h
          omega
  · exact ⟨keeps_refl st, rfl, rfl⟩

theorem pass_result_keeps (ks : Keystream) (st : DecryptState) (n : Nat) (src dest : List Nat) :
    Keeps st (pass_result ks st n src dest).1 ∧
      (pass_result ks st n src dest).1.input = st.input ∧
      (pass_result ks st n src dest).1.output_pos = st.output_pos :=
  ⟨⟨rfl, rfl, rfl, rfl, rfl, rfl, rfl, rfl, rfl, rfl, rfl, cipher_process_rc ks _ _,
    le_refl _, fun h => h⟩, rfl, rfl⟩

/-- The exact result of a pass in which the cipher fails. -/
theorem process_loop_cipher_fail_eq (ks : Keystream) (f n : Nat) (st st1 : DecryptState)
    (src dest : List Nat) (h : next_subsample st = (Status.OK, st1))
    (hc : st.cipher.process_rc ≠ Status.OK) :
    process_loop ks (f + 1) st (n + 1) src dest =
      some (st.cipher.process_rc,
        { st1 with clear_bytes := st1.clear_bytes -
            (if st1.clear_bytes > 0 then min st1.clear_bytes (n + 1) else 0) },
        src.drop (if st1.clear_bytes > 0 then min st1.clear_bytes (n + 1) else 0),
        dest ++ src.take (if st1.clear_bytes > 0 then min st1.clear_bytes (n + 1) else 0)) := by
  have hc1 := next_subsample_rc_cipher st st1 _ h
  rw [← hc1] at hc ⊢
  simp only [process_loop, h, Cipher.process, if_neg hc]

theorem process_loop_keeps (ks : Keystream) (f : Nat) :
    ∀ (st : DecryptState) (n : Nat) (src dest : List Nat)
      (r : Status × DecryptState × List Nat × List Nat),
      process_loop ks f st n src dest = some r →
      Keeps st r.2.1 ∧ r.2.1.input = st.input ∧ r.2.1.output_pos = st.output_pos := by
  induction f with
  | zero =>
    intro st n src dest r h
    cases n with
    | zero =>
      rw [process_loop_zero] at h
      simp only [Option.some.injEq] at h
      rw [← h]
      exact ⟨keeps_refl st, rfl, rfl⟩
    | succ n => simp [process_loop] at h
  | succ f ih =>
    intro st n src dest r h
    cases n with
    | zero =>
      rw [process_loop_zero] at h
      simp only [Option.some.injEq] at h
      rw [← h]
      exact ⟨keeps_refl st, rfl, rfl⟩
    | succ n =>
      cases hns : next_subsample st with
      | mk rc st1 =>
        have hk := next_subsample_keeps st
        rw [hns] at hk
        obtain ⟨k1, k2, k3⟩ := hk
        by_cases hrc : rc = Status.OK
        · subst hrc
          by_cases hc : st.cipher.process_rc = Status.OK
          · rw [process_loop_pass ks _ _ _ _ _ _ hns hc] at h
            obtain ⟨e1, e2, e3⟩ := ih _ _ _ _ r h
            obtain ⟨p1, p2, p3⟩ := pass_result_keeps ks st1 (n + 1) src dest
            exact ⟨keeps_trans _ _ _ k1 (keeps_trans _ _ _ p1 e1),
              e2.trans (p2.trans k2), e3.trans (p3.trans k3)⟩
          · rw [process_loop_cipher_fail_eq ks f n st st1 src dest hns hc] at h
            simp only [Option.some.injEq] at h
            rw [← h]
            refine ⟨keeps_trans _ _ _ k1 ?_, k2, k3⟩
            exact ⟨rfl, rfl, rfl, rfl, rfl, rfl, rfl, rfl, rfl, rfl, rfl, rfl, le_refl _,
              fun h => h⟩
        · rw [process_loop_fail ks _ _ _ _ _ _ _ hns hrc] at h
          simp only [Option.some.injEq] at h
          rw [← h]
          exact ⟨k1, k2, k3⟩

/-- The transform returns for every state, and keeps what `Keeps` lists; the output
cursor advances by the size when the status is OK and stays otherwise. -/
theorem process_keeps (ks : Keystream) (st : DecryptState) (n : Nat) :
    ∃ rc st1 w, mp4_decrypt_process ks st n = some (rc, st1, w) ∧ Keeps st st1 ∧
      st1.output_pos = (if rc = Status.OK then st.output_pos + n else st.output_pos) := by
  obtain ⟨rc, st1, s, d, h1, _, _⟩ :=
    process_loop_ends ks (n + st.subsample_count) st n st.input [] (le_refl _)
  obtain ⟨k1, _, k3⟩ := process_loop_keeps ks _ st n _ _ _ h1
  unfold mp4_decrypt_process
  rw [h1]
  by_cases hrc : rc = Status.OK
  · subst hrc
    refine ⟨_, _, _, rfl, k1, ?_⟩
    rw [if_pos rfl]
    show st1.output_pos + n = _
    simp only [] at k3
    rw [k3]
  · refine ⟨rc, st1, d, ?_, k1, ?_⟩
    · cases rc <;> first | exact absurd rfl hrc | rfl
    · rw [if_neg hrc]; exact k3

theorem start_frame_keeps (st : DecryptState) : Keeps st (mp4_decrypt_start_frame st).2 := by
  unfold mp4_decrypt_start_frame
  split
  · exact keeps_refl st
  · split
    · exact keeps_refl st
    · rename_i h16
      simp only []
      split
      · refine ⟨rfl, rfl, rfl, rfl, rfl, rfl, rfl, rfl, rfl, rfl, rfl, rfl, ?_, ?_⟩
        · show st.auxiliary_info_pos ≤ st.auxiliary_info_pos + MP4_AES_CTR_IV_SIZE
          omega
        · intro _
          show st.auxiliary_info_pos + MP4_AES_CTR_IV_SIZE ≤ st.auxiliary_info_end
          omega
      · split
        · refine ⟨rfl, rfl, rfl, rfl, rfl, rfl, rfl, rfl, rfl, rfl, rfl, rfl, ?_, ?_⟩
          · show st.auxiliary_info_pos ≤ st.auxiliary_info_pos + MP4_AES_CTR_IV_SIZE
            omega
          · intro _
            show st.auxiliary_info_pos + MP4_AES_CTR_IV_SIZE ≤ st.auxiliary_info_end
            omega
        · rename_i h8
          have h8b : st.auxiliary_info_pos + MP4_AES_CTR_IV_SIZE + 2 + SUBSAMPLE_SIZE ≤
              st.auxiliary_info_end := by
            have : ¬ (st.auxiliary_info_pos + MP4_AES_CTR_IV_SIZE + 2 + SUBSAMPLE_SIZE >
              st.auxiliary_info_end) := h8
            omega
          unfold SUBSAMPLE_SIZE at h8b
          split
          · refine ⟨rfl, rfl, rfl, rfl, rfl, rfl, rfl, rfl, rfl, rfl, rfl, rfl, ?_, ?_⟩
            · show st.auxiliary_info_pos ≤ st.auxiliary_info_pos + MP4_AES_CTR_IV_SIZE + 2
              omega
            · intro _
              show st.auxiliary_info_pos + MP4_AES_CTR_IV_SIZE + 2 ≤ st.auxiliary_info_end
              omega
          · refine ⟨rfl, rfl, rfl, rfl, rfl, rfl, rfl, rfl, rfl, rfl, rfl, rfl, ?_, ?_⟩
            · show st.auxiliary_info_pos ≤ st.auxiliary_info_pos + MP4_AES_CTR_IV_SIZE + 2 + 2 + 4
              omega
            · intro _
              show st.auxiliary_info_pos + MP4_AES_CTR_IV_SIZE + 2 + 2 + 4 ≤
                st.auxiliary_info_end
              omega

theorem cursor_keeps_refl (st : DecryptState) : CursorKeeps st st :=
  ⟨rfl, rfl, rfl, le_refl _, fun h => h⟩

theorem cursor_keeps_trans (a b c : DecryptState) (h1 : CursorKeeps a b)
    (h2 : CursorKeeps b c) : CursorKeeps a c := by
  obtain ⟨a1, a2, a3, a4, a5⟩ := h1
  obtain ⟨b1, b2, b3, b4, b5⟩ := h2
  exact ⟨b1.trans a1, b2.trans a2, b3.trans a3, le_trans a4 b4, fun h => b5 (a5 h)⟩

theorem cursor_keeps_of_keeps (a b : DecryptState) (h : Keeps a b) : CursorKeeps a b :=
  ⟨h.2.1, h.2.2.2.2.1, h.2.2.2.2.2.1, h.2.2.2.2.2.2.2.2.2.2.2.2.1, h.2.2.2.2.2.2.2.2.2.2.2.2.2⟩

/-- The way `mp4_decrypt_read` is made of its three steps. -/
theorem read_unfold (ks : Keystream) (st : DecryptState) (alloc_ok : Bool) :
    mp4_decrypt_read ks st alloc_ok =
      match read_space_step st alloc_ok with
      | (Status.OK, st1) =>
        match read_pull_step st1 with
        | (Status.OK, st2) =>
          match mp4_decrypt_process ks
              { st2 with
                input_size :=
                  (st2.input_size - min ((st2.output_end - st2.output_pos) % 2 ^ 32) st2.input_size) }
              (min ((st2.output_end - st2.output_pos) % 2 ^ 32) st2.input_size) with
          | some (rc, st4, written) =>
            some ⟨rc, st4, written, min ((st2.output_end - st2.output_pos) % 2 ^ 32) st2.input_size,
              if st2.input_size - min ((st2.output_end - st2.output_pos) % 2 ^ 32) st2.input_size ≤ 0
              then st2.frame_done else false⟩
          | none => none
        | (rc, st2) => some ⟨rc, st2, [], 0, false⟩
      | (rc, st1) => some ⟨rc, st1, [], 0, false⟩ := rfl

theorem read_space_step_keeps (st : DecryptState) (alloc_ok : Bool) :
    CursorKeeps st (read_space_step st alloc_ok).2 ∧
      (read_space_step st alloc_ok).2.cipher = st.cipher ∧
      (read_space_step st alloc_ok).2.subsample_count = st.subsample_count ∧
      (read_space_step st alloc_ok).2.clear_bytes = st.clear_bytes ∧
      (read_space_step st alloc_ok).2.encrypted_bytes = st.encrypted_bytes ∧
      (read_space_step st alloc_ok).2.auxiliary_info_pos = st.auxiliary_info_pos := by
  unfold read_space_step
  split
  · split
    · split <;> exact ⟨cursor_keeps_refl st, rfl, rfl, rfl, rfl, rfl⟩
    · exact ⟨cursor_keeps_refl st, rfl, rfl, rfl, rfl, rfl⟩
  · exact ⟨cursor_keeps_refl st, rfl, rfl, rfl, rfl, rfl⟩

theorem read_pull_step_keeps (st : DecryptState) :
    CursorKeeps st (read_pull_step st).2 ∧
      (read_pull_step st).2.cipher = st.cipher ∧
      (read_pull_step st).2.subsample_count = st.subsample_count ∧
      (read_pull_step st).2.clear_bytes = st.clear_bytes ∧
      (read_pull_step st).2.encrypted_bytes = st.encrypted_bytes ∧
      (read_pull_step st).2.auxiliary_info_pos = st.auxiliary_info_pos ∧
      (read_pull_step st).2.output_pos = st.output_pos ∧
      (read_pull_step st).2.output_end = st.output_end ∧
      (read_pull_step st).2.output_allocated = st.output_allocated ∧
      (read_pull_step st).2.allocations = st.allocations := by
  unfold read_pull_step
  split
  · split <;> exact ⟨cursor_keeps_refl st, rfl, rfl, rfl, rfl, rfl, rfl, rfl, rfl, rfl⟩
  · exact ⟨cursor_keeps_refl st, rfl, rfl, rfl, rfl, rfl, rfl, rfl, rfl, rfl⟩

/-- `mp4_decrypt_read` returns for every state and every outcome of the allocator, the
source and the cipher, and keeps what `CursorKeeps` lists. -/
theorem read_keeps (ks : Keystream) (st : DecryptState) (alloc_ok : Bool) :
    ∃ r, mp4_decrypt_read ks st alloc_ok = some r ∧ CursorKeeps st r.st := by
  rw [read_unfold]
  have k1 := (read_space_step_keeps st alloc_ok).1
  cases hsp : read_space_step st alloc_ok with
  | mk rc1 st1 =>
    rw [hsp] at k1
    by_cases h1 : rc1 = Status.OK
    · subst h1
      have k2 := (read_pull_step_keeps st1).1
      dsimp only
      cases hpl : read_pull_step st1 with
      | mk rc2 st2 =>
        rw [hpl] at k2
        by_cases h2 : rc2 = Status.OK
        · subst h2
          dsimp only
          obtain ⟨rc, st4, w, e, k3, _⟩ := process_keeps ks
            { st2 with
              input_size :=
                (st2.input_size - min ((st2.output_end - st2.output_pos) % 2 ^ 32) st2.input_size) }
            (min ((st2.output_end - st2.output_pos) % 2 ^ 32) st2.input_size)
          simp only [e]
          refine ⟨_, rfl, cursor_keeps_trans _ _ _ k1 (cursor_keeps_trans _ _ _ k2 ?_)⟩
          have k4 := cursor_keeps_of_keeps _ _ k3
          exact k4
        · refine ⟨⟨rc2, st2, [], 0, false⟩, ?_, cursor_keeps_trans _ _ _ k1 k2⟩
          cases rc2 <;> first | exact absurd rfl h2 | rfl
    · refine ⟨⟨rc1, st1, [], 0, false⟩, ?_, k1⟩
      cases rc1 <;> first | exact absurd rfl h1 | rfl

/-! ## The buffer-reuse switch -/

/-- The output buffer after a read that returned OK: a fresh buffer of `BUFFER_SIZE`
bytes, filled from its start, when the old one had no more than `MIN_BUFFER_SIZE` bytes
left and is not reused; the old buffer otherwise, filled from its start when it is reused
and from the old cursor when it had room. -/
theorem read_output (ks : Keystream) (s : DecryptState) (alloc_ok : Bool) (r : ReadResult)
    (h : mp4_decrypt_read ks s alloc_ok = some r) (hok : r.rc = Status.OK) :
    (s.output_pos + MIN_BUFFER_SIZE ≥ s.output_end →
      (!s.reuse_buffers || !s.output_allocated) = true →
      r.st.allocations = s.allocations + 1 ∧ r.st.output_end = BUFFER_SIZE ∧
        r.st.output_pos = r.size) ∧
    (s.output_pos + MIN_BUFFER_SIZE ≥ s.output_end →
      (!s.reuse_buffers || !s.output_allocated) = false →
      r.st.allocations = s.allocations ∧ r.st.output_end = s.output_end ∧
        r.st.output_pos = r.size) ∧
    (s.output_pos + MIN_BUFFER_SIZE < s.output_end →
      r.st.allocations = s.allocations ∧ r.st.output_end = s.output_end ∧
        r.st.output_pos = s.output_pos + r.size) := by
  rw [read_unfold] at h
  cases hsp : read_space_step s alloc_ok with
  | mk rc1 st1 =>
    rw [hsp] at h
    by_cases h1 : rc1 = Status.OK
    · subst h1
      dsimp only at h
      obtain ⟨_, _, _, _, _, _, p1, p2, _, p4⟩ := read_pull_step_keeps st1
      cases hpl : read_pull_step st1 with
      | mk rc2 st2 =>
        rw [hpl] at h p1 p2 p4
        simp only [] at p1 p2 p4
        by_cases h2 : rc2 = Status.OK
        · subst h2
          dsimp only at h
          obtain ⟨rc, st4, w, e, k3, k4⟩ := process_keeps ks
            { st2 with
              input_size :=
                (st2.input_size - min ((st2.output_end - st2.output_pos) % 2 ^ 32) st2.input_size) }
            (min ((st2.output_end - st2.output_pos) % 2 ^ 32) st2.input_size)
          rw [e] at h
          simp only [Option.some.injEq] at h
          subst h
          simp only [] at hok
          rw [if_pos hok] at k4
          have ka : st4.allocations = st1.allocations := k3.2.2.2.2.2.2.2.2.2.2.1.trans p4
          have ke : st4.output_end = st1.output_end := k3.2.2.2.2.2.2.2.2.2.1.trans p2
          have kp : st4.output_pos = st1.output_pos +
              min ((st2.output_end - st2.output_pos) % 2 ^ 32) st2.input_size := by
            rw [k4]
            show st2.output_pos + _ = _
            rw [p1]
          simp only []
          rw [ka, ke, kp]
          unfold read_space_step at hsp
          refine ⟨fun c1 c2 => ?_, fun c1 c2 => ?_, fun c1 => ?_⟩
          · rw [if_pos c1, if_pos c2] at hsp
            split at hsp
            · simp at hsp
            · simp only [Prod.mk.injEq, true_and] at hsp
              subst hsp
              exact ⟨rfl, rfl, by simp⟩
          · rw [if_pos c1, if_neg (by simp [c2])] at hsp
            simp only [Prod.mk.injEq, true_and] at hsp
            subst hsp
            exact ⟨rfl, rfl, by simp⟩
          · rw [if_neg (by omega)] at hsp
            simp only [Prod.mk.injEq, true_and] at hsp
            subst hsp
            exact ⟨rfl, rfl, rfl⟩
        · exfalso
          have : r.rc = rc2 := by
            cases rc2 <;> first
              | exact absurd rfl h2
              | (simp only [Option.some.injEq] at h; rw [← h])
          exact h2 (this.symm.trans hok)
    · exfalso
      have : r.rc = rc1 := by
        cases rc1 <;> first
          | exact absurd rfl h1
          | (simp only [Option.some.injEq] at h; rw [← h])
      exact h1 (this.symm.trans hok)

/-- C17 (amended): `disable_buffer_reuse` is a one-way switch.  It clears
`reuse_buffers`, and no operation sets it again: `start_frame`, `read` (whatever its
status), `set_cache_slot_id` and `disable_buffer_reuse` leave it cleared.  With the switch
cleared, a read that returns OK and finds no more than `MIN_BUFFER_SIZE` bytes between the
output cursor and the end of the buffer allocates a fresh buffer of 65536 bytes and fills
it from its start; a read that finds more room allocates nothing and goes on in the
existing buffer, behind the bytes returned before. -/
theorem cenc_buffer_reuse_disabled (ks : Keystream) (st : DecryptState) :
    (mp4_decrypt_disable_buffer_reuse st).reuse_buffers = false ∧
    (st.reuse_buffers = false →
      (mp4_decrypt_start_frame st).2.reuse_buffers = false ∧
      (∀ id, (mp4_decrypt_set_cache_slot_id st id).reuse_buffers = false) ∧
      (mp4_decrypt_disable_buffer_reuse st).reuse_buffers = false ∧
      ∀ alloc_ok, ∃ r, mp4_decrypt_read ks st alloc_ok = some r ∧
        r.st.reuse_buffers = false ∧
        (r.rc = Status.OK →
          (st.output_pos + MIN_BUFFER_SIZE ≥ st.output_end →
            r.st.allocations = st.allocations + 1 ∧ r.st.output_end = BUFFER_SIZE ∧
              r.st.output_pos = r.size) ∧
          (st.output_pos + MIN_BUFFER_SIZE < st.output_end →
            r.st.allocations = st.allocations ∧ r.st.output_end = st.output_end ∧
              r.st.output_pos = st.output_pos + r.size))) := by
  refine ⟨rfl, fun hd => ⟨?_, fun _ => hd, rfl, fun alloc_ok => ?_⟩⟩
  · rw [(start_frame_keeps st).2.1]; exact hd
  · obtain ⟨r, h1, h2⟩ := read_keeps ks st alloc_ok
    refine ⟨r, h1, by rw [h2.1]; exact hd, fun hok => ?_⟩
    obtain ⟨o1, _, o3⟩ := read_output ks st alloc_ok r h1 hok
    exact ⟨fun c => o1 c (by simp [hd]), o3⟩

theorem cenc_buffer_reuse_disabled_witness :
    (mp4_decrypt_disable_buffer_reuse sample_started).reuse_buffers = false ∧
    ((mp4_decrypt_read sample_keystream (mp4_decrypt_disable_buffer_reuse sample_started)
        true).map (fun r => (r.rc, r.size, r.st.allocations, r.st.output_pos)) =
      some (Status.OK, 12, 1, 12)) ∧
    (mp4_decrypt_start_frame (mp4_decrypt_disable_buffer_reuse sample_started)).2.reuse_buffers =
      false ∧
    (∀ id, (mp4_decrypt_set_cache_slot_id (mp4_decrypt_disable_buffer_reuse sample_started)
      id).reuse_buffers = false) ∧
    (mp4_decrypt_disable_buffer_reuse
      (mp4_decrypt_disable_buffer_reuse sample_started)).reuse_buffers = false ∧
    ∀ alloc_ok, ∃ r,
      mp4_decrypt_read sample_keystream (mp4_decrypt_disable_buffer_reuse sample_started)
        alloc_ok = some r ∧
      r.st.reuse_buffers = false ∧
      (r.rc = Status.OK →
        ((mp4_decrypt_disable_buffer_reuse sample_started).output_pos + MIN_BUFFER_SIZE ≥
            (mp4_decrypt_disable_buffer_reuse sample_started).output_end →
          r.st.allocations = (mp4_decrypt_disable_buffer_reuse sample_started).allocations + 1 ∧
            r.st.output_end = BUFFER_SIZE ∧ r.st.output_pos = r.size) ∧
        ((mp4_decrypt_disable_buffer_reuse sample_started).output_pos + MIN_BUFFER_SIZE <
            (mp4_decrypt_disable_buffer_reuse sample_started).output_end →
          r.st.allocations = (mp4_decrypt_disable_buffer_reuse sample_started).allocations ∧
            r.st.output_end = (mp4_decrypt_disable_buffer_reuse sample_started).output_end ∧
            r.st.output_pos =
              (mp4_decrypt_disable_buffer_reuse sample_started).output_pos + r.size)) :=
  ⟨by decide, by decide,
    (cenc_buffer_reuse_disabled sample_keystream
      (mp4_decrypt_disable_buffer_reuse sample_started)).2 (by decide)⟩

/-- C17 (as stated) fails: after `disable_buffer_reuse` the first read of the sample
frame allocates a buffer and returns 5 bytes; the second read returns OK with 7 bytes
and allocates nothing: the number of allocations stays 1 and the bytes are written behind
the first 5, the output cursor ending at 12. -/
theorem cenc_buffer_reuse_disabled_counterexample :
    (mp4_decrypt_disable_buffer_reuse
      (mp4_decrypt_start_frame (sample_decrypt [])).2).reuse_buffers = false ∧
    ((mp4_decrypt_read sample_keystream
        (mp4_decrypt_disable_buffer_reuse (mp4_decrypt_start_frame (sample_decrypt [])).2)
        true).map (fun r => (r.rc, r.size, r.st.allocations, r.st.output_pos)) =
      some (Status.OK, 5, 1, 5)) ∧
    (((mp4_decrypt_read sample_keystream
        (mp4_decrypt_disable_buffer_reuse (mp4_decrypt_start_frame (sample_decrypt [])).2)
        true).bind (fun r => mp4_decrypt_read sample_keystream r.st true)).map
      (fun r => (r.rc, r.size, r.st.reuse_buffers, r.st.allocations, r.st.output_pos)) =
      some (Status.OK, 7, false, 1, 12)) := by
  refine ⟨by decide, by decide, by decide⟩

/-! ## The auxiliary-info buffer is read below its end only -/

theorem getD_agree (a b : List Nat) (e i : Nat) (h : a.take e = b.take e) (hi : i < e) :
    a.getD i 0 = b.getD i 0 := by
  have ha : (a.take e)[i]? = a[i]? := List.getElem?_take_of_lt hi
  have hb : (b.take e)[i]? = b[i]? := List.getElem?_take_of_lt hi
  rw [List.getD_eq_getElem?_getD, List.getD_eq_getElem?_getD, ← ha, ← hb, h]

theorem slice_agree (a b : List Nat) (e p k : Nat) (h : a.take e = b.take e)
    (hk : p + k ≤ e) : (a.drop p).take k = (b.drop p).take k := by
  have key : ∀ l : List Nat, (l.drop p).take k = ((l.take e).drop p).take k := by
    intro l
    rw [List.drop_take, List.take_take, min_eq_left (by omega)]
  rw [key a, key b, h]

theorem read_be16_agree (a b : List Nat) (e p : Nat) (h : a.take e = b.take e)
    (hp : p + 2 ≤ e) : read_be16 a p = read_be16 b p := by
  unfold read_be16
  rw [getD_agree a b e p h (by omega), getD_agree a b e (p + 1) h (by omega)]

theorem read_be32_agree (a b : List Nat) (e p : Nat) (h : a.take e = b.take e)
    (hp : p + 4 ≤ e) : read_be32 a p = read_be32 b p := by
  unfold read_be32
  rw [getD_agree a b e p h (by omega), getD_agree a b e (p + 1) h (by omega),
    getD_agree a b e (p + 2) h (by omega), getD_agree a b e (p + 3) h (by omega)]

theorem next_subsample_with_aux (st : DecryptState) (aux : List Nat)
    (h : st.auxiliary_info.take st.auxiliary_info_end = aux.take st.auxiliary_info_end) :
    next_subsample (with_aux st aux) =
      ((next_subsample st).1, with_aux (next_subsample st).2 aux) := by
  unfold next_subsample
  by_cases h1 : st.clear_bytes ≤ 0 ∧ st.encrypted_bytes ≤ 0
  · have h1b : (with_aux st aux).clear_bytes ≤ 0 ∧ (with_aux st aux).encrypted_bytes ≤ 0 := h1
    rw [if_pos h1, if_pos h1b]
    by_cases h2 : st.subsample_count ≤ 0
    · have h2b : (with_aux st aux).subsample_count ≤ 0 := h2
      rw [if_pos h2, if_pos h2b]
    · have h2b : ¬ (with_aux st aux).subsample_count ≤ 0 := h2
      rw [if_neg h2, if_neg h2b]
      by_cases h3 : st.auxiliary_info_pos + SUBSAMPLE_SIZE > st.auxiliary_info_end
      · have h3b : (with_aux st aux).auxiliary_info_pos + SUBSAMPLE_SIZE >
            (with_aux st aux).auxiliary_info_end := h3
        rw [if_pos h3, if_pos h3b]
      · have h3b : ¬ (with_aux st aux).auxiliary_info_pos + SUBSAMPLE_SIZE >
            (with_aux st aux).auxiliary_info_end := h3
        rw [if_neg h3, if_neg h3b]
        unfold SUBSAMPLE_SIZE at h3
        have e1 : read_be16 aux st.auxiliary_info_pos =
            read_be16 st.auxiliary_info st.auxiliary_info_pos :=
          (read_be16_agree _ _ st.auxiliary_info_end _ h (by omega)).symm
        have e2 : read_be32 aux (st.auxiliary_info_pos + 2) =
            read_be32 st.auxiliary_info (st.auxiliary_info_pos + 2) :=
          (read_be32_agree _ _ st.auxiliary_info_end _ h (by omega)).symm
        simp only [with_aux]
        rw [e1, e2]
  · have h1b : ¬ ((with_aux st aux).clear_bytes ≤ 0 ∧ (with_aux st aux).encrypted_bytes ≤ 0) := h1
    rw [if_neg h1, if_neg h1b]

theorem process_loop_with_aux (ks : Keystream) (aux : List Nat) (f : Nat) :
    ∀ (st : DecryptState) (n : Nat) (src dest : List Nat),
      st.auxiliary_info.take st.auxiliary_info_end = aux.take st.auxiliary_info_end →
      process_loop ks f (with_aux st aux) n src dest =
        (process_loop ks f st n src dest).map
          (fun r => (r.1, with_aux r.2.1 aux, r.2.2.1, r.2.2.2)) := by
  induction f with
  | zero =>
    intro st n src dest _
    cases n with
    | zero => simp [process_loop]
    | succ n => rfl
  | succ f ih =>
    intro st n src dest h
    cases n with
    | zero => simp [process_loop]
    | succ n =>
      have hns2 := next_subsample_with_aux st aux h
      cases hns : next_subsample st with
      | mk rc st1 =>
        rw [hns] at hns2
        simp only [] at hns2
        have hk := (next_subsample_keeps st).1
        rw [hns] at hk
        have h1 : st1.auxiliary_info.take st1.auxiliary_info_end =
            aux.take st1.auxiliary_info_end := by
          rw [hk.2.2.2.2.1, hk.2.2.2.2.2.1]; exact h
        by_cases hrc : rc = Status.OK
        · subst hrc
          by_cases hc : st.cipher.process_rc = Status.OK
          · rw [process_loop_pass ks _ _ _ _ _ _ hns hc,
              process_loop_pass ks _ _ _ _ _ _ hns2 hc]
            exact ih (pass_result ks st1 (n + 1) src dest).1 _ _ _ h1
          · rw [process_loop_cipher_fail_eq ks f n st st1 src dest hns hc,
              process_loop_cipher_fail_eq ks f n (with_aux st aux) (with_aux st1 aux) src dest
                hns2 hc]
            rfl
        · rw [process_loop_fail ks _ _ _ _ _ _ _ hns hrc,
            process_loop_fail ks _ _ _ _ _ _ _ hns2 hrc]
          rfl

theorem process_with_aux (ks : Keystream) (aux : List Nat) (st : DecryptState) (n : Nat)
    (h : st.auxiliary_info.take st.auxiliary_info_end = aux.take st.auxiliary_info_end) :
    mp4_decrypt_process ks (with_aux st aux) n =
      (mp4_decrypt_process ks st n).map (fun r => (r.1, with_aux r.2.1 aux, r.2.2)) := by
  unfold mp4_decrypt_process
  have e := process_loop_with_aux ks aux (n + st.subsample_count) st n st.input [] h
  have e2 : process_loop ks (n + (with_aux st aux).subsample_count) (with_aux st aux) n
      (with_aux st aux).input [] =
      process_loop ks (n + st.subsample_count) (with_aux st aux) n st.input [] := rfl
  rw [e2, e]
  cases process_loop ks (n + st.subsample_count) st n st.input [] with
  | none => rfl
  | some r =>
    obtain ⟨rc, st1, s, d⟩ := r
    cases rc <;> rfl
theorem start_frame_with_aux (st : DecryptState) (aux : List Nat)
    (h : st.auxiliary_info.take st.auxiliary_info_end = aux.take st.auxiliary_info_end) :
    mp4_decrypt_start_frame (with_aux st aux) =
      ((mp4_decrypt_start_frame st).1, with_aux (mp4_decrypt_start_frame st).2 aux) := by
  unfold mp4_decrypt_start_frame
  simp only [with_aux]
  by_cases h0 : st.frames_source.start_rc ≠ Status.OK
  · rw [if_pos h0, if_pos h0]
  · rw [if_neg h0, if_neg h0]
    by_cases h1 : st.auxiliary_info_pos + MP4_AES_CTR_IV_SIZE > st.auxiliary_info_end
    · rw [if_pos h1, if_pos h1]
    · rw [if_neg h1, if_neg h1]
      have hiv : (aux.drop st.auxiliary_info_pos).take MP4_AES_CTR_IV_SIZE =
          (st.auxiliary_info.drop st.auxiliary_info_pos).take MP4_AES_CTR_IV_SIZE :=
        (slice_agree _ _ st.auxiliary_info_end _ _ h (by omega)).symm
      rw [hiv]
      by_cases h2 : (!st.use_subsamples) = true
      · rw [if_pos h2, if_pos h2]
      · rw [if_neg h2, if_neg h2]
        by_cases h3 : st.auxiliary_info_pos + MP4_AES_CTR_IV_SIZE + 2 + SUBSAMPLE_SIZE >
            st.auxiliary_info_end
        · rw [if_pos h3, if_pos h3]
        · rw [if_neg h3, if_neg h3]
          unfold SUBSAMPLE_SIZE at h3
          have e1 : read_be16 aux (st.auxiliary_info_pos + MP4_AES_CTR_IV_SIZE) =
              read_be16 st.auxiliary_info (st.auxiliary_info_pos + MP4_AES_CTR_IV_SIZE) :=
            (read_be16_agree _ _ st.auxiliary_info_end _ h (by omega)).symm
          have e2 : read_be16 aux (st.auxiliary_info_pos + MP4_AES_CTR_IV_SIZE + 2) =
              read_be16 st.auxiliary_info (st.auxiliary_info_pos + MP4_AES_CTR_IV_SIZE + 2) :=
            (read_be16_agree _ _ st.auxiliary_info_end _ h (by omega)).symm
          have e3 : read_be32 aux (st.auxiliary_info_pos + MP4_AES_CTR_IV_SIZE + 2 + 2) =
              read_be32 st.auxiliary_info (st.auxiliary_info_pos + MP4_AES_CTR_IV_SIZE + 2 + 2) :=
            (read_be32_agree _ _ st.auxiliary_info_end _ h (by omega)).symm
          rw [e1, e2, e3]
          by_cases h4 : read_be16 st.auxiliary_info
              (st.auxiliary_info_pos + MP4_AES_CTR_IV_SIZE) ≤ 0
          · rw [if_pos h4, if_pos h4]
          · rw [if_neg h4, if_neg h4]

theorem read_space_step_with_aux (st : DecryptState) (aux : List Nat) (alloc_ok : Bool) :
    read_space_step (with_aux st aux) alloc_ok =
      ((read_space_step st alloc_ok).1, with_aux (read_space_step st alloc_ok).2 aux) := by
  unfold read_space_step
  simp only [with_aux]
  by_cases c1 : st.output_pos + MIN_BUFFER_SIZE ≥ st.output_end
  · rw [if_pos c1, if_pos c1]
    by_cases c2 : (!st.reuse_buffers || !st.output_allocated) = true
    · rw [if_pos c2, if_pos c2]
      by_cases c3 : (!alloc_ok) = true
      · rw [if_pos c3, if_pos c3]
      · rw [if_neg c3, if_neg c3]
    · rw [if_neg c2, if_neg c2]
  · rw [if_neg c1, if_neg c1]

theorem read_pull_step_with_aux (st : DecryptState) (aux : List Nat) :
    read_pull_step (with_aux st aux) =
      ((read_pull_step st).1, with_aux (read_pull_step st).2 aux) := by
  unfold read_pull_step
  simp only [with_aux]
  by_cases c1 : st.input_size ≤ 0
  · rw [if_pos c1, if_pos c1]
    cases hr : st.frames_source.read with
    | mk rc rest =>
      obtain ⟨src, chunk, done⟩ := rest
      cases rc <;> rfl
  · rw [if_neg c1, if_neg c1]

theorem read_with_aux (ks : Keystream) (st : DecryptState) (aux : List Nat) (alloc_ok : Bool)
    (h : st.auxiliary_info.take st.auxiliary_info_end = aux.take st.auxiliary_info_end) :
    mp4_decrypt_read ks (with_aux st aux) alloc_ok =
      (mp4_decrypt_read ks st alloc_ok).map (fun r => { r with st := with_aux r.st aux }) := by
  rw [read_unfold, read_unfold, read_space_step_with_aux]
  have k1 := (read_space_step_keeps st alloc_ok).1
  cases hsp : read_space_step st alloc_ok with
  | mk rc1 st1 =>
    rw [hsp] at k1
    by_cases h1 : rc1 = Status.OK
    · subst h1
      dsimp only
      rw [read_pull_step_with_aux]
      have k2 := (read_pull_step_keeps st1).1
      cases hpl : read_pull_step st1 with
      | mk rc2 st2 =>
        rw [hpl] at k2
        by_cases h2 : rc2 = Status.OK
        · subst h2
          dsimp only
          have hag : st2.auxiliary_info.take st2.auxiliary_info_end =
              aux.take st2.auxiliary_info_end := by
            rw [k2.2.1, k2.2.2.1, k1.2.1, k1.2.2.1]; exact h
          have e := process_with_aux ks aux
            { st2 with
              input_size :=
                (st2.input_size - min ((st2.output_end - st2.output_pos) % 2 ^ 32) st2.input_size) }
            (min ((st2.output_end - st2.output_pos) % 2 ^ 32) st2.input_size) hag
          simp only [with_aux] at e ⊢
          rw [e]
          cases mp4_decrypt_process ks
            { st2 with
              input_size :=
                (st2.input_size - min ((st2.output_end - st2.output_pos) % 2 ^ 32) st2.input_size) }
            (min ((st2.output_end - st2.output_pos) % 2 ^ 32) st2.input_size) with
          | none => rfl
          | some r => rfl
        · cases rc2 <;> first | exact absurd rfl h2 | rfl
    · cases rc1 <;> first | exact absurd rfl h1 | rfl

theorem decrypt_call_keeps (ks : Keystream) (st : DecryptState) (c : DecryptCall) :
    ∃ rc st1 out, decrypt_call ks st c = some (rc, st1, out) ∧ CursorKeeps st st1 := by
  cases c with
  | start_frame =>
    exact ⟨_, _, _, rfl, cursor_keeps_of_keeps _ _ (start_frame_keeps st)⟩
  | read alloc_ok =>
    obtain ⟨r, h1, h2⟩ := read_keeps ks st alloc_ok
    refine ⟨r.rc, r.st, r.buffer, ?_, h2⟩
    simp only [decrypt_call, h1, Option.map_some']

theorem decrypt_call_with_aux (ks : Keystream) (st : DecryptState) (aux : List Nat)
    (c : DecryptCall)
    (h : st.auxiliary_info.take st.auxiliary_info_end = aux.take st.auxiliary_info_end) :
    decrypt_call ks (with_aux st aux) c =
      (decrypt_call ks st c).map (fun r => (r.1, with_aux r.2.1 aux, r.2.2)) := by
  cases c with
  | start_frame =>
    simp only [decrypt_call, Option.map_some', start_frame_with_aux st aux h]
  | read alloc_ok =>
    simp only [decrypt_call, read_with_aux ks st aux alloc_ok h, Option.map_map]
    rfl

/-- Every sequence of calls returns, and keeps what `CursorKeeps` lists. -/
theorem decrypt_calls_keeps (ks : Keystream) (calls : List DecryptCall) :
    ∀ st : DecryptState, ∃ st2 log, decrypt_calls ks st calls = some (st2, log) ∧
      CursorKeeps st st2 := by
  induction calls with
  | nil => intro st; exact ⟨st, [], rfl, cursor_keeps_refl st⟩
  | cons c cs ih =>
    intro st
    obtain ⟨rc, st1, out, h1, k1⟩ := decrypt_call_keeps ks st c
    obtain ⟨st2, log, h2, k2⟩ := ih st1
    refine ⟨st2, (rc, out) :: log, ?_, cursor_keeps_trans _ _ _ k1 k2⟩
    simp only [decrypt_calls, h1, h2]

/-- A sequence of calls does the same on two auxiliary-info buffers that agree below
the end. -/
theorem decrypt_calls_with_aux (ks : Keystream) (aux : List Nat) (calls : List DecryptCall) :
    ∀ st : DecryptState,
      st.auxiliary_info.take st.auxiliary_info_end = aux.take st.auxiliary_info_end →
      decrypt_calls ks (with_aux st aux) calls =
        (decrypt_calls ks st calls).map (fun r => (with_aux r.1 aux, r.2)) := by
  induction calls with
  | nil => intro st _; rfl
  | cons c cs ih =>
    intro st h
    obtain ⟨rc, st1, out, h1, k1⟩ := decrypt_call_keeps ks st c
    have h2 := decrypt_call_with_aux ks st aux c h
    rw [h1] at h2
    simp only [Option.map_some'] at h2
    have h3 := ih st1 (by rw [k1.2.1, k1.2.2.1]; exact h)
    simp only [decrypt_calls, h1, h2, h3]
    cases decrypt_calls ks st1 cs with
    | none => rfl
    | some r => rfl

theorem decrypt_calls_append (ks : Keystream) (c1 c2 : List DecryptCall) :
    ∀ (st s1 s2 : DecryptState) (l1 l2 : List (Status × List Nat)),
      decrypt_calls ks st c1 = some (s1, l1) → decrypt_calls ks s1 c2 = some (s2, l2) →
      decrypt_calls ks st (c1 ++ c2) = some (s2, l1 ++ l2) := by
  induction c1 with
  | nil =>
    intro st s1 s2 l1 l2 h1 h2
    simp only [decrypt_calls, Option.some.injEq, Prod.mk.injEq] at h1
    obtain ⟨e1, e2⟩ := h1
    subst e1; subst e2
    simpa using h2
  | cons c cs ih =>
    intro st s1 s2 l1 l2 h1 h2
    obtain ⟨rc, st1, out, hc, _⟩ := decrypt_call_keeps ks st c
    simp only [decrypt_calls, hc] at h1
    cases hr : decrypt_calls ks st1 cs with
    | none => rw [hr] at h1; simp at h1
    | some r =>
      obtain ⟨sa, la⟩ := r
      rw [hr] at h1
      simp only [Option.some.injEq, Prod.mk.injEq] at h1
      obtain ⟨e1, e2⟩ := h1
      subst e1; subst e2
      have := ih st1 sa s2 la l2 hr h2
      show decrypt_calls ks st (c :: (cs ++ c2)) = _
      simp only [decrypt_calls, hc, this]
      rfl

/-- C13: truncated auxiliary info is rejected without over-reading.  (1) When the
underlying source accepts `start_frame` and fewer than 16 bytes lie between the cursor and
the end, `mp4_decrypt_start_frame` returns `VOD_BAD_DATA` and leaves the state alone.
(2) With subsamples enabled, when the IV fits but the count and the first entry (2 + 6
bytes) do not, or the count is 0, it returns `VOD_BAD_DATA`.  (3) When the transform has
bytes to produce, the current subsample is used up, and the subsample count is 0 or fewer
than 6 bytes lie between the cursor and the end, `mp4_decrypt_process` returns
`VOD_BAD_DATA` and leaves the state alone.  (4) From a cursor that is not beyond the
end, every sequence of `start_frame` and `read` calls returns; between any two points of
the sequence the cursor does not move backwards, and it stays at or below the end, which
does not change; and the calls do the same (statuses, bytes returned, state) on any other
buffer that holds the same bytes below the end: no byte at or beyond the end is read. -/
theorem cenc_aux_bounds (ks : Keystream) (st : DecryptState) :
    (st.frames_source.start_rc = Status.OK →
      st.auxiliary_info_pos + 16 > st.auxiliary_info_end →
      mp4_decrypt_start_frame st = (Status.BAD_DATA, st)) ∧
    (st.frames_source.start_rc = Status.OK → st.use_subsamples = true →
      st.auxiliary_info_pos + 16 ≤ st.auxiliary_info_end →
      (st.auxiliary_info_pos + 16 + 2 + 6 > st.auxiliary_info_end ∨
        read_be16 st.auxiliary_info (st.auxiliary_info_pos + 16) = 0) →
      (mp4_decrypt_start_frame st).1 = Status.BAD_DATA) ∧
    (∀ size, 0 < size → st.clear_bytes = 0 → st.encrypted_bytes = 0 →
      (st.subsample_count = 0 ∨ st.auxiliary_info_pos + 6 > st.auxiliary_info_end) →
      mp4_decrypt_process ks st size = some (Status.BAD_DATA, st, [])) ∧
    (st.auxiliary_info_pos ≤ st.auxiliary_info_end →
      ∀ calls1 calls2 : List DecryptCall, ∃ s1 log1 s2 log2,
        decrypt_calls ks st calls1 = some (s1, log1) ∧
        decrypt_calls ks st (calls1 ++ calls2) = some (s2, log2) ∧
        st.auxiliary_info_pos ≤ s1.auxiliary_info_pos ∧
        s1.auxiliary_info_pos ≤ s2.auxiliary_info_pos ∧
        s2.auxiliary_info_pos ≤ st.auxiliary_info_end ∧
        s2.auxiliary_info_end = st.auxiliary_info_end ∧
        ∀ aux : List Nat,
          st.auxiliary_info.take st.auxiliary_info_end = aux.take st.auxiliary_info_end →
          decrypt_calls ks (with_aux st aux) (calls1 ++ calls2) =
            some (with_aux s2 aux, log2)) := by
  refine ⟨fun h0 h1 => ?_, fun h0 hu h1 h2 => ?_, fun size hs hc he h2 => ?_,
    fun hp calls1 calls2 => ?_⟩
  · unfold mp4_decrypt_start_frame
    rw [if_neg (by simp [h0]), if_pos (by unfold MP4_AES_CTR_IV_SIZE; omega)]
  · unfold mp4_decrypt_start_frame
    rw [if_neg (by simp [h0]), if_neg (by unfold MP4_AES_CTR_IV_SIZE; omega)]
    simp only []
    rw [if_neg (by simp [hu])]
    by_cases h3 : st.auxiliary_info_pos + 16 + 2 + 6 > st.auxiliary_info_end
    · rw [if_pos (by unfold MP4_AES_CTR_IV_SIZE SUBSAMPLE_SIZE; omega)]
    · rw [if_neg (by unfold MP4_AES_CTR_IV_SIZE SUBSAMPLE_SIZE; omega)]
      have h4 : read_be16 st.auxiliary_info (st.auxiliary_info_pos + 16) = 0 := by
        rcases h2 with h2 | h2
        · exact absurd h2 h3
        · exact h2
      rw [if_pos (by unfold MP4_AES_CTR_IV_SIZE; omega)]
  · obtain ⟨n, rfl⟩ : ∃ n, size = n + 1 := ⟨size - 1, by omega⟩
    have hns : next_subsample st = (Status.BAD_DATA, st) := by
      unfold next_subsample
      rw [if_pos ⟨by omega, by omega⟩]
      rcases h2 with h2 | h2
      · rw [if_pos (by omega)]
      · by_cases h3 : st.subsample_count ≤ 0
        · rw [if_pos h3]
        · rw [if_neg h3, if_pos (by unfold SUBSAMPLE_SIZE; omega)]
    unfold mp4_decrypt_process
    have e : n + 1 + st.subsample_count = (n + st.subsample_count) + 1 := by omega
    rw [e, process_loop_fail ks _ _ _ _ _ _ _ hns (by simp)]
  · obtain ⟨s1, log1, e1, k1⟩ := decrypt_calls_keeps ks calls1 st
    obtain ⟨s2, log2, e2, k2⟩ := decrypt_calls_keeps ks calls2 s1
    have e3 := decrypt_calls_append ks calls1 calls2 st s1 s2 log1 log2 e1 e2
    have k3 := cursor_keeps_trans _ _ _ k1 k2
    refine ⟨s1, log1, s2, log1 ++ log2, e1, e3, k1.2.2.2.1, k2.2.2.2.1, ?_, k3.2.2.1, ?_⟩
    · have := k3.2.2.2.2 hp
      rw [k3.2.2.1] at this
      exact this
    · intro aux hag
      rw [decrypt_calls_with_aux ks aux _ st hag, e3]
      rfl

theorem cenc_aux_bounds_witness :
    (mp4_decrypt_start_frame { sample_decrypt [] with auxiliary_info_pos := 24 } =
      (Status.BAD_DATA, { sample_decrypt [] with auxiliary_info_pos := 24 })) ∧
    ((mp4_decrypt_start_frame { sample_decrypt [] with auxiliary_info_pos := 16 }).1 =
      Status.BAD_DATA) ∧
    (mp4_decrypt_process sample_keystream { sample_entry_done with subsample_count := 0 } 3 =
      some (Status.BAD_DATA, { sample_entry_done with subsample_count := 0 }, [])) ∧
    ((decrypt_calls sample_keystream (sample_decrypt [])
        [DecryptCall.start_frame, DecryptCall.read true, DecryptCall.read true,
          DecryptCall.start_frame, DecryptCall.read false]).map
      (fun r => (r.1.auxiliary_info_pos, r.2.map (fun x => x.1))) =
        some (36, [Status.OK, Status.OK, Status.OK, Status.BAD_DATA, Status.OK])) ∧
    ∃ s1 log1 s2 log2,
      decrypt_calls sample_keystream (sample_decrypt [])
        [DecryptCall.start_frame, DecryptCall.read true] = some (s1, log1) ∧
      decrypt_calls sample_keystream (sample_decrypt [])
        ([DecryptCall.start_frame, DecryptCall.read true] ++
          [DecryptCall.read true, DecryptCall.start_frame, DecryptCall.read false]) =
        some (s2, log2) ∧
      (sample_decrypt []).auxiliary_info_pos ≤ s1.auxiliary_info_pos ∧
      s1.auxiliary_info_pos ≤ s2.auxiliary_info_pos ∧
      s2.auxiliary_info_pos ≤ (sample_decrypt []).auxiliary_info_end ∧
      s2.auxiliary_info_end = (sample_decrypt []).auxiliary_info_end ∧
      ∀ aux : List Nat,
        (sample_decrypt []).auxiliary_info.take (sample_decrypt []).auxiliary_info_end =
          aux.take (sample_decrypt []).auxiliary_info_end →
        decrypt_calls sample_keystream (with_aux (sample_decrypt []) aux)
          ([DecryptCall.start_frame, DecryptCall.read true] ++
            [DecryptCall.read true, DecryptCall.start_frame, DecryptCall.read false]) =
          some (with_aux s2 aux, log2) :=
  ⟨(cenc_aux_bounds sample_keystream { sample_decrypt [] with auxiliary_info_pos := 24 }).1
      (by decide) (by decide),
    (cenc_aux_bounds sample_keystream { sample_decrypt [] with auxiliary_info_pos := 16 }).2.1
      (by decide) (by decide) (by decide) (Or.inl (by decide)),
    (cenc_aux_bounds sample_keystream { sample_entry_done with subsample_count := 0 }).2.2.1 3
      (by decide) (by decide) (by decide) (Or.inl (by decide)),
    by decide,
    (cenc_aux_bounds sample_keystream (sample_decrypt [])).2.2.2 (by decide)
      [DecryptCall.start_frame, DecryptCall.read true]
      [DecryptCall.read true, DecryptCall.start_frame, DecryptCall.read false]⟩

/-! ## `mp4_to_annexb_init` on AVCC records -/

theorem getD_at_length (pre rest : List Nat) (x : Nat) :
    (pre ++ x :: rest).getD pre.length 0 = x := by
  rw [List.getD_append_right _ _ _ _ (le_refl _)]
  simp

theorem be16_split (n : Nat) (h : n < 2 ^ 16) :
    (((n / 256) <<< 8) ||| (n % 256)) % 2 ^ 16 = n := by
  have h1 : (n / 256) <<< 8 = 2 ^ 8 * (n / 256) := by
    rw [Nat.shiftLeft_eq, Nat.mul_comm]
  have h2 : n % 256 < 2 ^ 8 := Nat.mod_lt _ (by norm_num)
  rw [h1, ← Nat.mul_add_lt_is_or h2]
  have h3 : 2 ^ 8 * (n / 256) + n % 256 = n := by
    have := Nat.div_add_mod n 256
    omega
  rw [h3]
  exact Nat.mod_eq_of_lt h

theorem parse_be16_unit (pre u rest : List Nat) (h : u.length < 2 ^ 16) :
    parse_be16 (pre ++ ([u.length / 256, u.length % 256] ++ u ++ rest)) pre.length = u.length := by
  unfold parse_be16
  have e1 : (pre ++ ([u.length / 256, u.length % 256] ++ u ++ rest)).getD pre.length 0 =
      u.length / 256 := by
    have := getD_at_length pre ([u.length % 256] ++ u ++ rest) (u.length / 256)
    simpa using this
  have e2 : (pre ++ ([u.length / 256, u.length % 256] ++ u ++ rest)).getD (pre.length + 1) 0 =
      u.length % 256 := by
    have := getD_at_length (pre ++ [u.length / 256]) (u ++ rest) (u.length % 256)
    simpa using this
  rw [e1, e2]
  exact be16_split _ h

theorem avcc_units_length (us : List (List Nat)) :
    (avcc_units us).length + 2 * us.length = units_size us := by
  induction us with
  | nil => rfl
  | cons u us ih =>
    simp only [avcc_units, units_size, List.length_append, List.length_cons, List.length_nil]
    omega

theorem annexb_units_length (us : List (List Nat)) :
    (annexb_units us).length = units_size us := by
  induction us with
  | nil => rfl
  | cons u us ih =>
    simp only [annexb_units, units_size, List.length_append, List.length_cons, List.length_nil, ih]

/-- The first pass over the units of a record accepts them and adds up their sizes. -/
theorem init_scan_units_record (us : List (List Nat)) :
    ∀ (pre post : List Nat) (sz size : Nat),
      (∀ u ∈ us, u.length < 2 ^ 16) → pre.length + (avcc_units us).length ≤ sz →
      init_scan_units (pre ++ (avcc_units us ++ post)) sz us.length pre.length size =
        (Status.OK, pre.length + (avcc_units us).length, size + units_size us) := by
  induction us with
  | nil => intro pre post sz size _ _; rfl
  | cons u us ih =>
    intro pre post sz size hl hsz
    have hu : u.length < 2 ^ 16 := hl u (List.mem_cons_self _ _)
    have hdata : pre ++ (avcc_units (u :: us) ++ post) =
        pre ++ ([u.length / 256, u.length % 256] ++ u ++ (avcc_units us ++ post)) := by
      simp [avcc_units]
    have hlen : (avcc_units (u :: us)).length = 2 + u.length + (avcc_units us).length := by
      simp only [avcc_units, List.length_append, List.length_cons, List.length_nil]
    have hp := parse_be16_unit pre u (avcc_units us ++ post) hu
    rw [← hdata] at hp
    rw [hlen] at hsz
    simp only [List.length_cons, init_scan_units, hp]
    rw [if_neg (by omega), if_neg (by omega)]
    have hdata2 : pre ++ (avcc_units (u :: us) ++ post) =
        (pre ++ [u.length / 256, u.length % 256] ++ u) ++ (avcc_units us ++ post) := by
      simp [avcc_units]
    have hpl : (pre ++ [u.length / 256, u.length % 256] ++ u).length =
        pre.length + 2 + u.length := by
      simp only [List.length_append, List.length_cons, List.length_nil]
    have := ih (pre ++ [u.length / 256, u.length % 256] ++ u) post sz (size + (4 + u.length))
      (fun v hv => hl v (List.mem_cons_of_mem _ hv)) (by rw [hpl]; omega)
    rw [← hdata2, hpl] at this
    rw [this, hlen]
    simp only [units_size, Prod.mk.injEq, true_and]
    omega

theorem slice_unit (pre u rest : List Nat) :
    ((pre ++ ([u.length / 256, u.length % 256] ++ u ++ rest)).drop (pre.length + 2)).take
      u.length = u := by
  have e : pre ++ ([u.length / 256, u.length % 256] ++ u ++ rest) =
      (pre ++ [u.length / 256, u.length % 256]) ++ (u ++ rest) := by simp
  have hl : (pre ++ [u.length / 256, u.length % 256]).length = pre.length + 2 := by simp
  rw [e, ← hl, List.drop_left, List.take_left]

/-- The second pass over the units of a record copies each behind a start code. -/
theorem init_copy_units_record (us : List (List Nat)) :
    ∀ (pre post out : List Nat),
      (∀ u ∈ us, u.length < 2 ^ 16) →
      init_copy_units (pre ++ (avcc_units us ++ post)) us.length pre.length out =
        (pre.length + (avcc_units us).length, out ++ annexb_units us) := by
  induction us with
  | nil => intro pre post out _; simp [init_copy_units, avcc_units, annexb_units]
  | cons u us ih =>
    intro pre post out hl
    have hu : u.length < 2 ^ 16 := hl u (List.mem_cons_self _ _)
    have hdata : pre ++ (avcc_units (u :: us) ++ post) =
        pre ++ ([u.length / 256, u.length % 256] ++ u ++ (avcc_units us ++ post)) := by
      simp [avcc_units]
    have hlen : (avcc_units (u :: us)).length = 2 + u.length + (avcc_units us).length := by
      simp only [avcc_units, List.length_append, List.length_cons, List.length_nil]
    have hp := parse_be16_unit pre u (avcc_units us ++ post) hu
    have hs := slice_unit pre u (avcc_units us ++ post)
    rw [← hdata] at hp hs
    simp only [List.length_cons, init_copy_units, hp, hs]
    have hdata2 : pre ++ (avcc_units (u :: us) ++ post) =
        (pre ++ [u.length / 256, u.length % 256] ++ u) ++ (avcc_units us ++ post) := by
      simp [avcc_units]
    have hpl : (pre ++ [u.length / 256, u.length % 256] ++ u).length =
        pre.length + 2 + u.length := by
      simp only [List.length_append, List.length_cons, List.length_nil]
    have := ih (pre ++ [u.length / 256, u.length % 256] ++ u) post (out ++ [0, 0, 0, 1] ++ u)
      (fun v hv => hl v (List.mem_cons_of_mem _ hv))
    rw [← hdata2, hpl] at this
    rw [this, hlen]
    simp only [annexb_units, Prod.mk.injEq, List.append_assoc, and_true]
    omega

/-- The first pass over a record. -/
theorem init_scan_record (header : List Nat) (b sps_count : Nat) (sps : List (List Nat))
    (pps_count : Nat) (pps : List (List Nat)) (trailing : List Nat)
    (hh : header.length = 4) (hcs : sps_count &&& 0x1f = sps.length)
    (hcp : pps_count &&& 0x1f = pps.length) (hl : ∀ u ∈ sps ++ pps, u.length < 2 ^ 16) :
    init_scan (avcc_record header b sps_count sps pps_count pps trailing)
        (avcc_record header b sps_count sps pps_count pps trailing).length 2 5 0 =
      (Status.OK, 7 + (avcc_units sps).length + (avcc_units pps).length,
        units_size sps + units_size pps) := by
  have hrl : (avcc_record header b sps_count sps pps_count pps trailing).length =
      7 + (avcc_units sps).length + (avcc_units pps).length + trailing.length := by
    simp only [avcc_record, List.length_append, List.length_cons, List.length_nil, hh]
    omega
  -- the record seen from the SPS count byte
  have d1 : avcc_record header b sps_count sps pps_count pps trailing =
      (header ++ [b]) ++ sps_count :: (avcc_units sps ++ ([pps_count] ++ avcc_units pps ++ trailing)) := by
    simp [avcc_record]
  have l1 : (header ++ [b]).length = 5 := by simp [hh]
  have g1 : (avcc_record header b sps_count sps pps_count pps trailing).getD 5 0 = sps_count := by
    rw [d1, ← l1]; exact getD_at_length _ _ _
  -- the record seen from the first SPS unit
  have d2 : avcc_record header b sps_count sps pps_count pps trailing =
      (header ++ [b, sps_count]) ++ (avcc_units sps ++ ([pps_count] ++ avcc_units pps ++ trailing)) := by
    simp [avcc_record]
  have l2 : (header ++ [b, sps_count]).length = 6 := by simp [hh]
  have s1 := init_scan_units_record sps (header ++ [b, sps_count])
    ([pps_count] ++ avcc_units pps ++ trailing)
    (avcc_record header b sps_count sps pps_count pps trailing).length 0
    (fun u hu => hl u (List.mem_append_left _ hu)) (by rw [l2, hrl]; omega)
  rw [← d2, l2] at s1
  -- the record seen from the PPS count byte
  have d3 : avcc_record header b sps_count sps pps_count pps trailing =
      (header ++ [b, sps_count] ++ avcc_units sps) ++ pps_count :: (avcc_units pps ++ trailing) := by
    simp [avcc_record]
  have l3 : (header ++ [b, sps_count] ++ avcc_units sps).length = 6 + (avcc_units sps).length := by
    simp [hh]; omega
  have g3 : (avcc_record header b sps_count sps pps_count pps trailing).getD
      (6 + (avcc_units sps).length) 0 = pps_count := by
    rw [d3, ← l3]; exact getD_at_length _ _ _
  -- the record seen from the first PPS unit
  have d4 : avcc_record header b sps_count sps pps_count pps trailing =
      (header ++ [b, sps_count] ++ avcc_units sps ++ [pps_count]) ++ (avcc_units pps ++ trailing) := by
    simp [avcc_record]
  have l4 : (header ++ [b, sps_count] ++ avcc_units sps ++ [pps_count]).length =
      6 + (avcc_units sps).length + 1 := by
    simp [hh]; omega
  have s2 := init_scan_units_record pps (header ++ [b, sps_count] ++ avcc_units sps ++ [pps_count])
    trailing (avcc_record header b sps_count sps pps_count pps trailing).length
    (0 + units_size sps)
    (fun u hu => hl u (List.mem_append_right _ hu)) (by rw [l4, hrl]; omega)
  rw [← d4, l4] at s2
  simp only [init_scan]
  rw [if_neg (by rw [hrl]; omega), g1, hcs, s1]
  simp only []
  rw [if_neg (by rw [hrl]; omega), g3, hcp, s2]
  simp only [Prod.mk.injEq, true_and]
  omega

/-- The second pass over a record. -/
theorem init_copy_record (header : List Nat) (b sps_count : Nat) (sps : List (List Nat))
    (pps_count : Nat) (pps : List (List Nat)) (trailing : List Nat)
    (hh : header.length = 4) (hcs : sps_count &&& 0x1f = sps.length)
    (hcp : pps_count &&& 0x1f = pps.length) (hl : ∀ u ∈ sps ++ pps, u.length < 2 ^ 16) :
    (init_copy (avcc_record header b sps_count sps pps_count pps trailing) 2 5 []).2 =
      annexb_units sps ++ annexb_units pps := by
  have d1 : avcc_record header b sps_count sps pps_count pps trailing =
      (header ++ [b]) ++ sps_count :: (avcc_units sps ++ ([pps_count] ++ avcc_units pps ++ trailing)) := by
    simp [avcc_record]
  have l1 : (header ++ [b]).length = 5 := by simp [hh]
  have g1 : (avcc_record header b sps_count sps pps_count pps trailing).getD 5 0 = sps_count := by
    rw [d1, ← l1]; exact getD_at_length _ _ _
  have d2 : avcc_record header b sps_count sps pps_count pps trailing =
      (header ++ [b, sps_count]) ++ (avcc_units sps ++ ([pps_count] ++ avcc_units pps ++ trailing)) := by
    simp [avcc_record]
  have l2 : (header ++ [b, sps_count]).length = 6 := by simp [hh]
  have s1 := init_copy_units_record sps (header ++ [b, sps_count])
    ([pps_count] ++ avcc_units pps ++ trailing) []
    (fun u hu => hl u (List.mem_append_left _ hu))
  rw [← d2, l2] at s1
  have d3 : avcc_record header b sps_count sps pps_count pps trailing =
      (header ++ [b, sps_count] ++ avcc_units sps) ++ pps_count :: (avcc_units pps ++ trailing) := by
    simp [avcc_record]
  have l3 : (header ++ [b, sps_count] ++ avcc_units sps).length = 6 + (avcc_units sps).length := by
    simp [hh]; omega
  have g3 : (avcc_record header b sps_count sps pps_count pps trailing).getD
      (6 + (avcc_units sps).length) 0 = pps_count := by
    rw [d3, ← l3]; exact getD_at_length _ _ _
  have d4 : avcc_record header b sps_count sps pps_count pps trailing =
      (header ++ [b, sps_count] ++ avcc_units sps ++ [pps_count]) ++ (avcc_units pps ++ trailing) := by
    simp [avcc_record]
  have l4 : (header ++ [b, sps_count] ++ avcc_units sps ++ [pps_count]).length =
      6 + (avcc_units sps).length + 1 := by
    simp [hh]; omega
  have s2 := init_copy_units_record pps (header ++ [b, sps_count] ++ avcc_units sps ++ [pps_count])
    trailing ([] ++ annexb_units sps)
    (fun u hu => hl u (List.mem_append_right _ hu))
  rw [← d4, l4] at s2
  simp only [init_copy]
  rw [g1, hcs, s1]
  simp only []
  rw [g3, hcp, s2]
  simp

/-- `mp4_to_annexb_init` on a record: the whole result, in simulation mode or with an
allocator that succeeds. -/
theorem init_record (st : AnnexbState) (simulation_only alloc_ok : Bool) (header : List Nat)
    (b sps_count : Nat) (sps : List (List Nat)) (pps_count : Nat) (pps : List (List Nat))
    (trailing : List Nat) (ha : simulation_only = true ∨ alloc_ok = true)
    (hh : header.length = 4) (hcs : sps_count &&& 0x1f = sps.length)
    (hcp : pps_count &&& 0x1f = pps.length) (hl : ∀ u ∈ sps ++ pps, u.length < 2 ^ 16) :
    mp4_to_annexb_init st simulation_only alloc_ok
        (avcc_record header b sps_count sps pps_count pps trailing)
        (avcc_record header b sps_count sps pps_count pps trailing).length =
      (Status.OK,
        { st with
          first_idr := true
          nal_packet_size_length := (b &&& 0x3) + 1
          sps_pps_size := units_size sps + units_size pps
          sps_pps := if simulation_only then st.sps_pps
            else annexb_units sps ++ annexb_units pps }) := by
  have hrl : (avcc_record header b sps_count sps pps_count pps trailing).length =
      7 + (avcc_units sps).length + (avcc_units pps).length + trailing.length := by
    simp only [avcc_record, List.length_append, List.length_cons, List.length_nil, hh]
    omega
  have d0 : avcc_record header b sps_count sps pps_count pps trailing =
      header ++ b :: ([sps_count] ++ avcc_units sps ++ [pps_count] ++ avcc_units pps ++ trailing) := by
    simp [avcc_record]
  have g0 : (avcc_record header b sps_count sps pps_count pps trailing).getD 4 0 = b := by
    rw [d0, ← hh]; exact getD_at_length _ _ _
  unfold mp4_to_annexb_init
  simp only []
  rw [if_neg (by rw [hrl]; omega), g0,
    init_scan_record header b sps_count sps pps_count pps trailing hh hcs hcp hl]
  simp only []
  cases simulation_only with
  | true => rfl
  | false =>
    have hal : alloc_ok = true := by
      rcases ha with ha | ha
      · exact absurd ha (by simp)
      · exact ha
    subst hal
    simp only [Bool.false_eq_true, if_false, Bool.not_true]
    rw [init_copy_record header b sps_count sps pps_count pps trailing hh hcs hcp hl]

/-- C11: `mp4_to_annexb_init` parses the AVCC record.  For extra data made of four header
bytes, a byte `b`, the SPS count byte and as many SPS units as its low five bits say, the
PPS count byte and its units (every unit a 16-bit big-endian length and that many
bytes), and any trailing bytes, init returns OK with length-field width `(b & 3) + 1` and
`sps_pps_size` the sum over all units of `4 + length`; outside simulation mode, with an
allocator that succeeds, the buffer is the concatenation, SPS units first, of
`00 00 00 01` (as stored by a little-endian machine) followed by the bytes of the unit;
in simulation mode the same width and size are recorded, whatever the allocator does.  In
particular `00 00 00 00 03 01 00 04`, four bytes, `01 00 03`, three bytes gives width 4,
a buffer of 15 bytes and `simulation_supported` true. -/
theorem annexb_init_record (st : AnnexbState) (header : List Nat) (b sps_count : Nat)
    (sps : List (List Nat)) (pps_count : Nat) (pps : List (List Nat)) (trailing : List Nat)
    (hh : header.length = 4) (hcs : sps_count &&& 0x1f = sps.length)
    (hcp : pps_count &&& 0x1f = pps.length) (hl : ∀ u ∈ sps ++ pps, u.length < 2 ^ 16) :
    (mp4_to_annexb_init st false true
        (avcc_record header b sps_count sps pps_count pps trailing)
        (avcc_record header b sps_count sps pps_count pps trailing).length =
      (Status.OK,
        { st with
          first_idr := true
          nal_packet_size_length := (b &&& 0x3) + 1
          sps_pps_size := units_size sps + units_size pps
          sps_pps := annexb_units sps ++ annexb_units pps })) ∧
    ((mp4_to_annexb_init st false true
        (avcc_record header b sps_count sps pps_count pps trailing)
        (avcc_record header b sps_count sps pps_count pps trailing).length).2.blob =
      annexb_units sps ++ annexb_units pps) ∧
    (∀ alloc_ok, mp4_to_annexb_init st true alloc_ok
        (avcc_record header b sps_count sps pps_count pps trailing)
        (avcc_record header b sps_count sps pps_count pps trailing).length =
      (Status.OK,
        { st with
          first_idr := true
          nal_packet_size_length := (b &&& 0x3) + 1
          sps_pps_size := units_size sps + units_size pps })) ∧
    (∀ s p : List Nat, s.length = 4 → p.length = 3 →
      (mp4_to_annexb_init st false true ([0, 0, 0, 0, 3, 1, 0, 4] ++ s ++ [1, 0, 3] ++ p)
        ([0, 0, 0, 0, 3, 1, 0, 4] ++ s ++ [1, 0, 3] ++ p).length).1 = Status.OK ∧
      (mp4_to_annexb_init st false true ([0, 0, 0, 0, 3, 1, 0, 4] ++ s ++ [1, 0, 3] ++ p)
        ([0, 0, 0, 0, 3, 1, 0, 4] ++ s ++ [1, 0, 3] ++ p).length).2.nal_packet_size_length = 4 ∧
      (mp4_to_annexb_init st false true ([0, 0, 0, 0, 3, 1, 0, 4] ++ s ++ [1, 0, 3] ++ p)
        ([0, 0, 0, 0, 3, 1, 0, 4] ++ s ++ [1, 0, 3] ++ p).length).2.blob =
        [0, 0, 0, 1] ++ s ++ [0, 0, 0, 1] ++ p ∧
      (mp4_to_annexb_init st false true ([0, 0, 0, 0, 3, 1, 0, 4] ++ s ++ [1, 0, 3] ++ p)
        ([0, 0, 0, 0, 3, 1, 0, 4] ++ s ++ [1, 0, 3] ++ p).length).2.blob.length = 15 ∧
      mp4_to_annexb_simulation_supported
        (mp4_to_annexb_init st false true ([0, 0, 0, 0, 3, 1, 0, 4] ++ s ++ [1, 0, 3] ++ p)
          ([0, 0, 0, 0, 3, 1, 0, 4] ++ s ++ [1, 0, 3] ++ p).length).2 = true) := by
  have e1 := init_record st false true header b sps_count sps pps_count pps trailing
    (Or.inr rfl) hh hcs hcp hl
  refine ⟨e1, ?_, fun alloc_ok => ?_, fun s p hs hp => ?_⟩
  · rw [e1]
    simp [AnnexbState.blob, annexb_units_length]
  · exact init_record st true alloc_ok header b sps_count sps pps_count pps trailing
      (Or.inl rfl) hh hcs hcp hl
  · have hd : [0, 0, 0, 0, 3, 1, 0, 4] ++ s ++ [1, 0, 3] ++ p =
        avcc_record [0, 0, 0, 0] 3 1 [s] 1 [p] [] := by
      simp [avcc_record, avcc_units, hs, hp]
    have e2 := init_record st false true [0, 0, 0, 0] 3 1 [s] 1 [p] [] (Or.inr rfl) rfl
      (by simp) (by simp) (by
        intro u hu
        simp only [List.cons_append, List.nil_append, List.mem_cons, List.mem_singleton,
          List.not_mem_nil, or_false] at hu
        rcases hu with hu | hu <;> subst hu <;> omega)
    rw [hd, e2]
    refine ⟨rfl, rfl, ?_, ?_, rfl⟩
    · simp [AnnexbState.blob, annexb_units, units_size, hs, hp]
    · simp [AnnexbState.blob, annexb_units, units_size, hs, hp]

theorem annexb_init_record_witness :
    [0x01, 0x64, 0x00, 0x1f].length = 4 ∧ 0xe1 &&& 0x1f = [[0x67, 0x01]].length ∧
    0x01 &&& 0x1f = [[0x68]].length ∧
    (∀ u ∈ [[0x67, 0x01]] ++ [[0x68]], u.length < 2 ^ 16) ∧
    avcc_record [0x01, 0x64, 0x00, 0x1f] 0xff 0xe1 [[0x67, 0x01]] 0x01 [[0x68]] [0xaa] =
      sample_extra_data ++ [0xaa] ∧
    (mp4_to_annexb_init blank_state false true
        (avcc_record [0x01, 0x64, 0x00, 0x1f] 0xff 0xe1 [[0x67, 0x01]] 0x01 [[0x68]] [0xaa])
        (avcc_record [0x01, 0x64, 0x00, 0x1f] 0xff 0xe1 [[0x67, 0x01]] 0x01 [[0x68]]
          [0xaa]).length).2.blob =
      annexb_units [[0x67, 0x01]] ++ annexb_units [[0x68]] ∧
    annexb_units [[0x67, 0x01]] ++ annexb_units [[0x68]] =
      [0, 0, 0, 1, 0x67, 0x01, 0, 0, 0, 1, 0x68] :=
  ⟨by decide, by decide, by decide, by decide, by decide,
    (annexb_init_record blank_state [0x01, 0x64, 0x00, 0x1f] 0xff 0xe1 [[0x67, 0x01]] 0x01
      [[0x68]] [0xaa] (by decide) (by decide) (by decide) (by decide)).2.1,
    by decide⟩

/-! ## `mp4_to_annexb_init` on arbitrary data -/

theorem getD_lt (data : List Nat) (hb : ∀ b ∈ data, b < 256) (i : Nat) :
    data.getD i 0 < 256 := by
  rw [List.getD_eq_getElem?_getD]
  cases h : data[i]? with
  | none => simp
  | some x =>
    simp only [Option.getD_some]
    exact hb x (List.getElem?_mem h)

theorem parse_be16_value (data : List Nat) (hb : ∀ b ∈ data, b < 256) (pos : Nat) :
    parse_be16 data pos = 256 * data.getD pos 0 + data.getD (pos + 1) 0 := by
  unfold parse_be16
  have h1 := getD_lt data hb pos
  have h2 := getD_lt data hb (pos + 1)
  have e1 : data.getD pos 0 <<< 8 = 2 ^ 8 * data.getD pos 0 := by
    rw [Nat.shiftLeft_eq, Nat.mul_comm]
  have h3 : data.getD (pos + 1) 0 < 2 ^ 8 := by omega
  rw [e1, ← Nat.mul_add_lt_is_or h3]
  apply Nat.mod_eq_of_lt
  omega

/-- The first pass over units follows the reference walk. -/
theorem init_scan_units_spec (data : List Nat) (size : Nat) (hb : ∀ b ∈ data, b < 256)
    (n : Nat) :
    ∀ pos s,
      (units_end data size n pos = none ∧
        (init_scan_units data size n pos s).1 = Status.BAD_DATA) ∨
      (∃ p, units_end data size n pos = some p ∧
        (init_scan_units data size n pos s).1 = Status.OK ∧
        (init_scan_units data size n pos s).2.1 = p) := by
  induction n with
  | zero => intro pos s; exact Or.inr ⟨pos, rfl, rfl, rfl⟩
  | succ n ih =>
    intro pos s
    have hv := parse_be16_value data hb pos
    simp only [units_end, init_scan_units, hv]
    by_cases h1 : pos + 2 > size
    · rw [if_pos h1, if_neg (by omega)]
      exact Or.inl ⟨rfl, rfl⟩
    · rw [if_neg h1]
      by_cases h2 : pos + 2 + (256 * data.getD pos 0 + data.getD (pos + 1) 0) > size
      · rw [if_pos h2, if_neg (by omega)]
        exact Or.inl ⟨rfl, rfl⟩
      · rw [if_neg h2, if_pos ⟨by omega, by omega⟩]
        exact ih _ _

/-- The first pass of `mp4_to_annexb_init` returns `VOD_BAD_DATA` on malformed records and
OK on all others. -/
theorem init_scan_spec (data : List Nat) (size : Nat) (hb : ∀ b ∈ data, b < 256)
    (h5 : ¬ size < 5) :
    (avcc_malformed data size = true ∧ (init_scan data size 2 5 0).1 = Status.BAD_DATA) ∨
    (avcc_malformed data size = false ∧ (init_scan data size 2 5 0).1 = Status.OK) := by
  unfold avcc_malformed
  rw [if_neg h5]
  simp only [init_scan]
  by_cases h6 : size ≤ 5
  · rw [if_pos h6, if_pos (by omega)]
    exact Or.inl ⟨rfl, rfl⟩
  · rw [if_neg h6, if_neg (by omega)]
    rcases init_scan_units_spec data size hb (data.getD 5 0 &&& 0x1f) 6 0 with
      ⟨u1, r1⟩ | ⟨p, u1, r1, r2⟩
    · rw [u1]
      cases hr : init_scan_units data size (data.getD 5 0 &&& 0x1f) 6 0 with
      | mk rc rest =>
        obtain ⟨p1, s1⟩ := rest
        rw [hr] at r1
        simp only [] at r1
        subst r1
        exact Or.inl ⟨rfl, rfl⟩
    · rw [u1]
      cases hr : init_scan_units data size (data.getD 5 0 &&& 0x1f) 6 0 with
      | mk rc rest =>
        obtain ⟨p1, s1⟩ := rest
        rw [hr] at r1 r2
        simp only [] at r1 r2
        subst r1; subst r2
        simp only []
        by_cases h7 : size ≤ p1
        · rw [if_pos h7, if_pos (by omega)]
          exact Or.inl ⟨rfl, rfl⟩
        · rw [if_neg h7, if_neg (by omega)]
          rcases init_scan_units_spec data size hb (data.getD p1 0 &&& 0x1f) (p1 + 1) s1 with
            ⟨u2, q1⟩ | ⟨p, u2, q1, q2⟩
          · rw [u2]
            cases hq : init_scan_units data size (data.getD p1 0 &&& 0x1f) (p1 + 1) s1 with
            | mk rc2 rest2 =>
              obtain ⟨p2, s2⟩ := rest2
              rw [hq] at q1
              simp only [] at q1
              subst q1
              exact Or.inl ⟨rfl, rfl⟩
          · rw [u2]
            cases hq : init_scan_units data size (data.getD p1 0 &&& 0x1f) (p1 + 1) s1 with
            | mk rc2 rest2 =>
              obtain ⟨p2, s2⟩ := rest2
              rw [hq] at q1
              simp only [] at q1
              subst q1
              exact Or.inr ⟨rfl, rfl⟩

theorem init_status_spec (st : AnnexbState) (simulation_only : Bool) (data : List Nat)
    (size : Nat) (hb : ∀ b ∈ data, b < 256) :
    (avcc_malformed data size = true ∧
      (mp4_to_annexb_init st simulation_only true data size).1 = Status.BAD_DATA) ∨
    (avcc_malformed data size = false ∧
      (mp4_to_annexb_init st simulation_only true data size).1 = Status.OK) := by
  by_cases h5 : size < 5
  · left
    refine ⟨by unfold avcc_malformed; rw [if_pos h5], ?_⟩
    unfold mp4_to_annexb_init
    simp only []
    rw [if_pos h5]
  · unfold mp4_to_annexb_init
    simp only []
    rw [if_neg h5]
    rcases init_scan_spec data size hb h5 with ⟨m, r⟩ | ⟨m, r⟩
    · left
      refine ⟨m, ?_⟩
      cases hr : init_scan data size 2 5 0 with
      | mk rc rest =>
        obtain ⟨p, s⟩ := rest
        rw [hr] at r
        simp only [] at r
        subst r
        rfl
    · right
      refine ⟨m, ?_⟩
      cases hr : init_scan data size 2 5 0 with
      | mk rc rest =>
        obtain ⟨p, s⟩ := rest
        rw [hr] at r
        simp only [] at r
        subst r
        cases simulation_only <;> rfl

theorem parse_be16_agree (a b : List Nat) (e p : Nat) (h : a.take e = b.take e)
    (hp : p + 2 ≤ e) : parse_be16 a p = parse_be16 b p := by
  unfold parse_be16
  rw [getD_agree a b e p h (by omega), getD_agree a b e (p + 1) h (by omega)]

theorem init_scan_units_agree (a b : List Nat) (e : Nat) (h : a.take e = b.take e) (n : Nat) :
    ∀ p s, init_scan_units a e n p s = init_scan_units b e n p s := by
  induction n with
  | zero => intro p s; rfl
  | succ n ih =>
    intro p s
    simp only [init_scan_units]
    by_cases h1 : p + 2 > e
    · rw [if_pos h1, if_pos h1]
    · rw [if_neg h1, if_neg h1, parse_be16_agree a b e p h (by omega)]
      by_cases h2 : p + 2 + parse_be16 b p > e
      · rw [if_pos h2, if_pos h2]
      · rw [if_neg h2, if_neg h2]
        exact ih _ _

theorem init_scan_agree (a b : List Nat) (e : Nat) (h : a.take e = b.take e) (i : Nat) :
    ∀ p s, init_scan a e i p s = init_scan b e i p s := by
  induction i with
  | zero => intro p s; rfl
  | succ i ih =>
    intro p s
    simp only [init_scan]
    by_cases h1 : p ≥ e
    · rw [if_pos h1, if_pos h1]
    · rw [if_neg h1, if_neg h1, getD_agree a b e p h (by omega),
        init_scan_units_agree a b e h]
      cases init_scan_units b e (b.getD p 0 &&& 0x1f) (p + 1) s with
      | mk rc rest =>
        obtain ⟨p1, s1⟩ := rest
        cases rc <;> first | exact ih _ _ | rfl

/-- Where the first pass accepts the units, the second pass walks the same offsets and
copies the same bytes from two buffers that agree below the end. -/
theorem init_copy_units_agree (a b : List Nat) (e : Nat) (h : a.take e = b.take e) (n : Nat) :
    ∀ p s out, (init_scan_units a e n p s).1 = Status.OK →
      init_copy_units a n p out = init_copy_units b n p out ∧
      (init_copy_units a n p out).1 = (init_scan_units a e n p s).2.1 := by
  induction n with
  | zero => intro p s out _; exact ⟨rfl, rfl⟩
  | succ n ih =>
    intro p s out hok
    simp only [init_scan_units] at hok ⊢
    by_cases h1 : p + 2 > e
    · rw [if_pos h1] at hok
      exact absurd hok (by simp)
    · rw [if_neg h1] at hok ⊢
      by_cases h2 : p + 2 + parse_be16 a p > e
      · rw [if_pos h2] at hok
        exact absurd hok (by simp)
      · rw [if_neg h2] at hok ⊢
        simp only [init_copy_units]
        rw [← parse_be16_agree a b e p h (by omega),
          ← slice_agree a b e (p + 2) (parse_be16 a p) h (by omega)]
        exact ih _ _ _ hok

theorem init_copy_agree (a b : List Nat) (e : Nat) (h : a.take e = b.take e) (i : Nat) :
    ∀ p s out, (init_scan a e i p s).1 = Status.OK →
      init_copy a i p out = init_copy b i p out := by
  induction i with
  | zero => intro p s out _; rfl
  | succ i ih =>
    intro p s out hok
    simp only [init_scan] at hok
    by_cases h1 : p ≥ e
    · rw [if_pos h1] at hok
      exact absurd hok (by simp)
    · rw [if_neg h1] at hok
      simp only [init_copy]
      cases hr : init_scan_units a e (a.getD p 0 &&& 0x1f) (p + 1) s with
      | mk rc rest =>
        obtain ⟨p1, s1⟩ := rest
        rw [hr] at hok
        by_cases hrc : rc = Status.OK
        · subst hrc
          simp only [] at hok
          obtain ⟨c1, c2⟩ := init_copy_units_agree a b e h (a.getD p 0 &&& 0x1f) (p + 1) s out
            (by rw [hr])
          rw [hr] at c2
          simp only [] at c2
          rw [← getD_agree a b e p h (by omega), ← c1, c2]
          exact ih _ _ _ hok
        · exfalso
          cases rc <;> first | exact hrc rfl | exact absurd hok (by simp)

/-- `mp4_to_annexb_init` gives the same result on two memories that agree on the first
`extra_data_size` bytes. -/
theorem init_agree (st : AnnexbState) (simulation_only alloc_ok : Bool) (a b : List Nat)
    (e : Nat) (h : a.take e = b.take e) :
    mp4_to_annexb_init st simulation_only alloc_ok a e =
      mp4_to_annexb_init st simulation_only alloc_ok b e := by
  unfold mp4_to_annexb_init
  simp only []
  by_cases h5 : e < 5
  · rw [if_pos h5, if_pos h5]
  · rw [if_neg h5, if_neg h5, getD_agree a b e 4 h (by omega), ← init_scan_agree a b e h]
    cases hr : init_scan a e 2 5 0 with
    | mk rc rest =>
      obtain ⟨p, s⟩ := rest
      by_cases hrc : rc = Status.OK
      · subst hrc
        simp only []
        rw [init_copy_agree a b e h 2 5 0 [] (by rw [hr])]
      · cases rc <;> first | exact absurd rfl hrc | rfl

/-- C12: `mp4_to_annexb_init` rejects exactly the malformed records and stays in bounds.
For every sequence of bytes as extra data, with an allocator that succeeds, init returns
`VOD_BAD_DATA` if and only if the data is shorter than 5 bytes, or the SPS or the PPS
count byte lies at or past the end, or the two-byte length field of some unit or the bytes
it declares extend past the end (`avcc_malformed`); on all other data it returns OK; and
the whole result is the same on any memory that holds the same bytes at the offsets below
`extra_data_size`: neither pass reads a byte at or beyond the end. -/
theorem annexb_init_rejects (st : AnnexbState) (simulation_only : Bool) (extra_data : List Nat)
    (extra_data_size : Nat) (hb : ∀ b ∈ extra_data, b < 256) :
    ((mp4_to_annexb_init st simulation_only true extra_data extra_data_size).1 = Status.BAD_DATA ↔
      avcc_malformed extra_data extra_data_size = true) ∧
    ((mp4_to_annexb_init st simulation_only true extra_data extra_data_size).1 = Status.OK ↔
      avcc_malformed extra_data extra_data_size = false) ∧
    (∀ (alloc_ok : Bool) (memory : List Nat),
      memory.take extra_data_size = extra_data.take extra_data_size →
      mp4_to_annexb_init st simulation_only alloc_ok memory extra_data_size =
        mp4_to_annexb_init st simulation_only alloc_ok extra_data extra_data_size) := by
  refine ⟨?_, ?_, fun alloc_ok memory h => init_agree st simulation_only alloc_ok _ _ _ h⟩
  · rcases init_status_spec st simulation_only extra_data extra_data_size hb with
      ⟨m, r⟩ | ⟨m, r⟩
    · exact ⟨fun _ => m, fun _ => r⟩
    · rw [m, r]
      exact ⟨fun h => absurd h (by simp), fun h => absurd h (by simp)⟩
  · rcases init_status_spec st simulation_only extra_data extra_data_size hb with
      ⟨m, r⟩ | ⟨m, r⟩
    · rw [m, r]
      exact ⟨fun h => absurd h (by simp), fun h => absurd h (by simp)⟩
    · exact ⟨fun _ => m, fun _ => r⟩

theorem annexb_init_rejects_witness :
    (∀ b ∈ sample_extra_data, b < 256) ∧
    avcc_malformed sample_extra_data 14 = false ∧
    avcc_malformed sample_extra_data 13 = true ∧
    avcc_malformed sample_extra_data 10 = true ∧
    ((mp4_to_annexb_init blank_state false true sample_extra_data 14).1 = Status.OK ↔
      avcc_malformed sample_extra_data 14 = false) ∧
    ((mp4_to_annexb_init blank_state false true sample_extra_data 13).1 = Status.BAD_DATA ↔
      avcc_malformed sample_extra_data 13 = true) ∧
    (mp4_to_annexb_init blank_state false true (sample_extra_data ++ [7, 7, 7]) 14 =
      mp4_to_annexb_init blank_state false true sample_extra_data 14) :=
  ⟨by decide, by decide, by decide, by decide,
    (annexb_init_rejects blank_state false sample_extra_data 14 (by decide)).2.1,
    (annexb_init_rejects blank_state false sample_extra_data 13 (by decide)).1,
    (annexb_init_rejects blank_state false sample_extra_data 14 (by decide)).2.2 true
      (sample_extra_data ++ [7, 7, 7]) (by decide)⟩

end Vod
